import Mathlib

/-!
# Approximate sliding-window bit counting (exponential histogram)

A shallow embedding of `window-bit-count-apx.h` and a verification of the
properties its specification states.

Conventions of the embedding:

* C unsigned integers are natural numbers, and every C operation that can wrap
  is followed by an explicit reduction (`u32`, `u64`, `sub32`, `sub64`);
* `int32_t` slot indices are integers, `-1` being the "no bucket" sentinel;
* the bucket arena is a function from slot numbers to buckets together with the
  number of allocated slots (`max_buckets`); an access outside `0 .. max_buckets-1`
  is undefined behaviour in C and is the fault `out_of_bounds` here, and so is
  an access outside `0 .. 63` of `count` or `last_of_size`;
* a failed `assert` is the fault `assertion`;
* `floor(log2((double)wnd_size))` is the exact integer logarithm: a 32-bit
  value converts to a double without rounding, and `log2` separates consecutive
  powers of two.
-/

namespace WindowBitCountApx

/-! ## Data model -/

/-- Ways in which a call leaves defined behaviour. -/
inductive Fault where
  | assertion
  | out_of_bounds
  | divergence
deriving DecidableEq

/-- The C struct `Bucket`. -/
structure Bucket where
  timestamp : Nat
  size : Nat
  prev : Int
  next : Int
deriving DecidableEq

/-- The C struct `StateApx`; `buckets` is the arena behind the pointer of the
same name, and `N_MERGES` is the file-scope merge counter, threaded with the
state. -/
structure StateApx where
  wnd_size : Nat
  k : Nat
  current_time : Nat
  buckets : Nat → Bucket
  head : Int
  tail : Int
  free_head : Int
  max_buckets : Nat
  total_sum : Nat
  last_of_size : Nat → Int
  count : Nat → Nat
  N_MERGES : Nat

/-! ## Machine arithmetic -/

/-- Reduction to `uint32_t`. -/
def u32 (n : Nat) : Nat := n % 4294967296

/-- Reduction to `uint64_t`. -/
def u64 (n : Nat) : Nat := n % 18446744073709551616

/-- Subtraction of `uint32_t` values. -/
def sub32 (a b : Nat) : Nat := (u32 a + (4294967296 - u32 b)) % 4294967296

/-- Subtraction of `uint64_t` values. -/
def sub64 (a b : Nat) : Nat :=
  (u64 a + (18446744073709551616 - u64 b)) % 18446744073709551616

/-- Conversion of a `uint32_t` value to `int32_t` (two's complement). -/
def i32 (n : Nat) : Int :=
  if u32 n < 2147483648 then (u32 n : Int) else (u32 n : Int) - 4294967296

/-- Trailing zero bits of `n`, looking at no more than `fuel` bits. -/
def ctz_aux : Nat → Nat → Nat
  | 0, _ => 0
  | fuel + 1, n => if n % 2 = 1 then 0 else ctz_aux fuel (n / 2) + 1

/-- The builtin `__builtin_ctzll` on a 64-bit value. On `0`, where C leaves the
result undefined, this gives 64, which is outside every class array. -/
def ctzll (n : Nat) : Nat := ctz_aux 64 (u64 n)

/-- Integer part of the binary logarithm, by repeated halving. -/
def floor_log2_aux : Nat → Nat → Nat
  | 0, _ => 0
  | fuel + 1, n => if n < 2 then 0 else floor_log2_aux fuel (n / 2) + 1

/-- The value of `floor(log2((double)n))` for a 32-bit `n ≥ 1`. -/
def floor_log2 (n : Nat) : Nat := floor_log2_aux 64 n

/-- The constant `sizeof(Bucket)`: two 8-byte and two 4-byte members. -/
def sizeof_Bucket : Nat := 24

/-! ## Memory accesses -/

/-- Read `self->buckets[i]`. -/
def get_bucket (s : StateApx) (i : Int) : Except Fault Bucket :=
  if 0 ≤ i ∧ i < (s.max_buckets : Int) then .ok (s.buckets i.toNat)
  else .error .out_of_bounds

/-- Write `self->buckets[i]`. -/
def set_bucket (s : StateApx) (i : Int) (b : Bucket) : Except Fault StateApx :=
  if 0 ≤ i ∧ i < (s.max_buckets : Int) then
    .ok { s with buckets := Function.update s.buckets i.toNat b }
  else .error .out_of_bounds

/-- Read `self->count[i]`. -/
def get_count (s : StateApx) (i : Nat) : Except Fault Nat :=
  if i < 64 then .ok (s.count i) else .error .out_of_bounds

/-- Write `self->count[i]`. -/
def set_count (s : StateApx) (i : Nat) (c : Nat) : Except Fault StateApx :=
  if i < 64 then .ok { s with count := Function.update s.count i c }
  else .error .out_of_bounds

/-- Read `self->last_of_size[i]`. -/
def get_last (s : StateApx) (i : Nat) : Except Fault Int :=
  if i < 64 then .ok (s.last_of_size i) else .error .out_of_bounds

/-- Write `self->last_of_size[i]`. -/
def set_last (s : StateApx) (i : Nat) (x : Int) : Except Fault StateApx :=
  if i < 64 then .ok { s with last_of_size := Function.update s.last_of_size i x }
  else .error .out_of_bounds

/-! ## Construction -/

/-- The value stored in `max_buckets` by the constructor. -/
def capacity (wnd_size k : Nat) : Nat :=
  let max_sizes := u32 (floor_log2 wnd_size + 1)
  let max_b := u64 (max_sizes * u32 (k + 2))
  let max_b := if u64 (wnd_size + 1) < max_b then u64 (wnd_size + 1) else max_b
  u32 max_b

/-- The value stored in `buckets[i].next` by the loop that threads the free
list: `(i == max_buckets - 1) ? -1 : (i + 1)`, computed in `uint32_t` and
converted to `int32_t`. -/
def free_link (max_buckets i : Nat) : Int :=
  i32 (if i = sub32 max_buckets 1 then 4294967295 else u32 (i + 1))

/-- The first `i` rounds of the loop that threads the free list. -/
def link_free_slots (max_buckets : Nat) : Nat → (Nat → Bucket) → Nat → Bucket
  | 0, bs => bs
  | i + 1, bs =>
    let bs1 := link_free_slots max_buckets i bs
    Function.update bs1 i { bs1 i with next := free_link max_buckets i }

/-- The function `wnd_bit_count_apx_new`. `mem` is the content of the freshly
allocated arena, `merges` the value of the global `N_MERGES` at the call. The
result is the initialised state and the returned number of bytes. -/
def wnd_bit_count_apx_new (mem : Nat → Bucket) (merges : Nat) (wnd_size k : Nat) :
    Except Fault (StateApx × Nat) :=
  if ¬ (wnd_size ≥ 1) then .error .assertion
  else if ¬ (k ≥ 1) then .error .assertion
  else
    let max_buckets := capacity wnd_size k
    let memory := u64 (max_buckets * sizeof_Bucket)
    .ok ({ wnd_size := wnd_size
           k := k
           current_time := 0
           total_sum := 0
           last_of_size := fun _ => -1
           count := fun _ => 0
           max_buckets := max_buckets
           buckets := link_free_slots max_buckets max_buckets mem
           head := -1
           tail := -1
           free_head := 0
           N_MERGES := merges }, memory)

/-! ## The step function -/

/-- One round of the loop "remove expired buckets" whose test found the oldest
bucket outside the window: the body of the `if`, where `oldest` is
`self->buckets[self->tail]`. -/
def expire_tail (s : StateApx) (oldest : Bucket) : Except Fault StateApx := do
  let s := { s with total_sum := sub64 s.total_sum oldest.size }
  let i := ctzll oldest.size
  let c ← get_count s i
  let s ← set_count s i (sub32 c 1)
  let c ← get_count s i
  let s ← if c = 0 then set_last s i (-1) else set_last s i oldest.prev
  let prev := oldest.prev
  let s ← if prev ≠ -1 then do
            let b ← get_bucket s prev
            set_bucket s prev { b with next := -1 }
          else pure { s with head := -1 }
  let old_tail := s.tail
  let s := { s with tail := prev }
  let b ← get_bucket s old_tail
  let s ← set_bucket s old_tail { b with next := s.free_head }
  pure { s with free_head := old_tail }

/-- The loop "remove expired buckets"; `fuel` bounds the number of rounds. -/
def expire_loop : Nat → StateApx → Except Fault StateApx
  | 0, _ => .error .divergence
  | fuel + 1, s =>
    if s.tail = -1 then .ok s
    else do
      let oldest ← get_bucket s s.tail
      if sub64 s.current_time oldest.timestamp ≥ s.wnd_size then
        let s ← expire_tail s oldest
        expire_loop fuel s
      else .ok s

/-- The block "add a new bucket of size 1 at the head of the list", up to the
merge loop. -/
def admit_bucket (s : StateApx) : Except Fault StateApx := do
  let s := { s with total_sum := u64 (s.total_sum + 1) }
  if s.free_head = -1 then .error .assertion
  else
    let new_idx := s.free_head
    let b ← get_bucket s new_idx
    let s := { s with free_head := b.next }
    let s ← set_bucket s new_idx
      { timestamp := s.current_time, size := 1, prev := -1, next := s.head }
    let s ← if s.head ≠ -1 then do
              let h ← get_bucket s s.head
              set_bucket s s.head { h with prev := new_idx }
            else pure { s with tail := new_idx }
    let s := { s with head := new_idx }
    let c ← get_count s 0
    let s ← set_count s 0 (u32 (c + 1))
    let l ← get_last s 0
    if l = -1 then set_last s 0 new_idx else pure s

/-- One round of the loop "merge buckets" at class index `i`: the body of the
`while`, without the final `i++`. -/
def merge_pair (s : StateApx) (i : Nat) : Except Fault StateApx := do
  let oldest_idx ← get_last s i
  let b_oldest ← get_bucket s oldest_idx
  let second_oldest_idx := b_oldest.prev
  let b_second ← get_bucket s second_oldest_idx
  let s ← set_bucket s second_oldest_idx { b_second with size := u64 (b_second.size * 2) }
  let b_oldest ← get_bucket s oldest_idx
  let b_oldest_next := b_oldest.next
  let b_second ← get_bucket s second_oldest_idx
  let s ← set_bucket s second_oldest_idx { b_second with next := b_oldest_next }
  let s ← if b_oldest_next ≠ -1 then do
            let b ← get_bucket s b_oldest_next
            set_bucket s b_oldest_next { b with prev := second_oldest_idx }
          else pure { s with tail := second_oldest_idx }
  let b_oldest ← get_bucket s oldest_idx
  let s ← set_bucket s oldest_idx { b_oldest with next := s.free_head }
  let s := { s with free_head := oldest_idx }
  let c ← get_count s i
  let s ← set_count s i (sub32 c 2)
  let c ← get_count s i
  let b_second ← get_bucket s second_oldest_idx
  let s ← if c = 0 then set_last s i (-1) else set_last s i b_second.prev
  let c ← get_count s (i + 1)
  let s ← set_count s (i + 1) (u32 (c + 1))
  let l ← get_last s (i + 1)
  let s ← if l = -1 then set_last s (i + 1) second_oldest_idx else pure s
  pure { s with N_MERGES := u64 (s.N_MERGES + 1) }

/-- The loop "merge buckets", entered with class index `i`; `fuel` bounds the
number of rounds. -/
def merge_loop : Nat → Nat → StateApx → Except Fault StateApx
  | 0, _, _ => .error .divergence
  | fuel + 1, i, s => do
    let c ← get_count s i
    if c = u32 (s.k + 2) then
      let s ← merge_pair s i
      merge_loop fuel (i + 1) s
    else pure s

/-- The final block: the returned estimate. -/
def answer (s : StateApx) : Except Fault Nat :=
  if s.tail = -1 then pure 0
  else do
    let b ← get_bucket s s.tail
    pure (u32 (u64 (sub64 s.total_sum b.size + 1)))

/-- The state part of `wnd_bit_count_apx_next`: tick, expiry, and on a 1-bit
admission and merging. The expiry loop can run at most once per live bucket and
the merge loop at most once per class, which fixes the fuel. -/
def advance_state (s : StateApx) (item : Bool) : Except Fault StateApx := do
  let s := { s with current_time := u64 (s.current_time + 1) }
  let s ← expire_loop (s.max_buckets + 1) s
  if item then do
    let s ← admit_bucket s
    merge_loop 65 0 s
  else pure s

/-- The function `wnd_bit_count_apx_next`: the new state and the returned
estimate. -/
def wnd_bit_count_apx_next (s : StateApx) (item : Bool) : Except Fault (StateApx × Nat) := do
  let s ← advance_state s item
  let r ← answer s
  pure (s, r)

/-! ## Runs -/

/-- One more call on the result of a run, collecting the returned value. -/
def feed (acc : Except Fault (StateApx × List Nat)) (item : Bool) :
    Except Fault (StateApx × List Nat) := do
  let (s, outs) ← acc
  let (s, r) ← wnd_bit_count_apx_next s item
  pure (s, outs ++ [r])

/-- Construct a state and feed it a stream, oldest bit first: the final state
and the values returned by the calls. -/
def run (mem : Nat → Bucket) (merges wnd_size k : Nat) (bits : List Bool) :
    Except Fault (StateApx × List Nat) :=
  bits.foldl feed (do
    let (s, _) ← wnd_bit_count_apx_new mem merges wnd_size k
    pure (s, []))

/-- The values returned along a run. -/
def outputs (mem : Nat → Bucket) (merges wnd_size k : Nat) (bits : List Bool) :
    Except Fault (List Nat) := do
  let (_, outs) ← run mem merges wnd_size k bits
  pure outs

/-- Walk the live list from slot `h` along `next`, for at most `fuel` slots. -/
def walk (s : StateApx) : Nat → Int → List Nat
  | 0, _ => []
  | fuel + 1, h =>
    if 0 ≤ h ∧ h < (s.max_buckets : Int) then
      h.toNat :: walk s fuel (s.buckets h.toNat).next
    else []

/-- The slots of the live list, head first. -/
def live_slots (s : StateApx) : List Nat := walk s s.max_buckets s.head

/-- The live buckets, head (newest) first. -/
def live (s : StateApx) : List Bucket := (live_slots s).map s.buckets

/-- An arena whose slots all hold the same bytes. -/
def blank : Nat → Bucket := fun _ => { timestamp := 0, size := 0, prev := 0, next := 0 }

/-! ## Notions the specification speaks of -/

/-- Number of 1-bits among the trailing `wnd_size` inputs of `bits` (among all
of them while the stream is shorter than the window). -/
def trailing_ones (wnd_size : Nat) (bits : List Bool) : Nat :=
  (bits.reverse.take wnd_size).count true

/-- The quotient `c / k` rounded up. -/
def ceil_div (c k : Nat) : Nat := (c + k - 1) / k

/-- Number of 1-bits at the ticks `a+1, ..., b` of `bits`; ticks count from 1. -/
def ones_in (bits : List Bool) (a b : Nat) : Nat := ((bits.take b).drop a).count true

/-- Timestamp and size of the bucket in slot `x`. -/
def pay (bs : Nat → Bucket) (x : Nat) : Nat × Nat := ((bs x).timestamp, (bs x).size)

/-- Sizes of a list of (timestamp, size) pairs. -/
def sizes (A : List (Nat × Nat)) : List Nat := A.map Prod.snd

/-- Timestamps of a list of (timestamp, size) pairs. -/
def stamps (A : List (Nat × Nat)) : List Nat := A.map Prod.fst

/-- A slot as stored in an index field, `-1` when there is none. -/
def slot_or_none : Option Nat → Int
  | none => -1
  | some x => (x : Int)

/-- The tail-most slot of `L` whose bucket has size `2^i`, by a scan of `L`. -/
def class_last (bs : Nat → Bucket) (L : List Nat) (i : Nat) : Int :=
  slot_or_none ((L.filter (fun x => decide ((bs x).size = 2 ^ i))).getLast?)

/-! ## Representation invariant -/

/-- The slots `L` form a doubly linked segment from `h` to `t`; `p` is the `prev`
of its first slot and `q` the `next` of its last one. When `L` is empty, `h = q`
and `t = p`. -/
def DL (bs : Nat → Bucket) (n : Nat) : Int → Int → List Nat → Int → Int → Prop
  | p, h, [], t, q => h = q ∧ t = p
  | p, h, x :: xs, t, q =>
    h = (x : Int) ∧ x < n ∧ (bs x).prev = p ∧ DL bs n (x : Int) (bs x).next xs t q

/-- The slots `F` form a singly linked chain from `h`, ending with the link `e`. -/
def FL (bs : Nat → Bucket) (n : Nat) : Int → List Nat → Int → Prop
  | h, [], e => h = e
  | h, x :: xs, e => h = (x : Int) ∧ x < n ∧ FL bs n (bs x).next xs e

/-- The pointer structure of a state: `L` is the live list, `F` the free list,
whose last link is `e`, and the class arrays and the running sum agree with a
scan of `L`. -/
structure Rep (e : Int) (s : StateApx) (L F : List Nat) : Prop where
  live : DL s.buckets s.max_buckets (-1) s.head L s.tail (-1)
  free : FL s.buckets s.max_buckets s.free_head F e
  nodup : (L ++ F).Nodup
  term : ¬ (0 ≤ e ∧ e < (s.max_buckets : Int))
  small : s.max_buckets < 4294967296
  full : e = -1 → L.length + F.length = s.max_buckets
  sum : s.total_sum = (sizes (L.map (pay s.buckets))).sum
  cnt : ∀ i, i < 64 → s.count i = (sizes (L.map (pay s.buckets))).count (2 ^ i)
  last : ∀ i, i < 64 → s.last_of_size i = class_last s.buckets L i

/-- The fields that a call never changes after construction, and the clock. -/
def SameFrame (s1 s : StateApx) : Prop :=
  s1.wnd_size = s.wnd_size ∧ s1.k = s.k ∧ s1.current_time = s.current_time ∧
    s1.max_buckets = s.max_buckets

/-- The arena after one round of the merge loop, when `x` is the oldest bucket
of its class and `y` the bucket before it: `y` doubles and takes over the `next`
link of `x`, the bucket after `x` (if any) points back to `y`, and `x` goes to
the head of the free list `fh`. -/
def merged_arena (bs : Nat → Bucket) (x y : Nat) (fh : Int) : Nat → Bucket :=
  fun z =>
    if z = x then { bs x with next := fh }
    else if z = y then { bs y with size := u64 ((bs y).size * 2), next := (bs x).next }
    else if (z : Int) = (bs x).next then { bs z with prev := (y : Int) }
    else bs z

/-- The state after one round of the merge loop at class `i`, when `x` is the
slot in `last_of_size[i]` and `y` the slot before it, all accesses being inside
their arrays. -/
def merged (s : StateApx) (i x y : Nat) : StateApx :=
  let cnt1 := Function.update s.count i (sub32 (s.count i) 2)
  let last1 := Function.update s.last_of_size i
    (if cnt1 i = 0 then -1 else (s.buckets y).prev)
  let cnt2 := Function.update cnt1 (i + 1) (u32 (cnt1 (i + 1) + 1))
  let last2 := Function.update last1 (i + 1)
    (if last1 (i + 1) = -1 then (y : Int) else last1 (i + 1))
  { s with
    buckets := merged_arena s.buckets x y s.free_head
    tail := if (s.buckets x).next = -1 then (y : Int) else s.tail
    free_head := (x : Int)
    count := cnt2
    last_of_size := last2
    N_MERGES := u64 (s.N_MERGES + 1) }

/-- The tick below the bucket list `A`: the timestamp of its first bucket, or
`E` when it is empty. -/
def lo_of (E : Nat) : List (Nat × Nat) → Nat
  | [] => E
  | a :: _ => a.1

/-- Every bucket of `A` holds exactly the 1-bits between the timestamp of the
next older bucket (or `E` for the oldest one) and its own timestamp. -/
def Acc (bits : List Bool) (E : Nat) : List (Nat × Nat) → Prop
  | [] => True
  | a :: rest => ones_in bits (lo_of E rest) a.1 = a.2 ∧ Acc bits E rest

/-- The histogram invariant of a bucket list `A` (newest first) after the
stream `bits`, at clock value `now`; `E` is the timestamp of the bucket that
expired last (0 when none did). -/
structure Good (W k : Nat) (bits : List Bool) (now E : Nat) (A : List (Nat × Nat)) : Prop where
  pow : ∀ a, a ∈ A → ∃ i, a.2 = 2 ^ i
  sorted : (sizes A).Pairwise (fun a b => a ≤ b)
  desc : (stamps A).Pairwise (fun a b => b < a)
  window : ∀ a, a ∈ A → a.1 ≤ bits.length ∧ now ≤ a.1 + W
  expired : E = 0 ∨ E + W ≤ now
  expired_le : E ≤ bits.length
  acc : Acc bits E A
  top : ones_in bits (lo_of E A) bits.length = 0
  hot : ∀ a, a ∈ A → ones_in bits (a.1 - 1) a.1 = 1
  lower : ∀ i j, i < j → 0 < (sizes A).count (2 ^ j) → k ≤ (sizes A).count (2 ^ i)

/-- Every class but `j` has at most `k + 1` buckets, class `j` at most `k + 2`. -/
def Capped (k j : Nat) (A : List (Nat × Nat)) : Prop :=
  ∀ i, (sizes A).count (2 ^ i) ≤ k + 1 + (if i = j then 1 else 0)

/-- Every class has at most `k + 1` buckets. -/
def Bounded (k : Nat) (A : List (Nat × Nat)) : Prop :=
  ∀ i, (sizes A).count (2 ^ i) ≤ k + 1

/-- The link that ends the free list of a state built for `(W, k)`: `-1` when
the slot numbers fit `int32_t`, the wrapped link of slot `2^31 - 1` when they
do not, and the dangling initial `free_head` when the arena has no slot. -/
def free_end (W k : Nat) : Int :=
  if capacity W k = 0 then 0
  else if capacity W k ≤ 2147483648 then -1
  else -2147483648

/-- The parameters for which no computation of the constructor wraps: `k + 2`
fits 32 bits and the number of slots fits the positive range of `int32_t`. -/
def Safe (W k : Nat) : Prop :=
  k + 2 < 4294967296 ∧ min (W + 1) ((floor_log2 W + 1) * (k + 2)) ≤ 2147483648

/-- What holds of a state at every point of a call: `L`, `F` and `E` are the
live list, the free list and the timestamp that expired last, `now` is the
clock and `bits` the stream that the buckets account for. -/
structure Core (W k : Nat) (e : Int) (bits : List Bool) (now : Nat) (s : StateApx)
    (L F : List Nat) (E : Nat) : Prop where
  wnd : s.wnd_size = W
  par : s.k = k
  clock : s.current_time = now
  cap : s.max_buckets = capacity W k
  rep : Rep e s L F
  good : Good W k bits now E (L.map (pay s.buckets))
  dom : k + 2 < 4294967296 ∨ L = []

/-- Every bucket of `A` is inside the window that ends at `now`. -/
def InWindow (W now : Nat) (A : List (Nat × Nat)) : Prop :=
  ∀ a, a ∈ A → now < a.1 + W

/-- The invariant of the states between two calls: `s` is what a state built
for `(W, k)` looks like after the stream `bits`. `e` is the last link of the
free list. -/
def Inv (W k : Nat) (e : Int) (bits : List Bool) (s : StateApx) : Prop :=
  ∃ L F E,
    Core W k e bits bits.length s L F E ∧
    Bounded k (L.map (pay s.buckets)) ∧
    InWindow W bits.length (L.map (pay s.buckets))

/-! ## Observing results -/

/-- A state with no arena and an empty list, standing for the state of a call
that failed. -/
def idle : StateApx :=
  { wnd_size := 0, k := 0, current_time := 0, buckets := blank, head := -1, tail := -1,
    free_head := -1, max_buckets := 0, total_sum := 0, last_of_size := fun _ => -1,
    count := fun _ => 0, N_MERGES := 0 }

/-- Whether a computation stayed inside defined behaviour. -/
def is_ok {α : Type} (r : Except Fault α) : Bool :=
  match r with
  | .ok _ => true
  | .error _ => false

/-- The fault of a computation, if it left defined behaviour. -/
def fault_of {α : Type} (r : Except Fault α) : Option Fault :=
  match r with
  | .ok _ => none
  | .error err => some err

/-- The state a computation ends in (`idle` when it failed). -/
def state_of {α : Type} (r : Except Fault (StateApx × α)) : StateApx :=
  match r with
  | .ok p => p.1
  | .error _ => idle

/-- The values returned along a run (none when it failed). -/
def outs_of (r : Except Fault (StateApx × List Nat)) : List Nat :=
  match r with
  | .ok p => p.2
  | .error _ => []

/-- The value returned by a call (0 when it failed). -/
def value_of (r : Except Fault (StateApx × Nat)) : Nat :=
  match r with
  | .ok p => p.2
  | .error _ => 0

/-- The timestamps and sizes of the live buckets, head first. -/
def live_pairs (s : StateApx) : List (Nat × Nat) :=
  (live s).map (fun b => (b.timestamp, b.size))

/-! ## Sample states -/

/-- The state after one 1-bit, for window 3 and `k = 1`. -/
def after_one : StateApx := state_of (run blank 0 3 1 [true])

/-- The state after a second 1-bit. -/
def after_two : StateApx := state_of (wnd_bit_count_apx_next after_one true)

/-- The state after three 1-bits, for window 3 and `k = 1`: the third bit
triggers a merge. -/
def after_three : StateApx := state_of (run blank 0 3 1 [true, true, true])

/-- The state after the bits 1, 1, 0, 0, for window 3 and `k = 1`: the bucket
of tick 1 has expired. -/
def after_four : StateApx := state_of (run blank 0 3 1 [true, true, false, false])

/-! ## Points inside a call -/

/-- The state of a call after the tick and the loop "remove expired buckets". -/
def after_expiry (s : StateApx) : Except Fault StateApx :=
  expire_loop (s.max_buckets + 1) { s with current_time := u64 (s.current_time + 1) }

/-- The state of a call with a 1-bit after the tick, the expiry loop and the
admission of the new bucket, at the entry of the loop "merge buckets". -/
def after_admission (s : StateApx) : Except Fault StateApx := do
  let s ← after_expiry s
  admit_bucket s

/-- The rounds of the loop "merge buckets" entered with class index `i`: the
class index and the state at every test `count[i] == k + 2` that succeeds. -/
def merge_points : Nat → Nat → StateApx → List (Nat × StateApx)
  | 0, _, _ => []
  | fuel + 1, i, s =>
    match get_count s i with
    | .ok c =>
      if c = u32 (s.k + 2) then
        (i, s) :: (match merge_pair s i with
                   | .ok s1 => merge_points fuel (i + 1) s1
                   | .error _ => [])
      else []
    | .error _ => []

/-- The merge rounds of a call with a 1-bit on the state `s`. -/
def call_merge_points (s : StateApx) : List (Nat × StateApx) :=
  match after_admission s with
  | .ok s2 => merge_points 65 0 s2
  | .error _ => []

/-- The slots of the free list, followed from `free_head` along `next`. -/
def free_slots (s : StateApx) : List Nat := walk s s.max_buckets s.free_head

/-- The invariant at a test of the merge loop with class index `i`: the state
satisfies everything but the bound on class `i`, which may hold `k + 2`
buckets. -/
structure Mid (W k : Nat) (e : Int) (bits : List Bool) (i : Nat) (s : StateApx)
    (L F : List Nat) (E : Nat) : Prop where
  core : Core W k e bits bits.length s L F E
  capped : Capped k i (L.map (pay s.buckets))
  window : InWindow W bits.length (L.map (pay s.buckets))
  par : k + 2 < 4294967296
  len : bits.length < 18446744073709551616
  idx : i < 64

/-- What one round of the merge loop at class `i` does to a state whose live
list is `A1 ++ y :: x :: B`: `x` is the oldest bucket of size `2^i`, `y` its
predecessor, and `s1` the state after the round. -/
structure MergeRound (i : Nat) (s s1 : StateApx) (A1 : List Nat) (y x : Nat) (B : List Nat) :
    Prop where
  size_x : (s.buckets x).size = 2 ^ i
  size_y : (s.buckets y).size = 2 ^ i
  rest : ∀ z, z ∈ B → (s.buckets z).size ≠ 2 ^ i
  idx : i + 1 < 64
  round : merge_pair s i = .ok s1
  pairs : (A1 ++ y :: B).map (pay s1.buckets) =
    A1.map (pay s.buckets) ++ ((s.buckets y).timestamp, 2 ^ (i + 1)) :: B.map (pay s.buckets)
  frame : SameFrame s1 s
  merges : s1.N_MERGES = u64 (s.N_MERGES + 1)
  sum : s1.total_sum = s.total_sum
  oldest : s.last_of_size i = (x : Int)
  prev_x : (s.buckets x).prev = (y : Int)
  prev_y : ∃ (A0 : List Nat) (a : Nat), A1 = A0 ++ [a] ∧ (s.buckets y).prev = (a : Int) ∧
    (s.buckets a).size = 2 ^ i

/-- The bucket `a`, live after a call at tick `now`, has a lawful history with
respect to the buckets `A0` that were live before the call: it is the bucket
admitted by the call, or it was live with the same size, or it was live with
half the size. -/
def Settled (A0 : List (Nat × Nat)) (now : Nat) (a : Nat × Nat) : Prop :=
  a = (now, 1) ∨ a ∈ A0 ∨ ∃ v0, (a.1, v0) ∈ A0 ∧ a.2 = 2 * v0

/-- The bucket list `A` at the test of the merge loop with class index `i`: one
bucket `c` of size `2^i`, the newest of its class, is the one that the call
produced last (by admission or by the previous round), and every other bucket
of that size or a larger one is as it was before the call. -/
def Frontier (A0 : List (Nat × Nat)) (now i : Nat) (A : List (Nat × Nat)) : Prop :=
  ∃ c, c ∈ A ∧ c.2 = 2 ^ i ∧ (∀ a, a ∈ A → a.2 = 2 ^ i → a.1 ≤ c.1) ∧
    (∀ a, a ∈ A → a ≠ c → 2 ^ i ≤ a.2 → a ∈ A0) ∧ ∀ a, a ∈ A → Settled A0 now a

/-- The bucket list of `n` buckets of size 1 with the timestamps `lo + n`, ...,
`lo + 1`, newest first. -/
def ones_run (lo : Nat) : Nat → List (Nat × Nat)
  | 0 => []
  | n + 1 => (lo + n + 1, 1) :: ones_run lo n

/-! ## More sample states -/

/-- The state after three 1-bits, for window 16 and `k = 1`. -/
def after_three_wide : StateApx := state_of (run blank 0 16 1 [true, true, true])

/-- The state after two 1-bits, for window 16 and `k = 1`. -/
def after_two_wide : StateApx := state_of (run blank 0 16 1 [true, true])

/-- The state after four 1-bits, for window 4 and `k = 10`. -/
def after_four_ones : StateApx := state_of (run blank 0 4 10 [true, true, true, true])

/-- The state a computation on states ends in (`idle` when it failed). -/
def end_of (r : Except Fault StateApx) : StateApx :=
  match r with
  | .ok s => s
  | .error _ => idle

/-- The state after two 1-bits, for window 3 and `k = 1`, as a run reaches it. -/
def before_merge : StateApx := state_of (run blank 0 3 1 [true, true])

/-- The first merge round of a call with a 1-bit on `before_merge`: its class
index and the state at the test of the loop. -/
def merge_sample : Nat × StateApx := (call_merge_points before_merge).headD (0, idle)

/-- The state after the merge round `merge_sample`. -/
def merged_sample : StateApx := end_of (merge_pair merge_sample.2 merge_sample.1)

/-- The state built for window 1 and `k = 2^32 - 1`, where `k + 2` wraps to 1. -/
def wrapped_state : StateApx := state_of (wnd_bit_count_apx_new blank 0 1 4294967295)

/-- The first merge round of a call with a 1-bit on `wrapped_state`. -/
def wrapped_point : Nat × StateApx := (call_merge_points wrapped_state).headD (0, idle)

/-! ## Basic facts -/

@[simp] theorem ok_bind {α β : Type} (a : α) (f : α → Except Fault β) :
    (Except.ok a >>= f) = f a := rfl

@[simp] theorem error_bind {α β : Type} (e : Fault) (f : α → Except Fault β) :
    ((Except.error e : Except Fault α) >>= f) = Except.error e := rfl

@[simp] theorem pure_ok {α : Type} (a : α) : (pure a : Except Fault α) = Except.ok a := rfl

theorem cast_ne_neg_one (x : Nat) : (x : Int) ≠ -1 := by omega

@[simp] theorem cast_eq_neg_one (x : Nat) : ((x : Int) = -1) = False :=
  eq_false (by omega)

@[simp] theorem neg_one_eq_cast (x : Nat) : ((-1 : Int) = (x : Int)) = False :=
  eq_false (by omega)

theorem get_bucket_ok (s : StateApx) (x : Nat) (h : x < s.max_buckets) :
    get_bucket s (x : Int) = .ok (s.buckets x) := by
  simp [get_bucket, h]

theorem set_bucket_ok (s : StateApx) (x : Nat) (b : Bucket) (h : x < s.max_buckets) :
    set_bucket s (x : Int) b = .ok { s with buckets := Function.update s.buckets x b } := by
  simp [set_bucket, h]

/-! ## Linked segments -/

theorem DL_nil {bs : Nat → Bucket} {n : Nat} (p h t q : Int) :
    DL bs n p h [] t q ↔ h = q ∧ t = p := Iff.rfl

theorem DL_cons {bs : Nat → Bucket} {n : Nat} (x : Nat) (xs : List Nat) (p h t q : Int) :
    DL bs n p h (x :: xs) t q ↔
      h = (x : Int) ∧ x < n ∧ (bs x).prev = p ∧ DL bs n (x : Int) (bs x).next xs t q :=
  Iff.rfl

theorem FL_nil {bs : Nat → Bucket} {n : Nat} (h e : Int) :
    FL bs n h [] e ↔ h = e := Iff.rfl

theorem FL_cons {bs : Nat → Bucket} {n : Nat} (x : Nat) (xs : List Nat) (h e : Int) :
    FL bs n h (x :: xs) e ↔ h = (x : Int) ∧ x < n ∧ FL bs n (bs x).next xs e :=
  Iff.rfl

theorem DL_congr {bs bs1 : Nat → Bucket} {n : Nat} {L : List Nat}
    (hf : ∀ x, x ∈ L → (bs1 x).prev = (bs x).prev ∧ (bs1 x).next = (bs x).next)
    (p h t q : Int) : DL bs1 n p h L t q ↔ DL bs n p h L t q := by
  induction L generalizing p h with
  | nil => simp [DL]
  | cons x xs ih =>
    have hx := hf x (List.mem_cons_self _ _)
    have ih1 := ih (fun y hy => hf y (List.mem_cons_of_mem _ hy))
    simp only [DL, hx.1, hx.2, ih1]

theorem FL_congr {bs bs1 : Nat → Bucket} {n : Nat} {F : List Nat}
    (hf : ∀ x, x ∈ F → (bs1 x).next = (bs x).next)
    (h e : Int) : FL bs1 n h F e ↔ FL bs n h F e := by
  induction F generalizing h with
  | nil => simp [FL]
  | cons x xs ih =>
    have hx := hf x (List.mem_cons_self _ _)
    have ih1 := ih (fun y hy => hf y (List.mem_cons_of_mem _ hy))
    simp only [FL, hx, ih1]

theorem DL_append {bs : Nat → Bucket} {n : Nat} (A B : List Nat) (p h t q : Int) :
    DL bs n p h (A ++ B) t q ↔ ∃ m m1, DL bs n p h A m m1 ∧ DL bs n m m1 B t q := by
  induction A generalizing p h with
  | nil =>
    simp only [List.nil_append, DL]
    constructor
    · intro hd; exact ⟨p, h, ⟨rfl, rfl⟩, hd⟩
    · rintro ⟨m, m1, ⟨h1, h2⟩, hd⟩; subst h1; subst h2; exact hd
  | cons x xs ih =>
    rw [List.cons_append, DL_cons]
    simp only [DL_cons, ih]
    constructor
    · rintro ⟨h1, h2, h3, m, m1, h4, h5⟩; exact ⟨m, m1, ⟨h1, h2, h3, h4⟩, h5⟩
    · rintro ⟨m, m1, ⟨h1, h2, h3, h4⟩, h5⟩; exact ⟨h1, h2, h3, m, m1, h4, h5⟩

theorem DL_mem_lt {bs : Nat → Bucket} {n : Nat} {L : List Nat} {p h t q : Int}
    (hd : DL bs n p h L t q) : ∀ x, x ∈ L → x < n := by
  induction L generalizing p h with
  | nil => simp
  | cons x xs ih =>
    obtain ⟨_, h2, _, h4⟩ := hd
    intro y hy
    rcases List.mem_cons.1 hy with rfl | hy
    · exact h2
    · exact ih h4 y hy

theorem FL_mem_lt {bs : Nat → Bucket} {n : Nat} {F : List Nat} {h e : Int}
    (hd : FL bs n h F e) : ∀ x, x ∈ F → x < n := by
  induction F generalizing h with
  | nil => simp
  | cons x xs ih =>
    obtain ⟨_, h2, h4⟩ := hd
    intro y hy
    rcases List.mem_cons.1 hy with rfl | hy
    · exact h2
    · exact ih h4 y hy

/-- The end of a segment: its last slot, if any, is the tail and holds the
outgoing link. -/
theorem DL_snoc {bs : Nat → Bucket} {n : Nat} (A : List Nat) (x : Nat) (p h t q : Int) :
    DL bs n p h (A ++ [x]) t q ↔
      ∃ m, DL bs n p h A m (x : Int) ∧ x < n ∧ (bs x).prev = m ∧ (bs x).next = q ∧
        t = (x : Int) := by
  rw [DL_append]
  simp only [DL]
  constructor
  · rintro ⟨m, m1, h1, h2, h3, h4, h5, h6⟩
    subst h2
    exact ⟨m, h1, h3, h4, h5, h6⟩
  · rintro ⟨m, h1, h3, h4, h5, h6⟩
    exact ⟨m, x, h1, rfl, h3, h4, h5, h6⟩

/-- The tail pointer of a segment is the incoming link exactly when the segment
is empty. -/
theorem DL_tail {bs : Nat → Bucket} {n : Nat} {L : List Nat} {p h t q : Int}
    (hd : DL bs n p h L t q) :
    (L = [] ∧ h = q ∧ t = p) ∨ ∃ (A : List Nat) (x : Nat), L = A ++ [x] ∧ t = (x : Int) := by
  rcases List.eq_nil_or_concat L with rfl | ⟨A, x, hL⟩
  · left; exact ⟨rfl, hd.1, hd.2⟩
  · right
    rw [List.concat_eq_append] at hL
    subst hL
    obtain ⟨m, _, _, _, _, h6⟩ := (DL_snoc A x p h t q).1 hd
    exact ⟨A, x, rfl, h6⟩

theorem DL_renext {bs : Nat → Bucket} {n : Nat} {A : List Nat} {a : Nat} {p h t q : Int}
    (q1 : Int) (hd : DL bs n p h (A ++ [a]) t q) (ha : a ∉ A) :
    DL (Function.update bs a { bs a with next := q1 }) n p h (A ++ [a]) t q1 := by
  obtain ⟨m, h1, h3, h4, h5, h6⟩ := (DL_snoc A a p h t q).1 hd
  refine (DL_snoc A a p h t q1).2 ⟨m, ?_, h3, ?_, ?_, h6⟩
  · refine (DL_congr ?_ _ _ _ _).2 h1
    intro x hx
    have : x ≠ a := fun hxa => ha (hxa ▸ hx)
    simp [Function.update_noteq this]
  · simpa using h4
  · simp

theorem DL_reprev {bs : Nat → Bucket} {n : Nat} {B : List Nat} {b : Nat} {p h t q : Int}
    (p1 : Int) (hd : DL bs n p h (b :: B) t q) (hb : b ∉ B) :
    DL (Function.update bs b { bs b with prev := p1 }) n p1 h (b :: B) t q := by
  obtain ⟨h1, h2, h3, h4⟩ := hd
  refine ⟨h1, h2, by simp, ?_⟩
  simp only [Function.update_same]
  refine (DL_congr ?_ _ _ _ _).2 h4
  intro x hx
  have : x ≠ b := fun hxb => hb (hxb ▸ hx)
  simp [Function.update_noteq this]

theorem walk_eq {s : StateApx} {L : List Nat} {p h t : Int} (fuel : Nat)
    (hd : DL s.buckets s.max_buckets p h L t (-1)) (hf : L.length ≤ fuel) :
    walk s fuel h = L := by
  induction L generalizing p h fuel with
  | nil =>
    obtain ⟨h1, _⟩ := hd
    subst h1
    cases fuel <;> simp [walk]
  | cons x xs ih =>
    obtain ⟨h1, h2, _, h4⟩ := hd
    subst h1
    cases fuel with
    | zero => simp at hf
    | succ f =>
      simp only [List.length_cons, Nat.add_le_add_iff_right] at hf
      simp [walk, h2, ih f h4 hf]

theorem nodup_length_le {L : List Nat} {n : Nat} (hn : L.Nodup) (hl : ∀ x, x ∈ L → x < n) :
    L.length ≤ n := by
  have h1 : L.toFinset ⊆ Finset.range n := by
    intro x hx
    simp only [List.mem_toFinset] at hx
    simpa using hl x hx
  have h2 := Finset.card_le_card h1
  rw [List.toFinset_card_of_nodup hn] at h2
  simpa using h2

/-! ## Machine arithmetic -/

theorem ctz_aux_pow (fuel i : Nat) (h : i < fuel) : ctz_aux fuel (2 ^ i) = i := by
  induction fuel generalizing i with
  | zero => omega
  | succ f ih =>
    cases i with
    | zero => simp [ctz_aux]
    | succ j =>
      have h1 : 2 ^ (j + 1) % 2 = 0 := by rw [pow_succ]; omega
      have h2 : 2 ^ (j + 1) / 2 = 2 ^ j := by rw [pow_succ]; omega
      simp [ctz_aux, h1, h2, ih j (by omega)]

theorem pow_lt_u64 {i : Nat} (h : i < 64) : 2 ^ i < 18446744073709551616 := by
  have : (2 : Nat) ^ i < 2 ^ 64 := Nat.pow_lt_pow_right (by norm_num) h
  simpa using this

theorem ctzll_pow (i : Nat) (h : i < 64) : ctzll (2 ^ i) = i := by
  unfold ctzll u64
  rw [Nat.mod_eq_of_lt (pow_lt_u64 h)]
  exact ctz_aux_pow 64 i h

theorem exp_lt_of_pow_lt {i m : Nat} (h : 2 ^ i < 2 ^ m) : i < m :=
  (Nat.pow_lt_pow_iff_right (by norm_num)).1 h

theorem floor_log2_aux_spec (fuel n : Nat) (h1 : 1 ≤ n) (h2 : n < 2 ^ fuel) :
    2 ^ floor_log2_aux fuel n ≤ n ∧ n < 2 ^ (floor_log2_aux fuel n + 1) := by
  induction fuel generalizing n with
  | zero => simp at h2; omega
  | succ f ih =>
    unfold floor_log2_aux
    by_cases hn : n < 2
    · simp [hn]; omega
    · simp only [hn, if_false]
      have h3 : n / 2 < 2 ^ f := by
        rw [pow_succ] at h2; omega
      obtain ⟨i1, i2⟩ := ih (n / 2) (by omega) h3
      constructor
      · rw [pow_succ]; omega
      · rw [pow_succ]; omega

theorem floor_log2_spec (n : Nat) (h1 : 1 ≤ n) (h2 : n < 18446744073709551616) :
    2 ^ floor_log2 n ≤ n ∧ n < 2 ^ (floor_log2 n + 1) :=
  floor_log2_aux_spec 64 n h1 (by simpa using h2)

theorem floor_log2_lt (n m : Nat) (h1 : 1 ≤ n) (h2 : n < 2 ^ m) (hm : m ≤ 64) :
    floor_log2 n < m := by
  have h3 : n < 18446744073709551616 := by
    have : (2 : Nat) ^ m ≤ 2 ^ 64 := Nat.pow_le_pow_right (by norm_num) hm
    have h4 : (2 : Nat) ^ 64 = 18446744073709551616 := by norm_num
    omega
  have := (floor_log2_spec n h1 h3).1
  exact exp_lt_of_pow_lt (lt_of_le_of_lt this h2)

/-! ## Counting 1-bits -/

theorem ones_in_le (bits : List Bool) (a b : Nat) : ones_in bits a b ≤ b - a := by
  unfold ones_in
  refine le_trans (List.count_le_length _ _) ?_
  simp only [List.length_drop, List.length_take]
  omega

theorem ones_in_self (bits : List Bool) (a : Nat) : ones_in bits a a = 0 := by
  have := ones_in_le bits a a
  omega

theorem ones_in_add (bits : List Bool) {a b c : Nat} (hab : a ≤ b) (hbc : b ≤ c) :
    ones_in bits a c = ones_in bits a b + ones_in bits b c := by
  unfold ones_in
  have h1 : (bits.take c).drop a = ((bits.take b).drop a) ++ ((bits.take c).drop b) := by
    have h2 : bits.take b = (bits.take c).take b := by
      rw [List.take_take, Nat.min_eq_left hbc]
    rw [h2]
    generalize bits.take c = l
    rw [List.drop_take]
    have h3 : List.drop b l = List.drop (b - a) (List.drop a l) := by
      rw [List.drop_drop]; congr 1; omega
    rw [h3, List.take_append_drop]
  rw [h1, List.count_append]

theorem ones_in_append (bits more : List Bool) {a b : Nat} (hb : b ≤ bits.length) :
    ones_in (bits ++ more) a b = ones_in bits a b := by
  unfold ones_in
  rw [List.take_append_of_le_length hb]

theorem ones_in_snoc (bits : List Bool) (x : Bool) {a : Nat} (ha : a ≤ bits.length) :
    ones_in (bits ++ [x]) a (bits.length + 1) =
      ones_in bits a bits.length + (if x then 1 else 0) := by
  rw [ones_in_add (bits ++ [x]) ha (Nat.le_succ _), ones_in_append bits [x] (le_refl _)]
  congr 1
  unfold ones_in
  have h1 : (bits ++ [x]).take (bits.length + 1) = bits ++ [x] := by
    apply List.take_of_length_le; simp
  rw [h1, List.drop_left]
  cases x <;> simp

theorem trailing_ones_eq (W : Nat) (bits : List Bool) :
    trailing_ones W bits = ones_in bits (bits.length - W) bits.length := by
  unfold trailing_ones ones_in
  rw [List.take_reverse, List.count_reverse, List.take_length]

/-! ## Bucket lists and the bits they hold -/

theorem lo_of_cons (E : Nat) (a : Nat × Nat) (A : List (Nat × Nat)) :
    lo_of E (a :: A) = a.1 := rfl

theorem lo_of_append (E : Nat) (X Y : List (Nat × Nat)) :
    lo_of E (X ++ Y) = lo_of (lo_of E Y) X := by
  cases X <;> simp [lo_of]

theorem Acc_nil (bits : List Bool) (E : Nat) : Acc bits E [] ↔ True := Iff.rfl

theorem Acc_cons (bits : List Bool) (E : Nat) (a : Nat × Nat) (A : List (Nat × Nat)) :
    Acc bits E (a :: A) ↔ ones_in bits (lo_of E A) a.1 = a.2 ∧ Acc bits E A := Iff.rfl

theorem Acc_append (bits : List Bool) (E : Nat) (X Y : List (Nat × Nat)) :
    Acc bits E (X ++ Y) ↔ Acc bits (lo_of E Y) X ∧ Acc bits E Y := by
  induction X with
  | nil => simp [Acc_nil]
  | cons a X ih =>
    rw [List.cons_append, Acc_cons, Acc_cons, ih, lo_of_append, and_assoc]

theorem Acc_more_bits (bits more : List Bool) (E : Nat) (A : List (Nat × Nat))
    (h : ∀ a, a ∈ A → a.1 ≤ bits.length) : Acc (bits ++ more) E A ↔ Acc bits E A := by
  induction A with
  | nil => simp [Acc_nil]
  | cons a A ih =>
    have h1 := h a (List.mem_cons_self _ _)
    have h2 := ih (fun b hb => h b (List.mem_cons_of_mem _ hb))
    rw [Acc_cons, Acc_cons, h2, ones_in_append bits more h1]

theorem pow_two_pos (i : Nat) : 0 < 2 ^ i := pow_pos (by norm_num) i

theorem pow_two_inj {i j : Nat} : 2 ^ i = 2 ^ j ↔ i = j :=
  (Nat.pow_right_injective (le_refl 2)).eq_iff

theorem pow_two_succ_le {i j : Nat} (h1 : 2 ^ i ≤ 2 ^ j) (h2 : 2 ^ i ≠ 2 ^ j) :
    2 ^ (i + 1) ≤ 2 ^ j := by
  have h3 : i ≤ j := (Nat.pow_le_pow_iff_right (by norm_num)).1 h1
  have h4 : i ≠ j := fun h => h2 (by rw [h])
  exact Nat.pow_le_pow_right (by norm_num) (by omega)

/-- The timestamp below a list is under every timestamp of the list. -/
theorem Good.lo_le {W k : Nat} {bits : List Bool} {now E : Nat} {A : List (Nat × Nat)}
    (g : Good W k bits now E A) : lo_of E A ≤ bits.length := by
  cases A with
  | nil => exact g.expired_le
  | cons a A => exact (g.window a (List.mem_cons_self _ _)).1

theorem Good.good_tick {W k : Nat} {bits : List Bool} {E : Nat} {A : List (Nat × Nat)}
    (g : Good W k bits bits.length E A) (hs : ∀ a, a ∈ A → bits.length < a.1 + W) :
    Good W k bits (bits.length + 1) E A where
  pow := g.pow
  sorted := g.sorted
  desc := g.desc
  window := fun a ha => ⟨(g.window a ha).1, by have := hs a ha; omega⟩
  expired := by rcases g.expired with h | h; exact Or.inl h; exact Or.inr (by omega)
  expired_le := g.expired_le
  acc := g.acc
  top := g.top
  hot := g.hot
  lower := g.lower

theorem Good.feed_zero {W k : Nat} {bits : List Bool} {now E : Nat} {A : List (Nat × Nat)}
    (g : Good W k bits now E A) : Good W k (bits ++ [false]) now E A where
  pow := g.pow
  sorted := g.sorted
  desc := g.desc
  window := fun a ha => ⟨by have := (g.window a ha).1; simp; omega, (g.window a ha).2⟩
  expired := g.expired
  expired_le := by have := g.expired_le; simp; omega
  acc := (Acc_more_bits bits [false] E A (fun a ha => (g.window a ha).1)).2 g.acc
  top := by
    have h1 := ones_in_snoc bits false g.lo_le
    simp only [List.length_append, List.length_singleton]
    rw [h1, g.top]; simp
  hot := by
    intro a ha
    rw [ones_in_append bits [false] (g.window a ha).1]
    exact g.hot a ha
  lower := g.lower


theorem sizes_append (X Y : List (Nat × Nat)) : sizes (X ++ Y) = sizes X ++ sizes Y := by
  simp [sizes]

theorem sizes_cons (a : Nat × Nat) (X : List (Nat × Nat)) : sizes (a :: X) = a.2 :: sizes X := rfl

theorem stamps_append (X Y : List (Nat × Nat)) : stamps (X ++ Y) = stamps X ++ stamps Y := by
  simp [stamps]

theorem stamps_cons (a : Nat × Nat) (X : List (Nat × Nat)) :
    stamps (a :: X) = a.1 :: stamps X := rfl

theorem mem_sizes {v : Nat} {A : List (Nat × Nat)} : v ∈ sizes A ↔ ∃ a, a ∈ A ∧ a.2 = v := by
  simp [sizes]

theorem mem_stamps {v : Nat} {A : List (Nat × Nat)} : v ∈ stamps A ↔ ∃ a, a ∈ A ∧ a.1 = v := by
  simp [stamps]

theorem ones_in_pos_lt {bits : List Bool} {a b c : Nat} (h : ones_in bits a b = c)
    (hc : 0 < c) : a < b := by
  have := ones_in_le bits a b
  omega

theorem Good.size_pos {W k : Nat} {bits : List Bool} {now E : Nat} {A : List (Nat × Nat)}
    (g : Good W k bits now E A) (a : Nat × Nat) (ha : a ∈ A) : 0 < a.2 := by
  obtain ⟨i, hi⟩ := g.pow a ha
  rw [hi]; exact pow_two_pos i

theorem one_eq_pow_two {i : Nat} : (1 : Nat) = 2 ^ i ↔ i = 0 := by
  constructor
  · intro h
    have : 2 ^ 0 = 2 ^ i := by simpa using h
    exact (pow_two_inj.1 this).symm
  · rintro rfl; rfl

theorem count_admission (t : Nat) (A : List (Nat × Nat)) (i : Nat) :
    (sizes ((t, 1) :: A)).count (2 ^ i) = (sizes A).count (2 ^ i) + (if i = 0 then 1 else 0) := by
  rw [sizes_cons, List.count_cons]
  simp only [beq_iff_eq, one_eq_pow_two]

theorem Good.expire {W k : Nat} {bits : List Bool} {now E : Nat} {A : List (Nat × Nat)}
    {a : Nat × Nat} (g : Good W k bits now E (A ++ [a])) (h : a.1 + W ≤ now) :
    Good W k bits now a.1 A where
  pow := fun b hb => g.pow b (List.mem_append_left _ hb)
  sorted := by
    have := g.sorted
    rw [sizes_append, List.pairwise_append] at this
    exact this.1
  desc := by
    have := g.desc
    rw [stamps_append, List.pairwise_append] at this
    exact this.1
  window := fun b hb => g.window b (List.mem_append_left _ hb)
  expired := Or.inr h
  expired_le := (g.window a (by simp)).1
  acc := ((Acc_append bits E A [a]).1 g.acc).1
  top := by
    have := g.top
    rw [lo_of_append] at this
    exact this
  hot := fun b hb => g.hot b (List.mem_append_left _ hb)
  lower := by
    intro i j hij hj
    have hs := g.sorted
    rw [sizes_append, List.pairwise_append] at hs
    have hmem : 2 ^ j ∈ sizes A := List.count_pos_iff.1 hj
    have h1 : 2 ^ j ≤ a.2 := hs.2.2 _ hmem a.2 (by simp [sizes])
    have h2 : 2 ^ i < 2 ^ j := Nat.pow_lt_pow_right (by norm_num) hij
    have h3 := g.lower i j hij (by rw [sizes_append, List.count_append]; omega)
    rw [sizes_append, List.count_append] at h3
    have h4 : (sizes [a]).count (2 ^ i) = 0 := by
      simp [sizes, List.count_cons]; omega
    omega

theorem Good.good_admission {W k : Nat} {bits : List Bool} {E : Nat} {A : List (Nat × Nat)}
    (g : Good W k bits (bits.length + 1) E A) :
    Good W k (bits ++ [true]) (bits.length + 1) E ((bits.length + 1, 1) :: A) where
  pow := by
    intro a ha
    rcases List.mem_cons.1 ha with rfl | ha
    · exact ⟨0, rfl⟩
    · exact g.pow a ha
  sorted := by
    rw [sizes_cons, List.pairwise_cons]
    refine ⟨?_, g.sorted⟩
    intro v hv
    obtain ⟨a, ha, rfl⟩ := mem_sizes.1 hv
    exact g.size_pos a ha
  desc := by
    rw [stamps_cons, List.pairwise_cons]
    refine ⟨?_, g.desc⟩
    intro v hv
    obtain ⟨a, ha, rfl⟩ := mem_stamps.1 hv
    have := (g.window a ha).1
    show a.1 < bits.length + 1
    omega
  window := by
    intro a ha
    rcases List.mem_cons.1 ha with rfl | ha
    · simp
    · have := g.window a ha
      simp; omega
  expired := g.expired
  expired_le := by have := g.expired_le; simp; omega
  acc := by
    rw [Acc_cons]
    refine ⟨?_, (Acc_more_bits bits [true] E A (fun a ha => (g.window a ha).1)).2 g.acc⟩
    have h1 := ones_in_snoc bits true g.lo_le
    rw [g.top] at h1
    simpa using h1
  top := by
    simp only [lo_of, List.length_append, List.length_singleton]
    exact ones_in_self _ _
  hot := by
    intro a ha
    rcases List.mem_cons.1 ha with rfl | ha
    · have h1 := ones_in_snoc bits true (le_refl bits.length)
      rw [ones_in_self] at h1
      simpa using h1
    · rw [ones_in_append bits [true] (g.window a ha).1]
      exact g.hot a ha
  lower := by
    intro i j hij hj
    rw [count_admission] at hj ⊢
    have hj0 : j ≠ 0 := by omega
    simp only [hj0, if_false, Nat.add_zero] at hj
    have := g.lower i j hij hj
    omega

theorem Capped.capped_admission {k : Nat} {A : List (Nat × Nat)} (t : Nat) (hb : Bounded k A) :
    Capped k 0 ((t, 1) :: A) := by
  intro i
  rw [count_admission]
  have := hb i
  by_cases hi : i = 0
  · simp only [hi, if_true]; subst hi; omega
  · simp only [hi, if_false]; omega

theorem Capped.bounded {k j : Nat} {A : List (Nat × Nat)} (hc : Capped k j A)
    (hj : (sizes A).count (2 ^ j) ≠ k + 2) : Bounded k A := by
  intro i
  have := hc i
  by_cases hi : i = j
  · subst hi; simp at this; omega
  · simpa [hi] using this


theorem count_merge (A1 B : List (Nat × Nat)) (t1 t2 i j : Nat) :
    (sizes (A1 ++ (t2, 2 ^ (i + 1)) :: B)).count (2 ^ j) + (if j = i then 2 else 0) =
      (sizes (A1 ++ (t2, 2 ^ i) :: (t1, 2 ^ i) :: B)).count (2 ^ j) +
        (if j = i + 1 then 1 else 0) := by
  simp only [sizes_append, sizes_cons, List.count_append, List.count_cons, beq_iff_eq,
    pow_two_inj]
  by_cases h1 : j = i
  · subst h1; simp; omega
  · by_cases h2 : j = i + 1
    · subst h2; simp; omega
    · have h3 : ¬ (i = j) := fun h => h1 h.symm
      have h4 : ¬ (i + 1 = j) := fun h => h2 h.symm
      simp [h1, h2, h3, h4]

theorem Good.good_merge {W k : Nat} {bits : List Bool} {now E : Nat} {A1 B : List (Nat × Nat)}
    {t1 t2 i : Nat}
    (g : Good W k bits now E (A1 ++ (t2, 2 ^ i) :: (t1, 2 ^ i) :: B))
    (hB : (sizes B).count (2 ^ i) = 0)
    (hc : (sizes (A1 ++ (t2, 2 ^ i) :: (t1, 2 ^ i) :: B)).count (2 ^ i) = k + 2) :
    Good W k bits now E (A1 ++ (t2, 2 ^ (i + 1)) :: B) where
  pow := by
    intro a ha
    rcases List.mem_append.1 ha with ha | ha
    · exact g.pow a (List.mem_append_left _ ha)
    · rcases List.mem_cons.1 ha with rfl | ha
      · exact ⟨i + 1, rfl⟩
      · exact g.pow a (List.mem_append_right _ (by simp [ha]))
  sorted := by
    have hs := g.sorted
    rw [sizes_append, sizes_cons, sizes_cons, List.pairwise_append, List.pairwise_cons,
      List.pairwise_cons] at hs
    obtain ⟨h1, ⟨_, h3, h4⟩, h5⟩ := hs
    rw [sizes_append, sizes_cons, List.pairwise_append, List.pairwise_cons]
    refine ⟨h1, ⟨?_, h4⟩, ?_⟩
    · intro v hv
      obtain ⟨b, hb, rfl⟩ := mem_sizes.1 hv
      obtain ⟨j, hj⟩ := g.pow b (List.mem_append_right _ (by simp [hb]))
      have h6 := h3 b.2 hv
      rw [hj] at h6 ⊢
      refine pow_two_succ_le h6 ?_
      intro h7
      have : 2 ^ i ∈ sizes B := by rw [h7, ← hj]; exact hv
      have := List.count_pos_iff.2 this
      omega
    · intro a ha b hb
      rcases List.mem_cons.1 hb with rfl | hb
      · have := h5 a ha (2 ^ i) (by simp)
        have : 2 ^ i ≤ 2 ^ (i + 1) := Nat.pow_le_pow_right (by norm_num) (by omega)
        omega
      · exact h5 a ha b (by simp [hb])
  desc := by
    have hs := g.desc
    refine hs.sublist ?_
    simp only [stamps_append, stamps_cons]
    refine List.Sublist.append (List.Sublist.refl _) ?_
    exact List.Sublist.cons₂ _ (List.sublist_cons_self _ _)
  window := by
    intro a ha
    rcases List.mem_append.1 ha with ha | ha
    · exact g.window a (List.mem_append_left _ ha)
    · rcases List.mem_cons.1 ha with rfl | ha
      · exact g.window (t2, 2 ^ i) (List.mem_append_right _ (by simp))
      · exact g.window a (List.mem_append_right _ (by simp [ha]))
  expired := g.expired
  expired_le := g.expired_le
  acc := by
    have ha := g.acc
    rw [Acc_append, Acc_cons, Acc_cons] at ha
    rw [Acc_append, Acc_cons]
    obtain ⟨h1, h2, h3, h4⟩ := ha
    refine ⟨h1, ?_, h4⟩
    rw [lo_of_cons] at h2
    dsimp only at h2 h3 ⊢
    have h5 : t1 < t2 := ones_in_pos_lt h2 (pow_two_pos i)
    have h6 : lo_of E B < t1 := ones_in_pos_lt h3 (pow_two_pos i)
    rw [ones_in_add bits (le_of_lt h6) (le_of_lt h5), h2, h3, pow_succ]
    omega
  top := by
    have := g.top
    rw [lo_of_append] at this ⊢
    exact this
  hot := by
    intro a ha
    rcases List.mem_append.1 ha with ha | ha
    · exact g.hot a (List.mem_append_left _ ha)
    · rcases List.mem_cons.1 ha with rfl | ha
      · exact g.hot (t2, 2 ^ i) (List.mem_append_right _ (by simp))
      · exact g.hot a (List.mem_append_right _ (by simp [ha]))
  lower := by
    intro i1 j1 hij hj
    have e1 := count_merge A1 B t1 t2 i i1
    have e2 := count_merge A1 B t1 t2 i j1
    have l1 : (sizes (A1 ++ (t2, 2 ^ i) :: (t1, 2 ^ i) :: B)).count (2 ^ j1) = 0 ∨
        k ≤ (sizes (A1 ++ (t2, 2 ^ i) :: (t1, 2 ^ i) :: B)).count (2 ^ i1) := by
      by_cases h : 0 < (sizes (A1 ++ (t2, 2 ^ i) :: (t1, 2 ^ i) :: B)).count (2 ^ j1)
      · exact Or.inr (g.lower i1 j1 hij h)
      · exact Or.inl (by omega)
    have l2 : i ≤ i1 ∨
        k ≤ (sizes (A1 ++ (t2, 2 ^ i) :: (t1, 2 ^ i) :: B)).count (2 ^ i1) := by
      by_cases h : i1 < i
      · exact Or.inr (g.lower i1 i h (by omega))
      · exact Or.inl (by omega)
    by_cases c1 : i1 = i
    · subst c1
      split_ifs at e1 e2 <;> omega
    · by_cases c2 : j1 = i
      · subst c2
        split_ifs at e1 e2 <;> omega
      · split_ifs at e1 e2 <;> omega

theorem Capped.capped_merge {k : Nat} {A1 B : List (Nat × Nat)} {t1 t2 i : Nat}
    (hcap : Capped k i (A1 ++ (t2, 2 ^ i) :: (t1, 2 ^ i) :: B)) :
    Capped k (i + 1) (A1 ++ (t2, 2 ^ (i + 1)) :: B) := by
  intro j
  have e1 := count_merge A1 B t1 t2 i j
  have := hcap j
  split_ifs at e1 this ⊢ <;> omega

/-! ## Scans of the live list -/

theorem sizes_pay (bs : Nat → Bucket) (L : List Nat) :
    sizes (L.map (pay bs)) = L.map (fun y => (bs y).size) := by
  simp [sizes, pay, List.map_map, Function.comp_def]

theorem stamps_pay (bs : Nat → Bucket) (L : List Nat) :
    stamps (L.map (pay bs)) = L.map (fun y => (bs y).timestamp) := by
  simp [stamps, pay, List.map_map, Function.comp_def]

theorem pay_congr {bs bs1 : Nat → Bucket} {L : List Nat}
    (h : ∀ y, y ∈ L → (bs1 y).timestamp = (bs y).timestamp ∧ (bs1 y).size = (bs y).size) :
    L.map (pay bs1) = L.map (pay bs) := by
  apply List.map_congr_left
  intro y hy
  simp [pay, (h y hy).1, (h y hy).2]

theorem class_last_congr {bs bs1 : Nat → Bucket} {L : List Nat} (j : Nat)
    (h : ∀ y, y ∈ L → (bs1 y).size = (bs y).size) :
    class_last bs1 L j = class_last bs L j := by
  unfold class_last
  congr 2
  apply List.filter_congr
  intro y hy
  rw [h y hy]

theorem class_last_none {bs : Nat → Bucket} {L : List Nat} {j : Nat}
    (h : ∀ y, y ∈ L → (bs y).size ≠ 2 ^ j) : class_last bs L j = -1 := by
  unfold class_last
  have : L.filter (fun x => decide ((bs x).size = 2 ^ j)) = [] := by
    rw [List.filter_eq_nil_iff]
    intro y hy
    simpa using h y hy
  rw [this]; rfl

theorem class_last_append_left {bs : Nat → Bucket} (A B : List Nat) {j : Nat}
    (h : ∀ y, y ∈ B → (bs y).size ≠ 2 ^ j) :
    class_last bs (A ++ B) j = class_last bs A j := by
  unfold class_last
  have : B.filter (fun x => decide ((bs x).size = 2 ^ j)) = [] := by
    rw [List.filter_eq_nil_iff]
    intro y hy
    simpa using h y hy
  rw [List.filter_append, this, List.append_nil]

theorem class_last_append_right {bs : Nat → Bucket} (A B : List Nat) {j : Nat} {y : Nat}
    (hy : y ∈ B) (hs : (bs y).size = 2 ^ j) :
    class_last bs (A ++ B) j = class_last bs B j := by
  unfold class_last
  rw [List.filter_append, List.getLast?_append]
  have hm : y ∈ B.filter (fun x => decide ((bs x).size = 2 ^ j)) := by
    simp [List.mem_filter, hy, hs]
  cases hB : (B.filter (fun x => decide ((bs x).size = 2 ^ j))).getLast? with
  | none =>
    rw [List.getLast?_eq_none_iff] at hB
    rw [hB] at hm
    simp at hm
  | some z => rfl

theorem class_last_snoc_hit {bs : Nat → Bucket} (A : List Nat) {x j : Nat}
    (hs : (bs x).size = 2 ^ j) : class_last bs (A ++ [x]) j = (x : Int) := by
  rw [class_last_append_right A [x] (List.mem_singleton_self x) hs]
  simp [class_last, hs, slot_or_none]

theorem class_last_cons_skip {bs : Nat → Bucket} (B : List Nat) {x j : Nat}
    (hs : (bs x).size ≠ 2 ^ j) : class_last bs (x :: B) j = class_last bs B j := by
  unfold class_last
  rw [List.filter_cons_of_neg (by simpa using hs)]

theorem count_pos_size {bs : Nat → Bucket} {L : List Nat} {v : Nat} :
    0 < (sizes (L.map (pay bs))).count v ↔ ∃ y, y ∈ L ∧ (bs y).size = v := by
  rw [List.count_pos_iff, sizes_pay]
  simp

theorem count_zero_size {bs : Nat → Bucket} {L : List Nat} {v : Nat} :
    (sizes (L.map (pay bs))).count v = 0 ↔ ∀ y, y ∈ L → (bs y).size ≠ v := by
  rw [List.count_eq_zero, sizes_pay]
  simp

/-- In a list sorted by size, a class that is present ends the list when the
last bucket is no larger than the class. -/
theorem last_has_size {bs : Nat → Bucket} {A : List Nat} {a v : Nat}
    (hs : (sizes ((A ++ [a]).map (pay bs))).Pairwise (fun p q => p ≤ q))
    (hv : ∃ y, y ∈ A ++ [a] ∧ (bs y).size = v) (hle : (bs a).size ≤ v) :
    (bs a).size = v := by
  obtain ⟨y, hy, hyv⟩ := hv
  rcases List.mem_append.1 hy with hy | hy
  · rw [sizes_pay, List.map_append, List.pairwise_append] at hs
    have := hs.2.2 ((bs y).size) (List.mem_map.2 ⟨y, hy, rfl⟩) ((bs a).size) (by simp)
    omega
  · simp at hy; subst hy; exact hyv


/-! ## Memory accesses at valid slots -/

theorem get_bucket_cast (s : StateApx) (x : Nat) :
    get_bucket s (x : Int) =
      if x < s.max_buckets then .ok (s.buckets x) else .error .out_of_bounds := by
  simp [get_bucket]

theorem set_bucket_cast (s : StateApx) (x : Nat) (b : Bucket) :
    set_bucket s (x : Int) b =
      if x < s.max_buckets then .ok { s with buckets := Function.update s.buckets x b }
      else .error .out_of_bounds := by
  simp [set_bucket]

theorem get_bucket_neg (s : StateApx) : get_bucket s (-1) = .error .out_of_bounds := by
  simp [get_bucket]

theorem set_last_ite (s : StateApx) (i : Nat) (c : Prop) [Decidable c] (a b : Int) :
    (if c then set_last s i a else set_last s i b) = set_last s i (if c then a else b) := by
  split <;> rfl

theorem upd_same {α : Type} (f : Nat → α) (a : Nat) (v : α) : Function.update f a v a = v :=
  Function.update_same a v f

theorem upd_other {α : Type} (f : Nat → α) {a b : Nat} (v : α) (h : b ≠ a) :
    Function.update f a v b = f b :=
  Function.update_noteq h v f

theorem sub32_one {c : Nat} (h1 : 1 ≤ c) (h2 : c < 4294967296) : sub32 c 1 = c - 1 := by
  unfold sub32 u32; omega

theorem sub32_two {c : Nat} (h1 : 2 ≤ c) (h2 : c < 4294967296) : sub32 c 2 = c - 2 := by
  unfold sub32 u32; omega

theorem sub64_le {a b : Nat} (h1 : b ≤ a) (h2 : a < 18446744073709551616) :
    sub64 a b = a - b := by
  unfold sub64 u64; omega

/-! ## Expiry of the oldest bucket -/

theorem expire_tail_more (s : StateApx) (x a : Nat) (i : Nat) (hi : i < 64)
    (hx : x < s.max_buckets) (ha : a < s.max_buckets)
    (ht : s.tail = (x : Int)) (hsz : (s.buckets x).size = 2 ^ i)
    (hp : (s.buckets x).prev = (a : Int)) :
    expire_tail s (s.buckets x) = .ok
      { s with
        total_sum := sub64 s.total_sum (2 ^ i)
        count := Function.update s.count i (sub32 (s.count i) 1)
        last_of_size := Function.update s.last_of_size i
          (if sub32 (s.count i) 1 = 0 then -1 else (a : Int))
        buckets := Function.update
          (Function.update s.buckets a { s.buckets a with next := -1 }) x
          { Function.update s.buckets a { s.buckets a with next := -1 } x with
            next := s.free_head }
        tail := (a : Int)
        free_head := (x : Int) } := by
  unfold expire_tail
  simp only [hsz, ctzll_pow i hi, get_count, set_count, hi, if_true, ok_bind, set_last,
    hp, cast_eq_neg_one, ne_eq, not_false_eq_true, get_bucket_cast, ha, hx, set_bucket_cast, ht,
    pure_ok]
  rw [upd_same s.count i]
  split
  · rfl
  · rfl

theorem expire_tail_only (s : StateApx) (x : Nat) (i : Nat) (hi : i < 64)
    (hx : x < s.max_buckets)
    (ht : s.tail = (x : Int)) (hsz : (s.buckets x).size = 2 ^ i)
    (hp : (s.buckets x).prev = -1) :
    expire_tail s (s.buckets x) = .ok
      { s with
        total_sum := sub64 s.total_sum (2 ^ i)
        count := Function.update s.count i (sub32 (s.count i) 1)
        last_of_size := Function.update s.last_of_size i (-1)
        buckets := Function.update s.buckets x { s.buckets x with next := s.free_head }
        head := -1
        tail := -1
        free_head := (x : Int) } := by
  unfold expire_tail
  simp only [hsz, ctzll_pow i hi, get_count, set_count, hi, if_true, ok_bind, set_last,
    hp, ne_eq, not_true_eq_false, if_false, get_bucket_cast, hx, set_bucket_cast, ht,
    pure_ok]
  split
  · rfl
  · rfl

theorem count_snoc (bs : Nat → Bucket) (A : List Nat) (x i j : Nat)
    (hsz : (bs x).size = 2 ^ i) :
    (sizes ((A ++ [x]).map (pay bs))).count (2 ^ j) =
      (sizes (A.map (pay bs))).count (2 ^ j) + (if j = i then 1 else 0) := by
  rw [List.map_append, sizes_append, List.count_append]
  congr 1
  simp only [List.map_cons, List.map_nil, sizes_cons, sizes, pay, hsz, List.count_cons,
    List.count_nil, beq_iff_eq, pow_two_inj, Nat.zero_add]
  by_cases h : j = i
  · simp [h]
  · have : ¬ (i = j) := fun h1 => h h1.symm
    simp [h, this]

theorem count_le_len (bs : Nat → Bucket) (L : List Nat) (v : Nat) :
    (sizes (L.map (pay bs))).count v ≤ L.length := by
  have := List.count_le_length v (sizes (L.map (pay bs)))
  simpa [sizes] using this

theorem index_after_expire {bs bs1 : Nat → Bucket} {A : List Nat} {x i : Nat}
    {cnt : Nat → Nat} {last : Nat → Int} (m : Int)
    (hpay : ∀ y, y ∈ A → (bs1 y).timestamp = (bs y).timestamp ∧ (bs1 y).size = (bs y).size)
    (hsz : (bs x).size = 2 ^ i)
    (hsorted : (sizes ((A ++ [x]).map (pay bs))).Pairwise (fun p q => p ≤ q))
    (hcnt : ∀ j, j < 64 → cnt j = (sizes ((A ++ [x]).map (pay bs))).count (2 ^ j))
    (hlast : ∀ j, j < 64 → last j = class_last bs (A ++ [x]) j)
    (hsmall : cnt i < 4294967296) (hi : i < 64)
    (hm : (A = [] ∧ m = -1) ∨ ∃ (A0 : List Nat) (a : Nat), A = A0 ++ [a] ∧ m = (a : Int)) :
    (∀ j, j < 64 → (Function.update cnt i (sub32 (cnt i) 1)) j =
        (sizes (A.map (pay bs1))).count (2 ^ j)) ∧
    (∀ j, j < 64 → (Function.update last i (if sub32 (cnt i) 1 = 0 then -1 else m)) j =
        class_last bs1 A j) := by
  have hpayeq : A.map (pay bs1) = A.map (pay bs) := pay_congr hpay
  have hci := hcnt i hi
  rw [count_snoc bs A x i i hsz] at hci
  simp only [if_true] at hci
  have hsub : sub32 (cnt i) 1 = (sizes (A.map (pay bs))).count (2 ^ i) := by
    rw [sub32_one (by omega) hsmall]; omega
  constructor
  · intro j hj
    rw [hpayeq]
    by_cases h : j = i
    · subst h; rw [upd_same, hsub]
    · rw [upd_other _ _ h, hcnt j hj, count_snoc bs A x i j hsz]
      simp [h]
  · intro j hj
    rw [class_last_congr j (fun y hy => (hpay y hy).2)]
    by_cases h : j = i
    · subst h
      rw [upd_same, hsub]
      by_cases hz : (sizes (A.map (pay bs))).count (2 ^ j) = 0
      · rw [if_pos hz]
        exact (class_last_none (count_zero_size.1 hz)).symm
      · rw [if_neg hz]
        rcases hm with ⟨hA, _⟩ | ⟨A0, a, hA, hma⟩
        · subst hA; simp [sizes] at hz
        · subst hA
          rw [hma]
          have hpos : 0 < (sizes ((A0 ++ [a]).map (pay bs))).count (2 ^ j) := by omega
          have hle : (bs a).size ≤ 2 ^ j := by
            rw [sizes_pay, List.map_append, List.pairwise_append] at hsorted
            have := hsorted.2.2 ((bs a).size) (List.mem_map.2 ⟨a, by simp, rfl⟩)
              ((bs x).size) (by simp)
            omega
          have hsa : (bs a).size = 2 ^ j := by
            have hs2 : (sizes ((A0 ++ [a]).map (pay bs))).Pairwise (fun p q => p ≤ q) := by
              rw [List.map_append, sizes_append, List.pairwise_append] at hsorted
              exact hsorted.1
            exact last_has_size hs2 (count_pos_size.1 hpos) hle
          exact (class_last_snoc_hit A0 hsa).symm
    · rw [upd_other _ _ h, hlast j hj]
      apply class_last_append_left
      intro y hy
      simp only [List.mem_singleton] at hy
      subst hy
      rw [hsz]
      intro h2
      exact h (pow_two_inj.1 h2).symm


theorem sum_snoc (bs : Nat → Bucket) (A : List Nat) (x : Nat) :
    (sizes ((A ++ [x]).map (pay bs))).sum = (sizes (A.map (pay bs))).sum + (bs x).size := by
  simp [sizes, pay]

theorem expire_tail_rep {e : Int} {s : StateApx} {A F : List Nat} {x i : Nat}
    (hr : Rep e s (A ++ [x]) F) (hi : i < 64) (hsz : (s.buckets x).size = 2 ^ i)
    (hsorted : (sizes ((A ++ [x]).map (pay s.buckets))).Pairwise (fun p q => p ≤ q))
    (hsum : s.total_sum < 18446744073709551616) :
    ∃ s1, expire_tail s (s.buckets x) = .ok s1 ∧ Rep e s1 A (x :: F) ∧
      A.map (pay s1.buckets) = A.map (pay s.buckets) ∧ SameFrame s1 s ∧
      s1.N_MERGES = s.N_MERGES := by
  obtain ⟨m, hA, hx, hp, hn, ht⟩ := (DL_snoc A x _ _ _ _).1 hr.live
  have hnd := hr.nodup
  rw [List.append_assoc, List.nodup_append] at hnd
  obtain ⟨hndA, hndxF, hdisj⟩ := hnd
  have hxF : x ∉ F := by
    intro h; simp at hndxF; exact hndxF.1 h
  have hxA : x ∉ A := fun h => hdisj h (by simp)
  have hlen : (sizes ((A ++ [x]).map (pay s.buckets))).count (2 ^ i) ≤ s.max_buckets := by
    refine le_trans (count_le_len _ _ _) ?_
    refine nodup_length_le ?_ (DL_mem_lt hr.live)
    exact (List.nodup_append.1 hr.nodup).1
  have hsmall : s.count i < 4294967296 := by
    rw [hr.cnt i hi]; have := hr.small; omega
  have hsum2 := hr.sum
  rw [sum_snoc, hsz] at hsum2
  have hnd2 : (A ++ x :: F).Nodup := by
    have := hr.nodup
    rwa [List.append_assoc] at this
  rcases DL_tail hA with ⟨hAnil, hh, hm⟩ | ⟨A0, a, hAeq, hm⟩
  · -- the expired bucket was the only one
    subst hAnil
    rw [hm] at hp
    refine ⟨_, expire_tail_only s x i hi hx ht hsz hp, ?_, ?_, ⟨rfl, rfl, rfl, rfl⟩, rfl⟩
    · have hidx := @index_after_expire s.buckets
        (Function.update s.buckets x { s.buckets x with next := s.free_head })
        [] _ _ _ _ (-1) (by simp) hsz hsorted hr.cnt hr.last hsmall hi (Or.inl ⟨rfl, rfl⟩)
      simp only [ite_self] at hidx
      refine ⟨⟨rfl, rfl⟩, ?_, hnd2, hr.term, hr.small, ?_, ?_, hidx.1, hidx.2⟩
      · refine (FL_cons _ _ _ _).2 ⟨rfl, hx, ?_⟩
        simp only [upd_same]
        refine (FL_congr ?_ _ _).2 hr.free
        intro y hy
        have : y ≠ x := fun h => hxF (h ▸ hy)
        simp [upd_other _ _ this]
      · intro he
        have := hr.full he
        simp at this ⊢; omega
      · show sub64 s.total_sum (2 ^ i) = _
        rw [sub64_le (by omega) hsum]
        simp [sizes] at hsum2 ⊢; omega
    · simp
  · -- the expired bucket has a predecessor
    subst hAeq
    rw [hm] at hp
    have ha : a < s.max_buckets := DL_mem_lt hr.live a (by simp)
    have hax : a ≠ x := fun h => hxA (by simp [h])
    have haA0 : a ∉ A0 := by
      intro h
      rw [List.nodup_append] at hndA
      exact hndA.2.2 h (by simp)
    have hpay : ∀ y, y ∈ A0 ++ [a] →
        ((Function.update (Function.update s.buckets a { s.buckets a with next := -1 }) x
          { Function.update s.buckets a { s.buckets a with next := -1 } x with
            next := s.free_head }) y).timestamp = (s.buckets y).timestamp ∧
        ((Function.update (Function.update s.buckets a { s.buckets a with next := -1 }) x
          { Function.update s.buckets a { s.buckets a with next := -1 } x with
            next := s.free_head }) y).size = (s.buckets y).size := by
      intro y hy
      have hyx : y ≠ x := fun h => hxA (h ▸ hy)
      rw [upd_other _ _ hyx]
      by_cases hya : y = a
      · subst hya; rw [upd_same]; exact ⟨rfl, rfl⟩
      · rw [upd_other _ _ hya]; exact ⟨rfl, rfl⟩
    refine ⟨_, expire_tail_more s x a i hi hx ha ht hsz hp, ?_, pay_congr hpay,
      ⟨rfl, rfl, rfl, rfl⟩, rfl⟩
    have hidx := index_after_expire (a : Int) hpay hsz hsorted hr.cnt hr.last hsmall hi
      (Or.inr ⟨A0, a, rfl, rfl⟩)
    refine ⟨?_, ?_, hnd2, hr.term, hr.small, ?_, ?_, hidx.1, hidx.2⟩
    · show DL _ _ (-1) s.head (A0 ++ [a]) (a : Int) (-1)
      rw [hm] at hA
      have h1 := DL_renext (-1) hA haA0
      refine (DL_congr ?_ _ _ _ _).2 h1
      intro y hy
      have hyx : y ≠ x := fun h => hxA (h ▸ hy)
      dsimp only
      rw [upd_other _ _ hyx]
      exact ⟨rfl, rfl⟩
    · refine (FL_cons _ _ _ _).2 ⟨rfl, hx, ?_⟩
      simp only [upd_same]
      refine (FL_congr ?_ _ _).2 hr.free
      intro y hy
      have hyx : y ≠ x := fun h => hxF (h ▸ hy)
      have hya : y ≠ a := by
        intro h
        subst h
        exact hdisj (List.mem_append_right _ (List.mem_singleton_self _))
          (List.mem_cons_of_mem _ hy)
      rw [upd_other _ _ hyx, upd_other _ _ hya]
    · intro he
      have := hr.full he
      simp at this ⊢; omega
    · show sub64 s.total_sum (2 ^ i) = _
      rw [sub64_le (by omega) hsum, pay_congr hpay]
      omega

/-! ## The bits held by a bucket list -/

theorem Acc_lo_le {bits : List Bool} {E : Nat} {A : List (Nat × Nat)} (h : Acc bits E A)
    (hp : ∀ a, a ∈ A → 0 < a.2) : E ≤ lo_of E A := by
  induction A with
  | nil => exact le_refl _
  | cons a A ih =>
    obtain ⟨h1, h2⟩ := (Acc_cons bits E a A).1 h
    have h3 := ih h2 (fun b hb => hp b (List.mem_cons_of_mem _ hb))
    have h4 := ones_in_pos_lt h1 (hp a (List.mem_cons_self _ _))
    rw [lo_of_cons]; omega

theorem Acc_sum {bits : List Bool} {E : Nat} {A : List (Nat × Nat)} (h : Acc bits E A)
    (hp : ∀ a, a ∈ A → 0 < a.2) : (sizes A).sum = ones_in bits E (lo_of E A) := by
  induction A with
  | nil => simp [sizes, lo_of, ones_in_self]
  | cons a A ih =>
    obtain ⟨h1, h2⟩ := (Acc_cons bits E a A).1 h
    have hp2 : ∀ b, b ∈ A → 0 < b.2 := fun b hb => hp b (List.mem_cons_of_mem _ hb)
    have h3 := ih h2 hp2
    have h4 := ones_in_pos_lt h1 (hp a (List.mem_cons_self _ _))
    have h5 := Acc_lo_le h2 hp2
    rw [sizes_cons, List.sum_cons, h3, lo_of_cons, ones_in_add bits h5 (le_of_lt h4), h1]
    omega

/-- The sizes of the live buckets add up to the 1-bits since the last expired
timestamp. -/
theorem Good.total {W k : Nat} {bits : List Bool} {now E : Nat} {A : List (Nat × Nat)}
    (g : Good W k bits now E A) : (sizes A).sum = ones_in bits E bits.length := by
  have h1 := Acc_sum g.acc g.size_pos
  have h2 := Acc_lo_le g.acc g.size_pos
  rw [ones_in_add bits h2 g.lo_le, g.top, h1]; rfl

theorem Good.sum_le {W k : Nat} {bits : List Bool} {now E : Nat} {A : List (Nat × Nat)}
    (g : Good W k bits now E A) : (sizes A).sum ≤ bits.length := by
  rw [g.total]
  have := ones_in_le bits E bits.length
  omega

theorem Bounded.init {k : Nat} {A : List (Nat × Nat)} {a : Nat × Nat}
    (h : Bounded k (A ++ [a])) : Bounded k A := by
  intro i
  have := h i
  rw [sizes_append, List.count_append] at this
  omega


theorem pay_mem {bs : Nat → Bucket} {L : List Nat} {y : Nat} (hy : y ∈ L) :
    pay bs y ∈ L.map (pay bs) := List.mem_map.2 ⟨y, hy, rfl⟩

/-- The expiry loop ends, keeps the invariant, and leaves only buckets inside
the window; the buckets it drops are a tail segment of the list. -/
theorem expire_loop_core {W k : Nat} {e : Int} {bits : List Bool} {now : Nat}
    (hnow : now < 18446744073709551616) (hlen : bits.length ≤ now) (fuel : Nat)
    {s : StateApx} {L F : List Nat} {E : Nat}
    (hc : Core W k e bits now s L F E) (hb : Bounded k (L.map (pay s.buckets)))
    (hf : L.length < fuel) :
    ∃ s1 L1 D F1 E1, expire_loop fuel s = .ok s1 ∧ Core W k e bits now s1 L1 F1 E1 ∧
      Bounded k (L1.map (pay s1.buckets)) ∧ InWindow W now (L1.map (pay s1.buckets)) ∧
      L = L1 ++ D ∧ L1.map (pay s1.buckets) = L1.map (pay s.buckets) ∧
      (∀ d, d ∈ D → (s.buckets d).timestamp + W ≤ now) ∧
      s1.N_MERGES = s.N_MERGES ∧ s1.max_buckets = s.max_buckets := by
  induction fuel generalizing s L F E with
  | zero => omega
  | succ fuel ih =>
    rcases DL_tail hc.rep.live with ⟨hL, _, ht⟩ | ⟨A, x, hL, ht⟩
    · -- nothing is live
      subst hL
      refine ⟨s, [], [], F, E, ?_, hc, hb, ?_, rfl, rfl, by simp, rfl, rfl⟩
      · unfold expire_loop; simp only [ht, if_true]
      · intro a ha; simp at ha
    · subst hL
      have hx : x < s.max_buckets := DL_mem_lt hc.rep.live x (by simp)
      have hxm : pay s.buckets x ∈ (A ++ [x]).map (pay s.buckets) := pay_mem (by simp)
      have hwin := hc.good.window _ hxm
      have hts : (s.buckets x).timestamp ≤ bits.length := hwin.1
      have hsub : sub64 s.current_time (s.buckets x).timestamp =
          now - (s.buckets x).timestamp := by
        rw [hc.clock]; exact sub64_le (by omega) hnow
      have hstep : expire_loop (fuel + 1) s =
          if now - (s.buckets x).timestamp ≥ W then
            (expire_tail s (s.buckets x) >>= fun s2 => expire_loop fuel s2)
          else .ok s := by
        rw [expire_loop]
        simp only [ht, cast_eq_neg_one, if_false, get_bucket_cast, hx, if_true, ok_bind, hsub,
          hc.wnd]
      by_cases hexp : now - (s.buckets x).timestamp ≥ W
      · -- the oldest bucket is outside the window
        have hsum : s.total_sum < 18446744073709551616 := by
          rw [hc.rep.sum]; have := hc.good.sum_le; omega
        obtain ⟨i, hi⟩ := hc.good.pow _ hxm
        have hsz : (s.buckets x).size = 2 ^ i := hi
        have hi64 : i < 64 := by
          have h1 := hc.rep.sum
          rw [sum_snoc, hsz] at h1
          have h2 : (2 : Nat) ^ i < 2 ^ 64 := by
            have : (2 : Nat) ^ 64 = 18446744073709551616 := by norm_num
            omega
          exact exp_lt_of_pow_lt h2
        obtain ⟨s2, hs2, hrep2, hpay2, hfr2, hm2⟩ :=
          expire_tail_rep hc.rep hi64 hsz hc.good.sorted hsum
        have hgood : Good W k bits now (pay s.buckets x).1 (A.map (pay s.buckets)) := by
          have hg := hc.good
          rw [List.map_append] at hg
          exact Good.expire hg (by show (s.buckets x).timestamp + W ≤ now; omega)
        have hb2 : Bounded k (A.map (pay s.buckets)) := by
          rw [List.map_append] at hb
          exact hb.init
        have hk : k + 2 < 4294967296 := by
          rcases hc.dom with h | h
          · exact h
          · simp at h
        have hc2 : Core W k e bits now s2 A (x :: F) (pay s.buckets x).1 :=
          { wnd := by rw [hfr2.1, hc.wnd]
            par := by rw [hfr2.2.1, hc.par]
            clock := by rw [hfr2.2.2.1, hc.clock]
            cap := by rw [hfr2.2.2.2, hc.cap]
            rep := hrep2
            good := by rw [hpay2]; exact hgood
            dom := Or.inl hk }
        have hf2 : A.length < fuel := by simp at hf; omega
        obtain ⟨s1, L1, D, F1, E1, h1, h2, h3, h4, h5, h6, h7, h8, h9⟩ :=
          ih hc2 (by rw [hpay2]; exact hb2) hf2
        refine ⟨s1, L1, D ++ [x], F1, E1, ?_, h2, h3, h4, ?_, ?_, ?_, ?_, ?_⟩
        · rw [hstep, if_pos hexp, hs2]; exact h1
        · rw [h5, List.append_assoc]
        · rw [h6]
          have : L1.map (pay s2.buckets) = (A.map (pay s2.buckets)).take L1.length := by
            rw [h5]; simp
          have h10 : L1.map (pay s.buckets) = (A.map (pay s.buckets)).take L1.length := by
            rw [h5]; simp
          rw [this, h10, hpay2]
        · intro d hd
          rcases List.mem_append.1 hd with hd | hd
          · have h11 := h7 d hd
            have hdA : d ∈ A := by rw [h5]; exact List.mem_append_right _ hd
            have h12 : pay s2.buckets d = pay s.buckets d := by
              have := List.map_inj_left.1 hpay2 d hdA
              exact this
            have h13 : (s2.buckets d).timestamp = (s.buckets d).timestamp :=
              congrArg Prod.fst h12
            omega
          · simp at hd; subst hd; omega
        · rw [h8, hm2]
        · rw [h9, hfr2.2.2.2]
      · -- the oldest bucket is inside the window, and so are all the others
        refine ⟨s, A ++ [x], [], F, E, ?_, hc, hb, ?_, by simp, rfl, by simp, rfl, rfl⟩
        · rw [hstep, if_neg hexp]
        · intro a ha
          have hd := hc.good.desc
          rw [List.map_append, stamps_append, List.pairwise_append] at hd
          rw [List.map_append] at ha
          rcases List.mem_append.1 ha with ha | ha
          · have := hd.2.2 a.1 (mem_stamps.2 ⟨a, ha, rfl⟩) (s.buckets x).timestamp
              (by simp [stamps, pay])
            omega
          · simp [pay] at ha; subst ha; show now < (s.buckets x).timestamp + W; omega

/-! ## Admission of a new bucket -/

theorem u32_small {c : Nat} (h : c < 4294967296) : u32 c = c := by
  unfold u32; omega

theorem u64_small {c : Nat} (h : c < 18446744073709551616) : u64 c = c := by
  unfold u64; omega

theorem admit_bucket_more (s : StateApx) (f b : Nat) (hf : f < s.max_buckets)
    (hb : b < s.max_buckets) (hfh : s.free_head = (f : Int)) (hh : s.head = (b : Int)) :
    admit_bucket s = .ok
      { s with
        total_sum := u64 (s.total_sum + 1)
        free_head := (s.buckets f).next
        buckets := Function.update
          (Function.update s.buckets f
            { timestamp := s.current_time, size := 1, prev := -1, next := (b : Int) }) b
          { Function.update s.buckets f
              { timestamp := s.current_time, size := 1, prev := -1, next := (b : Int) } b with
            prev := (f : Int) }
        head := (f : Int)
        count := Function.update s.count 0 (u32 (s.count 0 + 1))
        last_of_size := Function.update s.last_of_size 0
          (if s.last_of_size 0 = -1 then (f : Int) else s.last_of_size 0) } := by
  unfold admit_bucket
  simp only [hfh, cast_eq_neg_one, if_false, get_bucket_cast, set_bucket_cast, hf, hb, if_true,
    ok_bind, hh, ne_eq, not_false_eq_true, get_count, set_count, get_last, set_last,
    Nat.ofNat_pos, pure_ok]
  split
  · rfl
  · rename_i h
    congr 2
    exact (Function.update_eq_self 0 s.last_of_size).symm


theorem admit_bucket_only (s : StateApx) (f : Nat) (hf : f < s.max_buckets)
    (hfh : s.free_head = (f : Int)) (hh : s.head = -1) :
    admit_bucket s = .ok
      { s with
        total_sum := u64 (s.total_sum + 1)
        free_head := (s.buckets f).next
        buckets := Function.update s.buckets f
            { timestamp := s.current_time, size := 1, prev := -1, next := -1 }
        head := (f : Int)
        tail := (f : Int)
        count := Function.update s.count 0 (u32 (s.count 0 + 1))
        last_of_size := Function.update s.last_of_size 0
          (if s.last_of_size 0 = -1 then (f : Int) else s.last_of_size 0) } := by
  unfold admit_bucket
  simp only [hfh, cast_eq_neg_one, if_false, get_bucket_cast, set_bucket_cast, hf, if_true,
    ok_bind, hh, ne_eq, not_true_eq_false, get_count, set_count, get_last, set_last,
    Nat.ofNat_pos, pure_ok]
  split
  · rfl
  · congr 2
    exact (Function.update_eq_self 0 s.last_of_size).symm

/-- With an empty free list the admission stops: at the assertion when the
list ends with `-1`, at the arena bound otherwise. -/
theorem admit_bucket_empty (s : StateApx) (e : Int) (hfh : s.free_head = e)
    (he : ¬ (0 ≤ e ∧ e < (s.max_buckets : Int))) :
    admit_bucket s = .error (if e = -1 then Fault.assertion else Fault.out_of_bounds) := by
  unfold admit_bucket
  by_cases h : e = -1
  · simp only [hfh, h, if_true]
  · simp only [hfh, h, if_false, get_bucket, he, error_bind]

theorem class_last_eq_neg {bs : Nat → Bucket} {L : List Nat} {j : Nat} :
    class_last bs L j = -1 ↔ ∀ y, y ∈ L → (bs y).size ≠ 2 ^ j := by
  constructor
  · intro h y hy hs
    unfold class_last at h
    cases hB : (L.filter (fun x => decide ((bs x).size = 2 ^ j))).getLast? with
    | none =>
      rw [List.getLast?_eq_none_iff, List.filter_eq_nil_iff] at hB
      have h2 := hB y hy
      simp only [decide_eq_true_eq] at h2
      exact h2 hs
    | some z =>
      rw [hB] at h
      simp [slot_or_none] at h
  · exact class_last_none

theorem class_last_cons_hit {bs : Nat → Bucket} (B : List Nat) {x j : Nat}
    (hs : (bs x).size = 2 ^ j) :
    class_last bs (x :: B) j = if class_last bs B j = -1 then (x : Int) else class_last bs B j := by
  by_cases h : class_last bs B j = -1
  · rw [if_pos h]
    have := @class_last_append_left bs [x] B _ (class_last_eq_neg.1 h)
    rw [List.singleton_append] at this
    rw [this]
    simp [class_last, hs, slot_or_none]
  · rw [if_neg h]
    have : ∃ y, y ∈ B ∧ (bs y).size = 2 ^ j := by
      by_contra hc
      push_neg at hc
      exact h (class_last_none hc)
    obtain ⟨y, hy, hys⟩ := this
    have := @class_last_append_right bs [x] B _ _ hy hys
    rwa [List.singleton_append] at this

theorem index_after_admission {bs bs1 : Nat → Bucket} {L : List Nat} {f : Nat}
    {cnt : Nat → Nat} {last : Nat → Int}
    (hpay : ∀ y, y ∈ L → (bs1 y).timestamp = (bs y).timestamp ∧ (bs1 y).size = (bs y).size)
    (hsz : (bs1 f).size = 1)
    (hcnt : ∀ j, j < 64 → cnt j = (sizes (L.map (pay bs))).count (2 ^ j))
    (hlast : ∀ j, j < 64 → last j = class_last bs L j)
    (hsmall : cnt 0 + 1 < 4294967296) :
    (∀ j, j < 64 → (Function.update cnt 0 (u32 (cnt 0 + 1))) j =
        (sizes ((f :: L).map (pay bs1))).count (2 ^ j)) ∧
    (∀ j, j < 64 → (Function.update last 0 (if last 0 = -1 then (f : Int) else last 0)) j =
        class_last bs1 (f :: L) j) := by
  have hpayeq : L.map (pay bs1) = L.map (pay bs) := pay_congr hpay
  have hhead : pay bs1 f = ((bs1 f).timestamp, 1) := by simp [pay, hsz]
  constructor
  · intro j hj
    rw [List.map_cons, hhead, count_admission, hpayeq]
    by_cases h : j = 0
    · subst h; rw [upd_same, u32_small hsmall, hcnt 0 hj]; simp
    · rw [upd_other _ _ h, hcnt j hj]; simp [h]
  · intro j hj
    have hcl : class_last bs1 L j = class_last bs L j :=
      class_last_congr j (fun y hy => (hpay y hy).2)
    by_cases h : j = 0
    · subst h
      rw [upd_same, class_last_cons_hit L (by rw [hsz]; rfl), hcl, ← hlast 0 hj]
    · rw [upd_other _ _ h, class_last_cons_skip L, hcl, hlast j hj]
      rw [hsz]
      intro h2
      exact h (one_eq_pow_two.1 h2)


theorem admit_bucket_rep {e : Int} {s : StateApx} {L F : List Nat} {f : Nat}
    (hr : Rep e s L (f :: F)) (hsum : s.total_sum + 1 < 18446744073709551616) :
    ∃ s1, admit_bucket s = .ok s1 ∧ Rep e s1 (f :: L) F ∧
      (f :: L).map (pay s1.buckets) = (s.current_time, 1) :: L.map (pay s.buckets) ∧
      SameFrame s1 s ∧ s1.N_MERGES = s.N_MERGES := by
  obtain ⟨hfh, hf, hfree⟩ := (FL_cons _ _ _ _).1 hr.free
  have hnd : (f :: (L ++ F)).Nodup := List.nodup_middle.1 hr.nodup
  have hfL : f ∉ L := fun h => (List.nodup_cons.1 hnd).1 (List.mem_append_left _ h)
  have hfF : f ∉ F := fun h => (List.nodup_cons.1 hnd).1 (List.mem_append_right _ h)
  have hLF : ∀ y, y ∈ L → y ∉ F := by
    intro y hy hyF
    have := (List.nodup_append.1 (List.nodup_cons.1 hnd).2).2.2
    exact this hy hyF
  have hlen : (f :: L).length ≤ s.max_buckets := by
    refine nodup_length_le ?_ ?_
    · have : (f :: L ++ F).Nodup := hnd
      exact (List.nodup_append.1 (by simpa using this)).1
    · intro y hy
      rcases List.mem_cons.1 hy with rfl | hy
      · exact hf
      · exact DL_mem_lt hr.live y hy
  have hsmall : s.count 0 + 1 < 4294967296 := by
    rw [hr.cnt 0 (by norm_num)]
    have h1 := count_le_len s.buckets L (2 ^ 0)
    have h2 := hr.small
    simp only [List.length_cons] at hlen
    omega
  have hfull : e = -1 → (f :: L).length + F.length = s.max_buckets := by
    intro he
    have := hr.full he
    simp only [List.length_cons] at this ⊢; omega
  cases L with
  | nil =>
    obtain ⟨hh, ht⟩ := (DL_nil _ _ _ _).1 hr.live
    refine ⟨_, admit_bucket_only s f hf hfh hh, ?_, ?_, ⟨rfl, rfl, rfl, rfl⟩, rfl⟩
    · have hidx := @index_after_admission s.buckets
        (Function.update s.buckets f
          { timestamp := s.current_time, size := 1, prev := -1, next := -1 })
        [] f _ _ (by simp) (by rw [upd_same]) hr.cnt hr.last hsmall
      refine ⟨?_, ?_, by simpa using hnd, hr.term, hr.small, hfull, ?_,
        hidx.1, hidx.2⟩
      · refine (DL_cons _ _ _ _ _ _).2 ⟨rfl, hf, ?_, ?_⟩
        · dsimp only; rw [upd_same]
        · dsimp only; rw [upd_same]; exact (DL_nil _ _ _ _).2 ⟨rfl, rfl⟩
      · dsimp only
        refine (FL_congr ?_ _ _).2 hfree
        intro y hy
        have : y ≠ f := fun h => hfF (h ▸ hy)
        rw [upd_other _ _ this]
      · show u64 (s.total_sum + 1) = _
        rw [u64_small hsum, hr.sum]
        simp [sizes, pay]
    · simp [pay]
  | cons b L1 =>
    obtain ⟨hh, hb, hbp, hrest⟩ := (DL_cons _ _ _ _ _ _).1 hr.live
    have hbf : b ≠ f := fun h => hfL (by simp [h])
    have hpay : ∀ y, y ∈ b :: L1 →
        ((Function.update
          (Function.update s.buckets f
            { timestamp := s.current_time, size := 1, prev := -1, next := (b : Int) }) b
          { Function.update s.buckets f
              { timestamp := s.current_time, size := 1, prev := -1, next := (b : Int) } b with
            prev := (f : Int) }) y).timestamp = (s.buckets y).timestamp ∧
        ((Function.update
          (Function.update s.buckets f
            { timestamp := s.current_time, size := 1, prev := -1, next := (b : Int) }) b
          { Function.update s.buckets f
              { timestamp := s.current_time, size := 1, prev := -1, next := (b : Int) } b with
            prev := (f : Int) }) y).size = (s.buckets y).size := by
      intro y hy
      have hyf : y ≠ f := fun h => hfL (h ▸ hy)
      by_cases hyb : y = b
      · subst hyb; rw [upd_same, upd_other _ _ hyf]; exact ⟨rfl, rfl⟩
      · rw [upd_other _ _ hyb, upd_other _ _ hyf]; exact ⟨rfl, rfl⟩
    have hnew : (Function.update
          (Function.update s.buckets f
            { timestamp := s.current_time, size := 1, prev := -1, next := (b : Int) }) b
          { Function.update s.buckets f
              { timestamp := s.current_time, size := 1, prev := -1, next := (b : Int) } b with
            prev := (f : Int) }) f =
        { timestamp := s.current_time, size := 1, prev := -1, next := (b : Int) } := by
      rw [upd_other _ _ hbf.symm, upd_same]
    refine ⟨_, admit_bucket_more s f b hf hb hfh hh, ?_, ?_, ⟨rfl, rfl, rfl, rfl⟩, rfl⟩
    · have hidx := index_after_admission (f := f) hpay (by rw [hnew]) hr.cnt hr.last hsmall
      refine ⟨?_, ?_, by simpa using hnd, hr.term, hr.small, hfull, ?_, hidx.1, hidx.2⟩
      · refine (DL_cons _ _ _ _ _ _).2 ⟨rfl, hf, ?_, ?_⟩
        · dsimp only; rw [hnew]
        · dsimp only
          rw [hnew]
          have h1 : DL (Function.update s.buckets f
              { timestamp := s.current_time, size := 1, prev := -1, next := (b : Int) })
              s.max_buckets (-1) s.head (b :: L1) s.tail (-1) := by
            refine (DL_congr ?_ _ _ _ _).2 hr.live
            intro y hy
            have hyf : y ≠ f := fun h => hfL (h ▸ hy)
            rw [upd_other _ _ hyf]; exact ⟨rfl, rfl⟩
          have hbL1 : b ∉ L1 := by
            have := (List.nodup_append.1 hr.nodup).1
            exact (List.nodup_cons.1 this).1
          have h2 := DL_reprev (f : Int) h1 hbL1
          rw [hh] at h2
          exact h2
      · dsimp only
        refine (FL_congr ?_ _ _).2 hfree
        intro y hy
        have hyf : y ≠ f := fun h => hfF (h ▸ hy)
        have hyb : y ≠ b := fun h => hLF b (by simp) (h ▸ hy)
        rw [upd_other _ _ hyb, upd_other _ _ hyf]
      · show u64 (s.total_sum + 1) = _
        rw [u64_small hsum, hr.sum, List.map_cons (f := pay _) (a := f), pay_congr hpay]
        simp only [sizes_cons, List.sum_cons, pay, hnew]
        omega
    · rw [List.map_cons (f := pay _) (a := f), pay_congr hpay]
      simp only [pay, hnew]

/-! ## One merge -/

theorem merge_pair_more (s : StateApx) (i x y b : Nat) (hi : i + 1 < 64)
    (hx : x < s.max_buckets) (hy : y < s.max_buckets) (hb : b < s.max_buckets)
    (hxy : x ≠ y) (hxb : x ≠ b) (hyb : y ≠ b)
    (hl : s.last_of_size i = (x : Int)) (hp : (s.buckets x).prev = (y : Int))
    (hn : (s.buckets x).next = (b : Int)) :
    merge_pair s i = .ok (merged s i x y) := by
  have hi0 : i < 64 := by omega
  unfold merge_pair merged
  simp only [get_last, hi0, if_true, ok_bind, hl, get_bucket_cast, hx, hp, hy, set_bucket_cast,
    upd_other _ _ hxy, hn, cast_eq_neg_one, ne_eq, not_false_eq_true, hb, Int.toNat_ofNat,
    get_count, set_count, set_last, hi, pure_ok]
  split <;> split
  · refine congrArg Except.ok ?_
    congr 1
    · funext z
      have hyx : y ≠ x := Ne.symm hxy
      have hbx : b ≠ x := Ne.symm hxb
      have hby : b ≠ y := Ne.symm hyb
      by_cases hzx : z = x
      · subst hzx
        simp only [merged_arena, Function.update_apply, if_true, hxy, hxb, if_false, hn]
      · by_cases hzy : z = y
        · subst hzy
          simp only [merged_arena, Function.update_apply, if_true, hyx, hyb, if_false, hn,
            Nat.cast_inj]
        · by_cases hzb : z = b
          · subst hzb
            simp only [merged_arena, Function.update_apply, if_true, hbx, hby, if_false, hn]
          · have hzb2 : ¬ ((z : Int) = (b : Int)) := by omega
            simp only [merged_arena, Function.update_apply, hzx, hzy, hzb, if_false, hn, hzb2]
  · refine congrArg Except.ok ?_
    congr 1
    · funext z
      have hyx : y ≠ x := Ne.symm hxy
      have hbx : b ≠ x := Ne.symm hxb
      have hby : b ≠ y := Ne.symm hyb
      by_cases hzx : z = x
      · subst hzx
        simp only [merged_arena, Function.update_apply, if_true, hxy, hxb, if_false, hn]
      · by_cases hzy : z = y
        · subst hzy
          simp only [merged_arena, Function.update_apply, if_true, hyx, hyb, if_false, hn,
            Nat.cast_inj]
        · by_cases hzb : z = b
          · subst hzb
            simp only [merged_arena, Function.update_apply, if_true, hbx, hby, if_false, hn]
          · have hzb2 : ¬ ((z : Int) = (b : Int)) := by omega
            simp only [merged_arena, Function.update_apply, hzx, hzy, hzb, if_false, hn, hzb2]
    · rw [Function.update_eq_self]
  · refine congrArg Except.ok ?_
    congr 1
    · funext z
      have hyx : y ≠ x := Ne.symm hxy
      have hbx : b ≠ x := Ne.symm hxb
      have hby : b ≠ y := Ne.symm hyb
      by_cases hzx : z = x
      · subst hzx
        simp only [merged_arena, Function.update_apply, if_true, hxy, hxb, if_false, hn]
      · by_cases hzy : z = y
        · subst hzy
          simp only [merged_arena, Function.update_apply, if_true, hyx, hyb, if_false, hn,
            Nat.cast_inj]
        · by_cases hzb : z = b
          · subst hzb
            simp only [merged_arena, Function.update_apply, if_true, hbx, hby, if_false, hn]
          · have hzb2 : ¬ ((z : Int) = (b : Int)) := by omega
            simp only [merged_arena, Function.update_apply, hzx, hzy, hzb, if_false, hn, hzb2]
    · rename_i h1 h2
      have hyx : y ≠ x := Ne.symm hxy
      simp only [Function.update_apply, if_true, hyx, hyb, if_false] at h2 ⊢
      rw [if_pos h2]
  · refine congrArg Except.ok ?_
    congr 1
    · funext z
      have hyx : y ≠ x := Ne.symm hxy
      have hbx : b ≠ x := Ne.symm hxb
      have hby : b ≠ y := Ne.symm hyb
      by_cases hzx : z = x
      · subst hzx
        simp only [merged_arena, Function.update_apply, if_true, hxy, hxb, if_false, hn]
      · by_cases hzy : z = y
        · subst hzy
          simp only [merged_arena, Function.update_apply, if_true, hyx, hyb, if_false, hn,
            Nat.cast_inj]
        · by_cases hzb : z = b
          · subst hzb
            simp only [merged_arena, Function.update_apply, if_true, hbx, hby, if_false, hn]
          · have hzb2 : ¬ ((z : Int) = (b : Int)) := by omega
            simp only [merged_arena, Function.update_apply, hzx, hzy, hzb, if_false, hn, hzb2]
    · rename_i h1 h2
      have hyx : y ≠ x := Ne.symm hxy
      simp only [Function.update_apply, if_true, hyx, hyb, if_false] at h2 ⊢
      rw [if_neg h2]
      symm
      rw [Function.update_eq_self_iff, Function.update_apply]


theorem merge_pair_last (s : StateApx) (i x y : Nat) (hi : i + 1 < 64)
    (hx : x < s.max_buckets) (hy : y < s.max_buckets) (hxy : x ≠ y)
    (hl : s.last_of_size i = (x : Int)) (hp : (s.buckets x).prev = (y : Int))
    (hn : (s.buckets x).next = -1) :
    merge_pair s i = .ok (merged s i x y) := by
  have hi0 : i < 64 := by omega
  unfold merge_pair merged
  simp only [get_last, hi0, if_true, ok_bind, hl, get_bucket_cast, hx, hp, hy, set_bucket_cast,
    upd_other _ _ hxy, hn, ne_eq, not_true_eq_false, if_false,
    get_count, set_count, set_last, hi, pure_ok]
  split <;> split
  · refine congrArg Except.ok ?_
    congr 1
    · funext z
      have hyx : y ≠ x := Ne.symm hxy
      by_cases hzx : z = x
      · subst hzx
        simp only [merged_arena, Function.update_apply, if_true, hxy, if_false, hn, hp]
      · by_cases hzy : z = y
        · subst hzy
          simp only [merged_arena, Function.update_apply, if_true, hyx, if_false, hn]
        · simp only [merged_arena, Function.update_apply, hzx, hzy, if_false, hn,
            cast_eq_neg_one]
  · refine congrArg Except.ok ?_
    congr 1
    · funext z
      have hyx : y ≠ x := Ne.symm hxy
      by_cases hzx : z = x
      · subst hzx
        simp only [merged_arena, Function.update_apply, if_true, hxy, if_false, hn, hp]
      · by_cases hzy : z = y
        · subst hzy
          simp only [merged_arena, Function.update_apply, if_true, hyx, if_false, hn]
        · simp only [merged_arena, Function.update_apply, hzx, hzy, if_false, hn,
            cast_eq_neg_one]
    · rw [Function.update_eq_self]
  · refine congrArg Except.ok ?_
    congr 1
    · funext z
      have hyx : y ≠ x := Ne.symm hxy
      by_cases hzx : z = x
      · subst hzx
        simp only [merged_arena, Function.update_apply, if_true, hxy, if_false, hn, hp]
      · by_cases hzy : z = y
        · subst hzy
          simp only [merged_arena, Function.update_apply, if_true, hyx, if_false, hn]
        · simp only [merged_arena, Function.update_apply, hzx, hzy, if_false, hn,
            cast_eq_neg_one]
    · rename_i h1 h2
      have hyx : y ≠ x := Ne.symm hxy
      simp only [Function.update_apply, if_true, hyx, if_false] at h2 ⊢
      rw [if_pos h2]
  · refine congrArg Except.ok ?_
    congr 1
    · funext z
      have hyx : y ≠ x := Ne.symm hxy
      by_cases hzx : z = x
      · subst hzx
        simp only [merged_arena, Function.update_apply, if_true, hxy, if_false, hn, hp]
      · by_cases hzy : z = y
        · subst hzy
          simp only [merged_arena, Function.update_apply, if_true, hyx, if_false, hn]
        · simp only [merged_arena, Function.update_apply, hzx, hzy, if_false, hn,
            cast_eq_neg_one]
    · rename_i h1 h2
      have hyx : y ≠ x := Ne.symm hxy
      simp only [Function.update_apply, if_true, hyx, if_false] at h2 ⊢
      rw [if_neg h2]
      symm
      rw [Function.update_eq_self_iff, Function.update_apply]

/-! ## The two oldest buckets of a class -/

theorem last_occurrence {p : Nat → Prop} [DecidablePred p] (L : List Nat)
    (h : ∃ z, z ∈ L ∧ p z) :
    ∃ P x B, L = P ++ x :: B ∧ p x ∧ ∀ z, z ∈ B → ¬ p z := by
  induction L with
  | nil => obtain ⟨z, hz, _⟩ := h; simp at hz
  | cons a L ih =>
    by_cases h2 : ∃ z, z ∈ L ∧ p z
    · obtain ⟨P, x, B, hL, hx, hB⟩ := ih h2
      exact ⟨a :: P, x, B, by rw [hL]; rfl, hx, hB⟩
    · push_neg at h2
      obtain ⟨z, hz, hpz⟩ := h
      rcases List.mem_cons.1 hz with rfl | hz
      · exact ⟨[], z, L, rfl, hpz, h2⟩
      · exact absurd hpz (h2 z hz)

theorem count_split (bs : Nat → Bucket) (P B : List Nat) (x i : Nat)
    (hx : (bs x).size = 2 ^ i) (hB : ∀ z, z ∈ B → (bs z).size ≠ 2 ^ i) :
    (sizes ((P ++ x :: B).map (pay bs))).count (2 ^ i) =
      (sizes (P.map (pay bs))).count (2 ^ i) + 1 := by
  have h1 : P ++ x :: B = (P ++ [x]) ++ B := by simp
  rw [h1, List.map_append, sizes_append, List.count_append, count_snoc bs P x i i hx,
    count_zero_size.2 hB]
  simp

/-- A class with at least two buckets, in a list sorted by size: its oldest
bucket `x` is directly preceded by a bucket `y` of the same class. -/
theorem class_split {bs : Nat → Bucket} {L : List Nat} {i : Nat}
    (hsorted : (sizes (L.map (pay bs))).Pairwise (fun p q => p ≤ q))
    (hc : 2 ≤ (sizes (L.map (pay bs))).count (2 ^ i)) :
    ∃ A1 y x B, L = A1 ++ y :: x :: B ∧ (bs x).size = 2 ^ i ∧ (bs y).size = 2 ^ i ∧
      (∀ z, z ∈ B → (bs z).size ≠ 2 ^ i) ∧ class_last bs L i = (x : Int) := by
  have hex : ∃ z, z ∈ L ∧ (bs z).size = 2 ^ i := count_pos_size.1 (by omega)
  obtain ⟨P, x, B, hL, hx, hB⟩ := last_occurrence L hex
  subst hL
  rw [count_split bs P B x i hx hB] at hc
  have hP : ∃ z, z ∈ P ∧ (bs z).size = 2 ^ i := count_pos_size.1 (by omega)
  rcases List.eq_nil_or_concat P with hnil | ⟨A1, y, hPeq⟩
  · subst hnil; obtain ⟨z, hz, _⟩ := hP; simp at hz
  · rw [List.concat_eq_append] at hPeq
    subst hPeq
    have hs2 := hsorted
    rw [sizes_pay, List.map_append, List.pairwise_append] at hs2
    have hle : (bs y).size ≤ 2 ^ i := by
      have := hs2.2.2 ((bs y).size) (List.mem_map.2 ⟨y, by simp, rfl⟩) ((bs x).size)
        (by simp)
      omega
    have hs3 : (sizes ((A1 ++ [y]).map (pay bs))).Pairwise (fun p q => p ≤ q) := by
      rw [sizes_pay]; exact hs2.1
    have hy : (bs y).size = 2 ^ i := by
      refine last_has_size hs3 ?_ hle
      obtain ⟨z, hz, hzs⟩ := hP
      exact ⟨z, hz, hzs⟩
    refine ⟨A1, y, x, B, by simp, hx, hy, hB, ?_⟩
    have h1 : A1 ++ [y] ++ x :: B = (A1 ++ [y] ++ [x]) ++ B := by simp
    rw [h1, class_last_append_left _ _ hB]
    exact class_last_snoc_hit _ hx

/-! ## The arena after a merge -/

theorem merged_arena_x (bs : Nat → Bucket) (x y : Nat) (fh : Int) :
    merged_arena bs x y fh x = { bs x with next := fh } := by
  simp [merged_arena]

theorem merged_arena_y (bs : Nat → Bucket) {x y : Nat} (fh : Int) (h : y ≠ x) :
    merged_arena bs x y fh y =
      { bs y with size := u64 ((bs y).size * 2), next := (bs x).next } := by
  simp [merged_arena, h]

theorem merged_arena_next (bs : Nat → Bucket) {x y z : Nat} (fh : Int) (h1 : z ≠ x)
    (h2 : z ≠ y) (h3 : (z : Int) = (bs x).next) :
    merged_arena bs x y fh z = { bs z with prev := (y : Int) } := by
  simp [merged_arena, h1, h2, h3]

theorem merged_arena_other (bs : Nat → Bucket) {x y z : Nat} (fh : Int) (h1 : z ≠ x)
    (h2 : z ≠ y) (h3 : (z : Int) ≠ (bs x).next) :
    merged_arena bs x y fh z = bs z := by
  simp [merged_arena, h1, h2, h3]


/-! ## The class arrays after a merge -/

theorem index_after_merge {bs bs1 : Nat → Bucket} {A1 B : List Nat} {x y i : Nat}
    {cnt : Nat → Nat} {last : Nat → Int} (m : Int)
    (hA : ∀ z, z ∈ A1 → (bs1 z).timestamp = (bs z).timestamp ∧ (bs1 z).size = (bs z).size)
    (hB : ∀ z, z ∈ B → (bs1 z).timestamp = (bs z).timestamp ∧ (bs1 z).size = (bs z).size)
    (hy1 : (bs1 y).size = 2 ^ (i + 1)) (hy1t : (bs1 y).timestamp = (bs y).timestamp)
    (hx : (bs x).size = 2 ^ i) (hy : (bs y).size = 2 ^ i)
    (hBi : ∀ z, z ∈ B → (bs z).size ≠ 2 ^ i)
    (hsorted : (sizes ((A1 ++ y :: x :: B).map (pay bs))).Pairwise (fun p q => p ≤ q))
    (hcnt : ∀ j, j < 64 → cnt j = (sizes ((A1 ++ y :: x :: B).map (pay bs))).count (2 ^ j))
    (hlast : ∀ j, j < 64 → last j = class_last bs (A1 ++ y :: x :: B) j)
    (hsmall : cnt i < 4294967296)
    (hsmall2 : (sizes ((A1 ++ y :: B).map (pay bs1))).count (2 ^ (i + 1)) < 4294967296)
    (hi : i + 1 < 64)
    (hm : (A1 = [] ∧ m = -1) ∨ ∃ (A0 : List Nat) (a : Nat), A1 = A0 ++ [a] ∧ m = (a : Int)) :
    (∀ j, j < 64 →
      (Function.update (Function.update cnt i (sub32 (cnt i) 2)) (i + 1)
        (u32 (Function.update cnt i (sub32 (cnt i) 2) (i + 1) + 1))) j =
        (sizes ((A1 ++ y :: B).map (pay bs1))).count (2 ^ j)) ∧
    (∀ j, j < 64 →
      (Function.update
        (Function.update last i
          (if Function.update cnt i (sub32 (cnt i) 2) i = 0 then -1 else m)) (i + 1)
        (if Function.update last i
            (if Function.update cnt i (sub32 (cnt i) 2) i = 0 then -1 else m) (i + 1) = -1
          then (y : Int)
          else Function.update last i
            (if Function.update cnt i (sub32 (cnt i) 2) i = 0 then -1 else m) (i + 1))) j =
        class_last bs1 (A1 ++ y :: B) j) := by
  have hi0 : i < 64 := by omega
  have hne : i + 1 ≠ i := by omega
  -- the two bucket lists as lists of pairs
  have hold : (A1 ++ y :: x :: B).map (pay bs) =
      A1.map (pay bs) ++ ((bs y).timestamp, 2 ^ i) :: ((bs x).timestamp, 2 ^ i) ::
        B.map (pay bs) := by
    simp [pay, hx, hy]
  have hnew : (A1 ++ y :: B).map (pay bs1) =
      A1.map (pay bs) ++ ((bs y).timestamp, 2 ^ (i + 1)) :: B.map (pay bs) := by
    rw [List.map_append, List.map_cons, pay_congr hA, pay_congr hB]
    simp [pay, hy1, hy1t]
  have hcm : ∀ j, (sizes ((A1 ++ y :: B).map (pay bs1))).count (2 ^ j) +
      (if j = i then 2 else 0) =
      (sizes ((A1 ++ y :: x :: B).map (pay bs))).count (2 ^ j) + (if j = i + 1 then 1 else 0) := by
    intro j
    rw [hold, hnew]
    exact count_merge _ _ _ _ i j
  have hci : (sizes ((A1 ++ y :: x :: B).map (pay bs))).count (2 ^ i) =
      (sizes (A1.map (pay bs))).count (2 ^ i) + 2 := by
    have h1 : A1 ++ y :: x :: B = (A1 ++ [y]) ++ x :: B := by simp
    rw [h1, count_split bs _ B x i hx hBi, count_snoc bs A1 y i i hy]
    simp
  have hsub : sub32 (cnt i) 2 = (sizes (A1.map (pay bs))).count (2 ^ i) := by
    have := hcnt i hi0
    rw [sub32_two (by omega) hsmall]; omega
  -- sizes in front of `x` are at most `2 ^ i`
  have hfront : ∀ z, z ∈ A1 ++ [y, x] → (bs z).size ≤ 2 ^ i := by
    intro z hz
    have h1 : A1 ++ y :: x :: B = (A1 ++ [y]) ++ x :: B := by simp
    have hs2 := hsorted
    rw [h1, sizes_pay, List.map_append, List.pairwise_append] at hs2
    simp only [List.mem_append, List.mem_cons, List.mem_singleton, List.not_mem_nil,
      or_false] at hz
    rcases hz with hz | rfl | rfl
    · have := hs2.2.2 ((bs z).size) (List.mem_map.2 ⟨z, by simp [hz], rfl⟩) ((bs x).size)
        (by simp)
      omega
    · omega
    · omega
  constructor
  · intro j hj
    have h1 := hcm j
    by_cases c1 : j = i + 1
    · subst c1
      rw [upd_same, upd_other _ _ hne, hcnt _ hj]
      rw [if_neg hne, if_pos rfl] at h1
      rw [u32_small (by omega)]; omega
    · rw [upd_other _ _ c1]
      by_cases c2 : j = i
      · subst c2
        rw [upd_same, hsub]
        rw [if_pos rfl, if_neg c1] at h1
        omega
      · rw [upd_other _ _ c2, hcnt j hj]
        rw [if_neg c2, if_neg c1] at h1
        omega
  · intro j hj
    have hBc : class_last bs1 B j = class_last bs B j :=
      class_last_congr j (fun z hz => (hB z hz).2)
    have hAc : class_last bs1 A1 j = class_last bs A1 j :=
      class_last_congr j (fun z hz => (hA z hz).2)
    have hL1 : A1 ++ y :: x :: B = (A1 ++ [y, x]) ++ B := by simp
    have hL2 : A1 ++ y :: B = (A1 ++ [y]) ++ B := by simp
    by_cases c1 : j = i + 1
    · subst c1
      rw [upd_same, upd_other _ _ hne, hlast _ hj]
      have hold1 : class_last bs (A1 ++ y :: x :: B) (i + 1) = class_last bs B (i + 1) := by
        by_cases hc : class_last bs B (i + 1) = -1
        · rw [hL1, class_last_append_left _ _ (class_last_eq_neg.1 hc), hc]
          apply class_last_none
          intro z hz h2
          have := hfront z hz
          have h3 : 2 ^ i < 2 ^ (i + 1) := Nat.pow_lt_pow_right (by norm_num) (by omega)
          omega
        · have : ∃ z, z ∈ B ∧ (bs z).size = 2 ^ (i + 1) := by
            by_contra hcon
            push_neg at hcon
            exact hc (class_last_none hcon)
          obtain ⟨z, hz, hzs⟩ := this
          rw [hL1, class_last_append_right _ _ hz hzs]
      rw [hold1]
      have hnew1 : class_last bs1 (A1 ++ y :: B) (i + 1) = class_last bs1 (y :: B) (i + 1) :=
        class_last_append_right A1 (y :: B) (List.mem_cons_self _ _) hy1
      rw [hnew1, class_last_cons_hit B hy1, hBc]
    · rw [upd_other _ _ c1]
      by_cases c2 : j = i
      · subst c2
        rw [upd_same, upd_same, hsub]
        have hnone : ∀ z, z ∈ y :: B → (bs1 z).size ≠ 2 ^ j := by
          intro z hz
          rcases List.mem_cons.1 hz with rfl | hz
          · rw [hy1]
            intro h2
            have := pow_two_inj.1 h2
            omega
          · rw [(hB z hz).2]; exact hBi z hz
        rw [class_last_append_left A1 (y :: B) hnone, hAc]
        by_cases hz : (sizes (A1.map (pay bs))).count (2 ^ j) = 0
        · rw [if_pos hz]
          exact (class_last_none (count_zero_size.1 hz)).symm
        · rw [if_neg hz]
          rcases hm with ⟨hA1, _⟩ | ⟨A0, a, hA1, hma⟩
          · subst hA1; simp [sizes] at hz
          · subst hA1
            rw [hma]
            have hle : (bs a).size ≤ 2 ^ j := hfront a (by simp)
            have hs3 : (sizes ((A0 ++ [a]).map (pay bs))).Pairwise (fun p q => p ≤ q) := by
              have hs2 := hsorted
              rw [List.map_append, sizes_append, List.pairwise_append] at hs2
              exact hs2.1
            have hsa : (bs a).size = 2 ^ j :=
              last_has_size hs3 (count_pos_size.1 (by omega)) hle
            exact (class_last_snoc_hit A0 hsa).symm
      · rw [upd_other _ _ c2, hlast j hj]
        have hyj : (bs y).size ≠ 2 ^ j := by
          rw [hy]; intro h2; exact c2 (pow_two_inj.1 h2).symm
        have hxj : (bs x).size ≠ 2 ^ j := by
          rw [hx]; intro h2; exact c2 (pow_two_inj.1 h2).symm
        have hy1j : (bs1 y).size ≠ 2 ^ j := by
          rw [hy1]; intro h2; exact c1 (pow_two_inj.1 h2).symm
        by_cases hc : class_last bs B j = -1
        · have hBn := class_last_eq_neg.1 hc
          have hBn1 : ∀ z, z ∈ B → (bs1 z).size ≠ 2 ^ j := by
            intro z hz; rw [(hB z hz).2]; exact hBn z hz
          rw [hL1, class_last_append_left _ _ hBn, hL2, class_last_append_left _ _ hBn1]
          have h5 : ∀ z, z ∈ [y, x] → (bs z).size ≠ 2 ^ j := by
            intro z hz
            simp only [List.mem_cons, List.mem_singleton, List.not_mem_nil, or_false] at hz
            rcases hz with rfl | rfl
            · exact hyj
            · exact hxj
          have h6 : ∀ z, z ∈ [y] → (bs1 z).size ≠ 2 ^ j := by
            intro z hz
            simp only [List.mem_singleton] at hz
            subst hz; exact hy1j
          rw [class_last_append_left _ _ h5, class_last_append_left _ _ h6, hAc]
        · have : ∃ z, z ∈ B ∧ (bs z).size = 2 ^ j := by
            by_contra hcon
            push_neg at hcon
            exact hc (class_last_none hcon)
          obtain ⟨z, hz, hzs⟩ := this
          have hzs1 : (bs1 z).size = 2 ^ j := by rw [(hB z hz).2]; exact hzs
          rw [hL1, class_last_append_right _ _ hz hzs, hL2,
            class_last_append_right _ _ hz hzs1, hBc]

theorem nodup_mid {A B F : List Nat} {x y : Nat} (h : (A ++ y :: x :: B ++ F).Nodup) :
    x ≠ y ∧ x ∉ A ∧ y ∉ A ∧ x ∉ B ∧ y ∉ B ∧ x ∉ F ∧ y ∉ F ∧
    (∀ z, z ∈ A → z ∉ B) ∧ (∀ z, z ∈ A → z ∉ F) ∧ (∀ z, z ∈ B → z ∉ F) ∧ A.Nodup ∧ B.Nodup ∧
    (A ++ y :: B ++ x :: F).Nodup := by
  have hp : (A ++ y :: B ++ x :: F).Perm (A ++ y :: x :: B ++ F) := by
    simp only [List.append_assoc, List.cons_append]
    refine List.Perm.append_left A (List.Perm.cons y ?_)
    exact (List.perm_middle).trans (List.Perm.refl _)
  have hnd2 := hp.nodup_iff.2 h
  simp only [List.append_assoc, List.cons_append, List.nodup_append, List.nodup_cons,
    List.mem_append, List.mem_cons, not_or, List.Disjoint] at h
  obtain ⟨hA, ⟨⟨hyx, hyB, hyF⟩, ⟨hxB, hxF⟩, hB, hF, hBF⟩, hdis⟩ := h
  refine ⟨fun h => hyx h.symm, ?_, ?_, hxB, hyB, hxF, hyF, ?_, ?_, ?_, hA, hB, hnd2⟩
  · intro hx; exact hdis hx (Or.inr (Or.inl rfl))
  · intro hy; exact hdis hy (Or.inl rfl)
  · intro z hz hzB; exact hdis hz (Or.inr (Or.inr (Or.inl hzB)))
  · intro z hz hzF; exact hdis hz (Or.inr (Or.inr (Or.inr hzF)))
  · intro z hz hzF; exact hBF hz hzF

theorem u64_double {i : Nat} (h : i + 1 < 64) : u64 (2 ^ i * 2) = 2 ^ (i + 1) := by
  rw [← pow_succ]
  exact u64_small (pow_lt_u64 h)

/-- One round of the merge loop on a class with at least two buckets: the two
oldest buckets of the class are neighbours, the round stays inside the arrays,
and the result is the list with the two replaced by one bucket of twice the
size, carrying the newer timestamp. -/
theorem merge_pair_rep {e : Int} {s : StateApx} {L F : List Nat} {i : Nat}
    (hr : Rep e s L F) (hi : i < 64) (hc : 2 ≤ s.count i)
    (hsorted : (sizes (L.map (pay s.buckets))).Pairwise (fun p q => p ≤ q))
    (hsum : s.total_sum < 18446744073709551616) :
    ∃ A1 y x B s1, L = A1 ++ y :: x :: B ∧ (s.buckets x).size = 2 ^ i ∧
      (s.buckets y).size = 2 ^ i ∧ (∀ z, z ∈ B → (s.buckets z).size ≠ 2 ^ i) ∧ i + 1 < 64 ∧
      merge_pair s i = .ok s1 ∧ Rep e s1 (A1 ++ y :: B) (x :: F) ∧
      (A1 ++ y :: B).map (pay s1.buckets) =
        A1.map (pay s.buckets) ++ ((s.buckets y).timestamp, 2 ^ (i + 1)) ::
          B.map (pay s.buckets) ∧
      SameFrame s1 s ∧ s1.N_MERGES = u64 (s.N_MERGES + 1) ∧ s1.total_sum = s.total_sum := by
  have hc2 : 2 ≤ (sizes (L.map (pay s.buckets))).count (2 ^ i) := by
    rw [← hr.cnt i hi]; exact hc
  obtain ⟨A1, y, x, B, hL, hx, hy, hBi, hcl⟩ := class_split hsorted hc2
  subst hL
  have hlast : s.last_of_size i = (x : Int) := by rw [hr.last i hi, hcl]
  -- the links around `y` and `x`
  obtain ⟨m, m1, hA1, hrest⟩ := (DL_append A1 (y :: x :: B) _ _ _ _).1 hr.live
  obtain ⟨hm1, hyn, hyp, hrest2⟩ := (DL_cons _ _ _ _ _ _).1 hrest
  obtain ⟨hynx, hxn, hxp, hBdl⟩ := (DL_cons _ _ _ _ _ _).1 hrest2
  subst hm1
  obtain ⟨hxy, hxA, hyA, hxB, hyB, hxF, hyF, hAB, hAF, hBF, hAnd, hBnd, hnd2⟩ :=
    nodup_mid hr.nodup
  have hyx : y ≠ x := Ne.symm hxy
  -- sizes
  have hsumL : s.total_sum = (sizes (A1.map (pay s.buckets))).sum + 2 ^ i + 2 ^ i +
      (sizes (B.map (pay s.buckets))).sum := by
    rw [hr.sum]
    simp [sizes, pay, hx, hy]
    omega
  have hi1 : i + 1 < 64 := by
    have h2 : (2 : Nat) ^ (i + 1) < 2 ^ 64 := by
      have : (2 : Nat) ^ 64 = 18446744073709551616 := by norm_num
      rw [pow_succ]; omega
    exact exp_lt_of_pow_lt h2
  have hlenL : (A1 ++ y :: x :: B).length ≤ s.max_buckets :=
    nodup_length_le (List.nodup_append.1 hr.nodup).1 (DL_mem_lt hr.live)
  have hsmall : s.count i < 4294967296 := by
    rw [hr.cnt i hi]
    have h1 := count_le_len s.buckets (A1 ++ y :: x :: B) (2 ^ i)
    have h2 := hr.small
    omega
  have hmA : (A1 = [] ∧ (s.buckets y).prev = -1) ∨
      ∃ (A0 : List Nat) (a : Nat), A1 = A0 ++ [a] ∧ (s.buckets y).prev = (a : Int) := by
    rw [hyp]
    rcases DL_tail hA1 with ⟨h1, _, h3⟩ | ⟨A0, a, h1, h2⟩
    · exact Or.inl ⟨h1, h3⟩
    · exact Or.inr ⟨A0, a, h1, h2⟩
  -- the link after `x`
  have hnext : ((s.buckets x).next = -1 ∧ B = [] ∧ s.tail = (x : Int)) ∨
      ∃ b B1, B = b :: B1 ∧ (s.buckets x).next = (b : Int) ∧ b < s.max_buckets ∧
        (s.buckets b).prev = (x : Int) ∧
        DL s.buckets s.max_buckets (b : Int) (s.buckets b).next B1 s.tail (-1) := by
    cases B with
    | nil =>
      obtain ⟨h1, h2⟩ := (DL_nil _ _ _ _).1 hBdl
      exact Or.inl ⟨h1, rfl, h2⟩
    | cons b B1 =>
      obtain ⟨h1, h2, h3, h4⟩ := (DL_cons _ _ _ _ _ _).1 hBdl
      exact Or.inr ⟨b, B1, rfl, h1, h2, h3, h4⟩
  have hfar : ∀ z, z ∉ B → (z : Int) ≠ (s.buckets x).next := by
    intro z hz h
    rcases hnext with ⟨h1, _, _⟩ | ⟨b, B1, hB, h1, _⟩
    · rw [h1] at h; exact cast_ne_neg_one z h
    · rw [h1] at h
      have : z = b := by exact_mod_cast h
      exact hz (by rw [hB, this]; exact List.mem_cons_self _ _)
  have hstep : merge_pair s i = .ok (merged s i x y) := by
    rcases hnext with ⟨h1, _, _⟩ | ⟨b, B1, hB, h1, hb, _, _⟩
    · exact merge_pair_last s i x y hi1 hxn hyn hxy hlast hxp h1
    · have hbB : b ∈ B := by rw [hB]; exact List.mem_cons_self _ _
      exact merge_pair_more s i x y b hi1 hxn hyn hb hxy
        (fun h => hxB (h ▸ hbB)) (fun h => hyB (h ▸ hbB)) hlast hxp h1
  -- the arena after the merge
  have harA : ∀ z, z ∈ A1 → merged_arena s.buckets x y s.free_head z = s.buckets z := by
    intro z hz
    exact merged_arena_other _ _ (fun h => hxA (h ▸ hz)) (fun h => hyA (h ▸ hz))
      (hfar z (hAB z hz))
  have harF : ∀ z, z ∈ F → merged_arena s.buckets x y s.free_head z = s.buckets z := by
    intro z hz
    exact merged_arena_other _ _ (fun h => hxF (h ▸ hz)) (fun h => hyF (h ▸ hz))
      (hfar z (fun h => hBF z h hz))
  have harB : ∀ z, z ∈ B → (merged_arena s.buckets x y s.free_head z).timestamp =
        (s.buckets z).timestamp ∧
      (merged_arena s.buckets x y s.free_head z).size = (s.buckets z).size ∧
      (merged_arena s.buckets x y s.free_head z).next = (s.buckets z).next := by
    intro z hz
    have hzx : z ≠ x := fun h => hxB (h ▸ hz)
    have hzy : z ≠ y := fun h => hyB (h ▸ hz)
    by_cases h : (z : Int) = (s.buckets x).next
    · rw [merged_arena_next _ _ hzx hzy h]; exact ⟨rfl, rfl, rfl⟩
    · rw [merged_arena_other _ _ hzx hzy h]; exact ⟨rfl, rfl, rfl⟩
  have hary := merged_arena_y s.buckets s.free_head hyx
  have harx := merged_arena_x s.buckets x y s.free_head
  have hysz : (merged_arena s.buckets x y s.free_head y).size = 2 ^ (i + 1) := by
    rw [hary]; show u64 ((s.buckets y).size * 2) = _
    rw [hy]; exact u64_double hi1
  have hpayA : ∀ z, z ∈ A1 →
      (merged_arena s.buckets x y s.free_head z).timestamp = (s.buckets z).timestamp ∧
      (merged_arena s.buckets x y s.free_head z).size = (s.buckets z).size := by
    intro z hz; rw [harA z hz]; exact ⟨rfl, rfl⟩
  have hpayB : ∀ z, z ∈ B →
      (merged_arena s.buckets x y s.free_head z).timestamp = (s.buckets z).timestamp ∧
      (merged_arena s.buckets x y s.free_head z).size = (s.buckets z).size :=
    fun z hz => ⟨(harB z hz).1, (harB z hz).2.1⟩
  have hpaynew : (A1 ++ y :: B).map (pay (merged_arena s.buckets x y s.free_head)) =
      A1.map (pay s.buckets) ++ ((s.buckets y).timestamp, 2 ^ (i + 1)) ::
        B.map (pay s.buckets) := by
    have hpy : pay (merged_arena s.buckets x y s.free_head) y =
        ((s.buckets y).timestamp, 2 ^ (i + 1)) := by
      unfold pay; rw [hysz, hary]
    rw [List.map_append, List.map_cons, pay_congr hpayA, pay_congr hpayB, hpy]
  have hlenN : (A1 ++ y :: B).length ≤ s.max_buckets := by
    simp only [List.length_append, List.length_cons] at hlenL ⊢; omega
  have hidx := @index_after_merge s.buckets
    (merged_arena s.buckets x y s.free_head) _ _ _ _ _ s.count s.last_of_size
    (s.buckets y).prev hpayA hpayB hysz (by rw [hary]) hx hy hBi hsorted hr.cnt hr.last hsmall
    (by
      have h1 := count_le_len (merged_arena s.buckets x y s.free_head) (A1 ++ y :: B)
        (2 ^ (i + 1))
      have h2 := hr.small
      omega) hi1 hmA
  refine ⟨A1, y, x, B, merged s i x y, rfl, hx, hy, hBi, hi1, hstep, ?_, hpaynew,
    ⟨rfl, rfl, rfl, rfl⟩, rfl, rfl⟩
  refine ⟨?_, ?_, ?_, hr.term, hr.small, ?_, ?_, hidx.1, hidx.2⟩
  · -- the live list
    show DL (merged_arena s.buckets x y s.free_head) s.max_buckets (-1) s.head
      (A1 ++ y :: B) (if (s.buckets x).next = -1 then (y : Int) else s.tail) (-1)
    refine (DL_append A1 (y :: B) _ _ _ _).2 ⟨m, (y : Int), ?_, ?_⟩
    · refine (DL_congr ?_ _ _ _ _).2 hA1
      intro z hz; rw [harA z hz]; exact ⟨rfl, rfl⟩
    · refine (DL_cons _ _ _ _ _ _).2 ⟨rfl, hyn, by rw [hary]; exact hyp, ?_⟩
      rw [hary]
      show DL _ _ (y : Int) (s.buckets x).next B _ (-1)
      rcases hnext with ⟨h1, hB, _⟩ | ⟨b, B1, hB, h1, hb, hbp, hB1⟩
      · subst hB
        rw [h1, if_pos rfl]
        exact (DL_nil _ _ _ _).2 ⟨rfl, rfl⟩
      · subst hB
        have hbx : b ≠ x := fun h => hxB (by rw [h]; exact List.mem_cons_self _ _)
        have hby : b ≠ y := fun h => hyB (by rw [h]; exact List.mem_cons_self _ _)
        have hbne : ¬ ((s.buckets x).next = -1) := by rw [h1]; exact cast_ne_neg_one b
        rw [if_neg hbne, h1]
        have harb := merged_arena_next s.buckets (y := y) s.free_head hbx hby h1.symm
        refine (DL_cons _ _ _ _ _ _).2 ⟨rfl, hb, by rw [harb], ?_⟩
        rw [harb]
        show DL _ _ (b : Int) (s.buckets b).next B1 s.tail (-1)
        refine (DL_congr ?_ _ _ _ _).2 hB1
        intro z hz
        have hzB : z ∈ b :: B1 := List.mem_cons_of_mem _ hz
        have hzx : z ≠ x := fun h => hxB (h ▸ hzB)
        have hzy : z ≠ y := fun h => hyB (h ▸ hzB)
        have hzb : z ≠ b := by
          intro h
          have := (List.nodup_cons.1 hBnd).1
          exact this (h ▸ hz)
        have hzn : (z : Int) ≠ (s.buckets x).next := by
          rw [h1]; intro h; exact hzb (by exact_mod_cast h)
        rw [merged_arena_other _ _ hzx hzy hzn]; exact ⟨rfl, rfl⟩
  · -- the free list
    show FL (merged_arena s.buckets x y s.free_head) s.max_buckets (x : Int) (x :: F) e
    refine (FL_cons _ _ _ _).2 ⟨rfl, hxn, ?_⟩
    rw [harx]
    show FL _ _ s.free_head F e
    refine (FL_congr ?_ _ _).2 hr.free
    intro z hz; rw [harF z hz]
  · exact hnd2
  · intro he
    have := hr.full he
    show (A1 ++ y :: B).length + (x :: F).length = s.max_buckets
    simp only [List.length_append, List.length_cons] at this ⊢; omega
  · show s.total_sum = _
    rw [hsumL]
    show _ = (sizes ((A1 ++ y :: B).map (pay (merged_arena s.buckets x y s.free_head)))).sum
    rw [hpaynew, sizes_append, sizes_cons, List.sum_append, List.sum_cons, pow_succ]
    simp only
    omega

/-! ## The merge loop -/

theorem InWindow.window_merge {W now : Nat} {A1 B : List (Nat × Nat)} {t1 t2 v w : Nat}
    (h : InWindow W now (A1 ++ (t2, v) :: (t1, v) :: B)) :
    InWindow W now (A1 ++ (t2, w) :: B) := by
  intro a ha
  rcases List.mem_append.1 ha with ha | ha
  · exact h a (List.mem_append_left _ ha)
  · rcases List.mem_cons.1 ha with rfl | ha
    · exact h (t2, v) (List.mem_append_right _ (by simp))
    · exact h a (List.mem_append_right _ (by simp [ha]))

/-- The merge loop entered at class `i`, where only class `i` may hold `k + 2`
buckets: it ends inside the arrays and leaves every class with at most `k + 1`
buckets. -/
theorem merge_loop_core {W k : Nat} {e : Int} {bits : List Bool} {now : Nat}
    (hk : k + 2 < 4294967296) (hlen : bits.length < 18446744073709551616)
    (fuel i : Nat) (hfuel : 65 ≤ i + fuel) (hi : i < 64)
    {s : StateApx} {L F : List Nat} {E : Nat}
    (hc : Core W k e bits now s L F E) (hcap : Capped k i (L.map (pay s.buckets)))
    (hw : InWindow W now (L.map (pay s.buckets))) :
    ∃ s1 L1 F1, merge_loop fuel i s = .ok s1 ∧ Core W k e bits now s1 L1 F1 E ∧
      Bounded k (L1.map (pay s1.buckets)) ∧ InWindow W now (L1.map (pay s1.buckets)) ∧
      s1.total_sum = s.total_sum := by
  induction fuel generalizing i s L F with
  | zero => omega
  | succ fuel ih =>
    have hku : u32 (s.k + 2) = k + 2 := by rw [hc.par]; exact u32_small hk
    have hstep : merge_loop (fuel + 1) i s =
        if s.count i = k + 2 then (merge_pair s i >>= fun s2 => merge_loop fuel (i + 1) s2)
        else .ok s := by
      rw [merge_loop]
      simp only [get_count, hi, if_true, ok_bind, hku, pure_ok]
    by_cases hcount : s.count i = k + 2
    · have hsum : s.total_sum < 18446744073709551616 := by
        rw [hc.rep.sum]; have := hc.good.sum_le; omega
      obtain ⟨A1, y, x, B, s2, hL, hx, hy, hBi, hi1, hmp, hrep2, hpay2, hfr2, _, hts2⟩ :=
        merge_pair_rep hc.rep hi (by omega) hc.good.sorted hsum
      subst hL
      have hold : (A1 ++ y :: x :: B).map (pay s.buckets) =
          A1.map (pay s.buckets) ++ ((s.buckets y).timestamp, 2 ^ i) ::
            ((s.buckets x).timestamp, 2 ^ i) :: B.map (pay s.buckets) := by
        simp [pay, hx, hy]
      have hcnt : (sizes ((A1 ++ y :: x :: B).map (pay s.buckets))).count (2 ^ i) = k + 2 := by
        rw [← hc.rep.cnt i hi]; exact hcount
      have hgood := hc.good
      rw [hold] at hgood hcnt hcap hw
      have hB0 : (sizes (B.map (pay s.buckets))).count (2 ^ i) = 0 := count_zero_size.2 hBi
      have hgood2 := Good.good_merge hgood hB0 hcnt
      have hcap2 := Capped.capped_merge hcap
      have hw2 : InWindow W now (A1.map (pay s.buckets) ++
          ((s.buckets y).timestamp, 2 ^ (i + 1)) :: B.map (pay s.buckets)) := hw.window_merge
      rw [← hpay2] at hgood2 hcap2 hw2
      have hc2 : Core W k e bits now s2 (A1 ++ y :: B) (x :: F) E :=
        { wnd := by rw [hfr2.1, hc.wnd]
          par := by rw [hfr2.2.1, hc.par]
          clock := by rw [hfr2.2.2.1, hc.clock]
          cap := by rw [hfr2.2.2.2, hc.cap]
          rep := hrep2
          good := hgood2
          dom := Or.inl hk }
      obtain ⟨s1, L1, F1, h1, h2, h3, h4, h5⟩ := ih (i + 1) (by omega) hi1 hc2 hcap2 hw2
      refine ⟨s1, L1, F1, ?_, h2, h3, h4, by rw [h5, hts2]⟩
      rw [hstep, if_pos hcount, hmp]; exact h1
    · refine ⟨s, L, F, by rw [hstep, if_neg hcount], hc, ?_, hw, rfl⟩
      refine hcap.bounded ?_
      rw [← hc.rep.cnt i hi]; exact hcount

/-! ## One call -/

theorem Rep.rep_tick {e : Int} {s : StateApx} {L F : List Nat} (hr : Rep e s L F) (c : Nat) :
    Rep e { s with current_time := c } L F :=
  ⟨hr.live, hr.free, hr.nodup, hr.term, hr.small, hr.full, hr.sum, hr.cnt, hr.last⟩

/-- A merge round on a class whose oldest bucket is the head of the list reads
slot `-1`. -/
theorem merge_pair_single (s : StateApx) (i x : Nat) (hi : i < 64) (hx : x < s.max_buckets)
    (hl : s.last_of_size i = (x : Int)) (hp : (s.buckets x).prev = -1) :
    merge_pair s i = .error .out_of_bounds := by
  unfold merge_pair
  simp only [get_last, hi, if_true, ok_bind, hl, get_bucket_cast, hx, hp, get_bucket_neg,
    error_bind]

theorem capacity_wrap_zero (W : Nat) : capacity W 4294967294 = 0 := by
  unfold capacity
  have h : u32 (4294967294 + 2) = 0 := by unfold u32; norm_num
  simp only [h, Nat.mul_zero]
  have h2 : u64 0 = 0 := by unfold u64; norm_num
  simp only [h2, Nat.not_lt_zero, if_false]
  unfold u32; norm_num

theorem InWindow.window_nil (W now : Nat) : InWindow W now [] := by
  intro a ha; simp at ha

theorem Bounded.bounded_nil (k : Nat) : Bounded k [] := by
  intro i; simp [sizes]

/-- The state after the tick and the expiry loop. -/
theorem expire_phase {W k : Nat} {e : Int} {bits : List Bool} {s : StateApx}
    (hlen : bits.length + 1 < 18446744073709551616) (hinv : Inv W k e bits s) :
    ∃ s1 L1 F1 E1,
      expire_loop (s.max_buckets + 1) { s with current_time := u64 (s.current_time + 1) } =
        .ok s1 ∧
      Core W k e bits (bits.length + 1) s1 L1 F1 E1 ∧
      Bounded k (L1.map (pay s1.buckets)) ∧
      InWindow W (bits.length + 1) (L1.map (pay s1.buckets)) ∧
      s1.N_MERGES = s.N_MERGES := by
  obtain ⟨L, F, E, hc, hb, hw⟩ := hinv
  have hclock : u64 (s.current_time + 1) = bits.length + 1 := by
    rw [hc.clock]; exact u64_small hlen
  have hc0 : Core W k e bits (bits.length + 1)
      { s with current_time := u64 (s.current_time + 1) } L F E :=
    { wnd := hc.wnd
      par := hc.par
      clock := hclock
      cap := hc.cap
      rep := hc.rep.rep_tick _
      good := hc.good.good_tick hw
      dom := hc.dom }
  have hLlen : L.length < s.max_buckets + 1 := by
    have := nodup_length_le (List.nodup_append.1 hc.rep.nodup).1 (DL_mem_lt hc.rep.live)
    omega
  obtain ⟨s1, L1, D, F1, E1, h1, h2, h3, h4, _, _, _, h8, _⟩ :=
    expire_loop_core (by omega) (by omega) (s.max_buckets + 1) hc0 hb hLlen
  exact ⟨s1, L1, F1, E1, h1, h2, h3, h4, h8⟩


theorem advance_state_eq (s : StateApx) (item : Bool) :
    advance_state s item =
      (expire_loop (s.max_buckets + 1) { s with current_time := u64 (s.current_time + 1) } >>=
        fun s1 => if item = true then (admit_bucket s1 >>= fun s2 => merge_loop 65 0 s2)
          else .ok s1) := by
  cases item <;> rfl

/-- Admission and merging after the expiry loop, with a free slot at hand. -/
theorem admit_phase {W k : Nat} {e : Int} {bits : List Bool} {s1 : StateApx}
    {L1 F1 : List Nat} {f E1 : Nat} (hW : 1 ≤ W) (hk : k + 2 < 4294967296)
    (hlen : bits.length + 1 < 18446744073709551616)
    (hc : Core W k e bits (bits.length + 1) s1 L1 (f :: F1) E1)
    (hb : Bounded k (L1.map (pay s1.buckets)))
    (hw : InWindow W (bits.length + 1) (L1.map (pay s1.buckets))) :
    ∃ s3, (admit_bucket s1 >>= fun s2 => merge_loop 65 0 s2) = .ok s3 ∧
      Inv W k e (bits ++ [true]) s3 := by
  have hsum : s1.total_sum + 1 < 18446744073709551616 := by
    rw [hc.rep.sum]; have := hc.good.sum_le; omega
  obtain ⟨s2, had, hrep2, hpay2, hfr2, _⟩ := admit_bucket_rep hc.rep hsum
  rw [hc.clock] at hpay2
  have hlen2 : (bits ++ [true]).length = bits.length + 1 := by simp
  have hgood2 : Good W k (bits ++ [true]) (bits.length + 1) E1
      ((f :: L1).map (pay s2.buckets)) := by
    rw [hpay2]; exact hc.good.good_admission
  have hcap2 : Capped k 0 ((f :: L1).map (pay s2.buckets)) := by
    rw [hpay2]; exact Capped.capped_admission _ hb
  have hw2 : InWindow W (bits.length + 1) ((f :: L1).map (pay s2.buckets)) := by
    rw [hpay2]
    intro a ha
    rcases List.mem_cons.1 ha with rfl | ha
    · show bits.length + 1 < bits.length + 1 + W; omega
    · exact hw a ha
  have hc2 : Core W k e (bits ++ [true]) (bits.length + 1) s2 (f :: L1) F1 E1 :=
    { wnd := by rw [hfr2.1, hc.wnd]
      par := by rw [hfr2.2.1, hc.par]
      clock := by rw [hfr2.2.2.1, hc.clock]
      cap := by rw [hfr2.2.2.2, hc.cap]
      rep := hrep2
      good := hgood2
      dom := Or.inl hk }
  obtain ⟨s3, L3, F3, hml, hc3, hb3, hw3, _⟩ :=
    merge_loop_core hk (by rw [hlen2]; omega) 65 0 (by omega) (by omega) hc2 hcap2 hw2
  refine ⟨s3, by rw [had]; exact hml, L3, F3, E1, ?_, hb3, ?_⟩
  · rw [hlen2]; exact hc3
  · rw [hlen2]; exact hw3

/-- Where the arithmetic on `k + 2` wraps, the first admitted bucket makes the
call leave defined behaviour. -/
theorem admit_wrapped {W k : Nat} {e : Int} {bits : List Bool} {now : Nat} {s1 : StateApx}
    {F1 : List Nat} {E1 : Nat} (hk32 : k < 4294967296) (hk : 4294967296 ≤ k + 2)
    (hc : Core W k e bits now s1 [] F1 E1) :
    ∃ err, (admit_bucket s1 >>= fun s2 => merge_loop 65 0 s2) = .error err := by
  cases F1 with
  | nil =>
    have hfh := (FL_nil _ _).1 hc.rep.free
    rw [admit_bucket_empty s1 e hfh hc.rep.term]
    exact ⟨_, rfl⟩
  | cons f F2 =>
    obtain ⟨_, hf, _⟩ := (FL_cons _ _ _ _).1 hc.rep.free
    have hk2 : k = 4294967294 ∨ k = 4294967295 := by omega
    rcases hk2 with hk2 | hk2
    · have := hc.cap
      rw [hk2, capacity_wrap_zero] at this
      omega
    · have hsum : s1.total_sum + 1 < 18446744073709551616 := by
        rw [hc.rep.sum]; simp [sizes]
      obtain ⟨s2, had, hrep2, hpay2, hfr2, _⟩ := admit_bucket_rep hc.rep hsum
      rw [had, ok_bind]
      have hku : u32 (s2.k + 2) = 1 := by
        rw [hfr2.2.1, hc.par, hk2]; unfold u32; norm_num
      have hcnt : s2.count 0 = 1 := by
        rw [hrep2.cnt 0 (by norm_num), hpay2]; simp [sizes]
      obtain ⟨_, hf2, hfp, _⟩ := (DL_cons _ _ _ _ _ _).1 hrep2.live
      have hsz : (s2.buckets f).size = 2 ^ 0 := by
        have := congrArg (fun l => l.map Prod.snd) hpay2
        simpa [pay] using this
      have hl : s2.last_of_size 0 = (f : Int) := by
        rw [hrep2.last 0 (by norm_num)]
        exact class_last_snoc_hit [] hsz
      refine ⟨Fault.out_of_bounds, ?_⟩
      rw [merge_loop]
      simp only [get_count, Nat.ofNat_pos, if_true, ok_bind, hku, hcnt,
        merge_pair_single s2 0 f (by norm_num) hf2 hl hfp, error_bind]

/-- One call on a state that satisfies the invariant: it returns a state that
satisfies the invariant for the longer stream, unless the bit is a 1 and either
`k + 2` wraps or no slot is free after the expiry loop. -/
theorem advance_core {W k : Nat} {e : Int} {bits : List Bool} {s : StateApx}
    (hW : 1 ≤ W) (hk32 : k < 4294967296)
    (hlen : bits.length + 1 < 18446744073709551616) (hinv : Inv W k e bits s) (item : Bool) :
    (∃ s1, advance_state s item = .ok s1 ∧ Inv W k e (bits ++ [item]) s1) ∨
    (item = true ∧ (∃ err, advance_state s item = .error err) ∧
      (4294967296 ≤ k + 2 ∨
        ∃ s1 L1 E1, Core W k e bits (bits.length + 1) s1 L1 [] E1 ∧
          Bounded k (L1.map (pay s1.buckets)) ∧
          InWindow W (bits.length + 1) (L1.map (pay s1.buckets)))) := by
  obtain ⟨s1, L1, F1, E1, hex, hc1, hb1, hw1, _⟩ := expire_phase hlen hinv
  rw [advance_state_eq, hex, ok_bind]
  cases item with
  | false =>
    left
    refine ⟨s1, by simp, L1, F1, E1, ?_, hb1, ?_⟩
    · have hl : (bits ++ [false]).length = bits.length + 1 := by simp
      rw [hl]
      exact { wnd := hc1.wnd, par := hc1.par, clock := hc1.clock, cap := hc1.cap,
              rep := hc1.rep, good := hc1.good.feed_zero, dom := hc1.dom }
    · have hl : (bits ++ [false]).length = bits.length + 1 := by simp
      rw [hl]; exact hw1
  | true =>
    simp only [if_true]
    by_cases hk : k + 2 < 4294967296
    · cases F1 with
      | nil =>
        right
        refine ⟨trivial, ?_, Or.inr ⟨s1, L1, E1, hc1, hb1, hw1⟩⟩
        have hfh := (FL_nil _ _).1 hc1.rep.free
        rw [admit_bucket_empty s1 e hfh hc1.rep.term]
        exact ⟨_, rfl⟩
      | cons f F2 =>
        left
        exact admit_phase hW hk hlen hc1 hb1 hw1
    · right
      have hL1 : L1 = [] := by
        rcases hc1.dom with h | h
        · exact absurd h hk
        · exact h
      subst hL1
      exact ⟨trivial, admit_wrapped hk32 (by omega) hc1, Or.inl (by omega)⟩

/-! ## How large and how many the buckets can be -/

theorem class_hits_le (v j : Nat) :
    (∑ i in Finset.range j, if 2 ^ i = v then 2 ^ i else 0) ≤ v ∧
    ((∑ i in Finset.range j, if 2 ^ i = v then 2 ^ i else 0) ≠ 0 → v < 2 ^ j) := by
  induction j with
  | zero => simp
  | succ j ih =>
    rw [Finset.sum_range_succ]
    have hlt : 2 ^ j < 2 ^ (j + 1) := Nat.pow_lt_pow_right (by norm_num) (by omega)
    by_cases h : 2 ^ j = v
    · rw [if_pos h]
      have h0 : (∑ i in Finset.range j, if 2 ^ i = v then 2 ^ i else 0) = 0 := by
        by_contra hne
        have := ih.2 hne
        omega
      rw [h0]
      constructor
      · omega
      · intro _; omega
    · rw [if_neg h, Nat.add_zero]
      constructor
      · exact ih.1
      · intro hne
        have := ih.2 hne
        omega

/-- The sizes of a list add up to at least what its classes below `j` hold. -/
theorem sum_classes_le (S : List Nat) (j : Nat) :
    (∑ i in Finset.range j, 2 ^ i * S.count (2 ^ i)) ≤ S.sum := by
  induction S with
  | nil => simp
  | cons v S ih =>
    have h1 : (∑ i in Finset.range j, 2 ^ i * (v :: S).count (2 ^ i)) =
        (∑ i in Finset.range j, 2 ^ i * S.count (2 ^ i)) +
          ∑ i in Finset.range j, if 2 ^ i = v then 2 ^ i else 0 := by
      rw [← Finset.sum_add_distrib]
      apply Finset.sum_congr rfl
      intro i _
      rw [List.count_cons]
      by_cases h : 2 ^ i = v
      · have : (v == 2 ^ i) = true := by simp [h]
        simp [h, Nat.mul_add]
      · have : ¬ (v = 2 ^ i) := fun h2 => h h2.symm
        simp [h, this]
    rw [h1, List.sum_cons]
    have := (class_hits_le v j).1
    omega

theorem sum_pow_two (j k : Nat) : (∑ i in Finset.range j, 2 ^ i * k) + k = k * 2 ^ j := by
  induction j with
  | zero => simp
  | succ j ih =>
    rw [Finset.sum_range_succ, pow_succ]
    have : k * (2 ^ j * 2) = k * 2 ^ j + 2 ^ j * k := by ring
    omega

/-- In front of a bucket of size `2 ^ j` the sizes add up to at least
`k * (2 ^ j - 1)`: every smaller class holds `k` buckets, all of them newer. -/
theorem Good.front_sum {W k : Nat} {bits : List Bool} {now E : Nat} {P Q : List (Nat × Nat)}
    {a : Nat × Nat} {j : Nat} (g : Good W k bits now E (P ++ a :: Q)) (ha : a.2 = 2 ^ j) :
    k * 2 ^ j ≤ (sizes P).sum + k := by
  have hs := g.sorted
  rw [sizes_append, sizes_cons, List.pairwise_append, List.pairwise_cons] at hs
  have hcnt : ∀ i, i < j → k ≤ (sizes P).count (2 ^ i) := by
    intro i hij
    have hlt : 2 ^ i < 2 ^ j := Nat.pow_lt_pow_right (by norm_num) hij
    have hpos : 0 < (sizes (P ++ a :: Q)).count (2 ^ j) := by
      rw [List.count_pos_iff]
      exact mem_sizes.2 ⟨a, by simp, ha⟩
    have h1 := g.lower i j hij hpos
    rw [sizes_append, List.count_append, sizes_cons, List.count_cons] at h1
    have h2 : (sizes Q).count (2 ^ i) = 0 := by
      rw [List.count_eq_zero]
      intro hmem
      have := hs.2.1.1 _ hmem
      omega
    have h3 : ¬ (a.2 = 2 ^ i) := by omega
    simp only [beq_iff_eq, h3, if_false, h2] at h1
    omega
  have h4 : (∑ i in Finset.range j, 2 ^ i * k) ≤
      ∑ i in Finset.range j, 2 ^ i * (sizes P).count (2 ^ i) := by
    apply Finset.sum_le_sum
    intro i hi
    exact Nat.mul_le_mul_left _ (hcnt i (Finset.mem_range.1 hi))
  have h5 := sum_classes_le (sizes P) j
  have h6 := sum_pow_two j k
  omega

/-- The buckets in front of a bucket hold 1-bits that are newer than it. -/
theorem Good.front_le {W k : Nat} {bits : List Bool} {now E : Nat} {P Q : List (Nat × Nat)}
    {a : Nat × Nat} (g : Good W k bits now E (P ++ a :: Q)) :
    (sizes P).sum = ones_in bits a.1 bits.length := by
  have hacc := (Acc_append bits E P (a :: Q)).1 g.acc
  rw [lo_of_cons] at hacc
  have hpos : ∀ b, b ∈ P → 0 < b.2 := fun b hb => g.size_pos b (List.mem_append_left _ hb)
  have h1 := Acc_sum hacc.1 hpos
  have h2 := Acc_lo_le hacc.1 hpos
  have h3 : lo_of a.1 P ≤ bits.length := by
    cases P with
    | nil => exact (g.window a (by simp)).1
    | cons b P => exact (g.window b (by simp)).1
  have h4 := g.top
  rw [lo_of_append, lo_of_cons] at h4
  rw [h1, ones_in_add bits h2 h3, h4]; rfl

/-- No live bucket is larger than the window. -/
theorem Good.size_le {W k : Nat} {bits : List Bool} {now E : Nat} {A : List (Nat × Nat)}
    (g : Good W k bits now E A) (hk : 1 ≤ k) (hw : InWindow W bits.length A)
    (a : Nat × Nat) (ha : a ∈ A) : a.2 ≤ W := by
  obtain ⟨P, Q, hA⟩ := List.append_of_mem ha
  subst hA
  obtain ⟨j, hj⟩ := g.pow a ha
  have h1 := g.front_sum hj
  have h2 := g.front_le
  have h3 := ones_in_le bits a.1 bits.length
  have h4 := hw a ha
  have h5 : 2 ^ j ≤ k * 2 ^ j := Nat.le_mul_of_pos_left _ hk
  have h0 := (g.window a ha).1
  rw [hj]
  by_contra hcon
  push_neg at hcon
  have h7 : k * (W + 1) ≤ k * 2 ^ j := Nat.mul_le_mul_left k hcon
  have h8 : (sizes P).sum ≤ W - 1 := by omega
  have h11 : k * (W + 1) = k * W + k := by ring
  have h12 : k * W ≤ W - 1 := by omega
  have h13 : W ≤ k * W := Nat.le_mul_of_pos_left _ hk
  omega


theorem length_le_classes (S : List Nat) (n : Nat)
    (h : ∀ v, v ∈ S → ∃ j, j < n ∧ v = 2 ^ j) :
    S.length ≤ ∑ j in Finset.range n, S.count (2 ^ j) := by
  induction S with
  | nil => simp
  | cons v S ih =>
    have h1 := ih (fun w hw => h w (List.mem_cons_of_mem _ hw))
    obtain ⟨j0, hj0, hv⟩ := h v (List.mem_cons_self _ _)
    have h2 : (∑ j in Finset.range n, (v :: S).count (2 ^ j)) =
        (∑ j in Finset.range n, S.count (2 ^ j)) +
          ∑ j in Finset.range n, if v = 2 ^ j then 1 else 0 := by
      rw [← Finset.sum_add_distrib]
      apply Finset.sum_congr rfl
      intro j _
      rw [List.count_cons]
      simp
    have h3 : 1 ≤ ∑ j in Finset.range n, if v = 2 ^ j then 1 else 0 := by
      have := Finset.single_le_sum (f := fun j => if v = 2 ^ j then 1 else 0)
        (fun _ _ => Nat.zero_le _) (Finset.mem_range.2 hj0)
      simpa [hv] using this
    rw [h2, List.length_cons]
    omega

/-- The bucket count bound: at most `k + 1` buckets in each of the
`floor_log2 W + 1` classes that fit the window. -/
theorem Good.length_le {W k : Nat} {bits : List Bool} {now E : Nat} {A : List (Nat × Nat)}
    (g : Good W k bits now E A) (hk : 1 ≤ k) (hW : 1 ≤ W) (hW64 : W < 18446744073709551616)
    (hw : InWindow W bits.length A) (hb : Bounded k A) :
    A.length ≤ (floor_log2 W + 1) * (k + 1) := by
  have hspec := floor_log2_spec W hW hW64
  have hcls : ∀ v, v ∈ sizes A → ∃ j, j < floor_log2 W + 1 ∧ v = 2 ^ j := by
    intro v hv
    obtain ⟨a, ha, rfl⟩ := mem_sizes.1 hv
    obtain ⟨j, hj⟩ := g.pow a ha
    refine ⟨j, ?_, hj⟩
    have h1 := g.size_le hk hw a ha
    rw [hj] at h1
    exact exp_lt_of_pow_lt (lt_of_le_of_lt h1 hspec.2)
  have h1 := length_le_classes (sizes A) (floor_log2 W + 1) hcls
  have h2 : (∑ j in Finset.range (floor_log2 W + 1), (sizes A).count (2 ^ j)) ≤
      ∑ _j in Finset.range (floor_log2 W + 1), (k + 1) :=
    Finset.sum_le_sum (fun j _ => hb j)
  rw [Finset.sum_const, Finset.card_range, smul_eq_mul] at h2
  have h3 : (sizes A).length = A.length := by simp [sizes]
  omega

theorem desc_length_le (l : List Nat) (t W : Nat) (hd : l.Pairwise (fun a b => b < a))
    (h : ∀ x, x ∈ l → t < x + W ∧ x ≤ t) : l.length ≤ W := by
  induction l generalizing t W with
  | nil => simp
  | cons a l ih =>
    rw [List.pairwise_cons] at hd
    have ha := h a (List.mem_cons_self _ _)
    have h1 : l.length ≤ W - 1 := by
      apply ih (a - 1) (W - 1) hd.2
      intro x hx
      have h2 := hd.1 x hx
      have h3 := h x (List.mem_cons_of_mem _ hx)
      omega
    rw [List.length_cons]; omega

/-- The live buckets have distinct timestamps inside the window. -/
theorem Good.length_le_window {W k : Nat} {bits : List Bool} {now E : Nat}
    {A : List (Nat × Nat)} (g : Good W k bits now E A) (hw : InWindow W bits.length A) :
    A.length ≤ W := by
  have h1 := desc_length_le (stamps A) bits.length W g.desc (by
    intro x hx
    obtain ⟨a, ha, rfl⟩ := mem_stamps.1 hx
    exact ⟨hw a ha, (g.window a ha).1⟩)
  simpa [stamps] using h1

/-! ## The constructor -/

theorem capacity_lt (W k : Nat) : capacity W k < 4294967296 := by
  unfold capacity u32
  exact Nat.mod_lt _ (by norm_num)

theorem capacity_safe {W k : Nat} (hW : 1 ≤ W) (hW32 : W < 4294967296) (hs : Safe W k) :
    capacity W k = min (W + 1) ((floor_log2 W + 1) * (k + 2)) := by
  obtain ⟨hk, hcap⟩ := hs
  have hl : floor_log2 W < 32 := floor_log2_lt W 32 hW (by norm_num; omega) (by norm_num)
  have h1 : u32 (floor_log2 W + 1) = floor_log2 W + 1 := u32_small (by omega)
  have h2 : u32 (k + 2) = k + 2 := u32_small hk
  have h3 : (floor_log2 W + 1) * (k + 2) ≤ 32 * 4294967296 :=
    Nat.mul_le_mul (by omega) (by omega)
  have h4 : u64 ((floor_log2 W + 1) * (k + 2)) = (floor_log2 W + 1) * (k + 2) :=
    u64_small (by omega)
  have h5 : u64 (W + 1) = W + 1 := u64_small (by omega)
  unfold capacity
  simp only [h1, h2, h4, h5]
  by_cases h : W + 1 < (floor_log2 W + 1) * (k + 2)
  · rw [if_pos h, Nat.min_eq_left (le_of_lt h)]
    rw [Nat.min_eq_left (le_of_lt h)] at hcap
    exact u32_small (by omega)
  · rw [if_neg h, Nat.min_eq_right (by omega)]
    rw [Nat.min_eq_right (by omega)] at hcap
    exact u32_small (by omega)

theorem capacity_pos {W k : Nat} (hW : 1 ≤ W) (hW32 : W < 4294967296) (hs : Safe W k) :
    1 ≤ capacity W k := by
  rw [capacity_safe hW hW32 hs]
  have : 1 ≤ (floor_log2 W + 1) * (k + 2) := Nat.mul_pos (by omega) (by omega)
  exact le_min (by omega) this

theorem free_end_safe {W k : Nat} (hW : 1 ≤ W) (hW32 : W < 4294967296) (hs : Safe W k) :
    free_end W k = -1 := by
  have h1 := capacity_pos hW hW32 hs
  have h2 : capacity W k ≤ 2147483648 := by
    rw [capacity_safe hW hW32 hs]; exact hs.2
  unfold free_end
  rw [if_neg (by omega), if_pos h2]

theorem link_free_slots_apply (n : Nat) (bs : Nat → Bucket) (m j : Nat) :
    link_free_slots n m bs j =
      if j < m then { bs j with next := free_link n j } else bs j := by
  induction m with
  | zero => simp [link_free_slots]
  | succ m ih =>
    rw [link_free_slots]
    simp only [Function.update_apply]
    by_cases h1 : j = m
    · subst h1
      rw [if_pos rfl, if_pos (by omega), ih, if_neg (by omega)]
    · rw [if_neg h1, ih]
      by_cases h2 : j < m
      · rw [if_pos h2, if_pos (by omega)]
      · rw [if_neg h2, if_neg (by omega)]

theorem free_link_eq {n j : Nat} (hn : n < 4294967296) (hj : j < n) :
    free_link n j =
      if j + 1 = n then -1
      else if j + 1 < 2147483648 then ((j + 1 : Nat) : Int)
      else ((j + 1 : Nat) : Int) - 4294967296 := by
  unfold free_link
  have h1 : sub32 n 1 = n - 1 := sub32_one (by omega) hn
  rw [h1]
  by_cases h : j + 1 = n
  · rw [if_pos (by omega), if_pos h]
    unfold i32 u32; norm_num
  · rw [if_neg (by omega), if_neg h]
    have h2 : u32 (j + 1) = j + 1 := u32_small (by omega)
    unfold i32
    rw [h2, h2]

theorem FL_range {bs : Nat → Bucket} {n : Nat} (e : Int) (c a : Nat)
    (h1 : ∀ j, a ≤ j → j < a + c → j < n)
    (h2 : ∀ j, a ≤ j → j < a + c →
      (bs j).next = if j + 1 = a + c then e else ((j + 1 : Nat) : Int)) :
    FL bs n (if c = 0 then e else (a : Int)) (List.range' a c) e := by
  induction c generalizing a with
  | zero => simp [FL_nil]
  | succ c ih =>
    rw [if_neg (by omega), List.range'_succ, FL_cons]
    refine ⟨rfl, h1 a (le_refl _) (by omega), ?_⟩
    have h3 := h2 a (le_refl _) (by omega)
    have h4 := ih (a + 1) (fun j hj1 hj2 => h1 j (by omega) (by omega))
      (fun j hj1 hj2 => by
        have := h2 j (by omega) (by omega)
        rw [this]
        have e1 : (j + 1 = a + (c + 1)) = (j + 1 = a + 1 + c) := by
          apply propext; constructor <;> intro h <;> omega
        simp only [e1])
    rw [h3]
    by_cases hc : c = 0
    · subst hc
      simpa using h4
    · rw [if_neg (by omega)]
      rw [if_neg hc] at h4
      exact h4

/-- The free list threaded by the constructor: the slots `0, 1, ...` in
order, as far as their numbers fit `int32_t`. -/
theorem new_free_chain (mem : Nat → Bucket) (W k : Nat) :
    FL (link_free_slots (capacity W k) (capacity W k) mem) (capacity W k) 0
      (List.range' 0 (min (capacity W k) 2147483648)) (free_end W k) := by
  have hn := capacity_lt W k
  have hfl := @FL_range (link_free_slots (capacity W k) (capacity W k) mem)
    (capacity W k) (free_end W k) (min (capacity W k) 2147483648) 0
    (fun j _ hj => by
      have := Nat.min_le_left (capacity W k) 2147483648
      omega)
    (fun j _ hj => by
      have hjn : j < capacity W k := by
        have := Nat.min_le_left (capacity W k) 2147483648
        omega
      have hj31 : j < 2147483648 := by
        have := Nat.min_le_right (capacity W k) 2147483648
        omega
      rw [link_free_slots_apply, if_pos hjn]
      show free_link (capacity W k) j = _
      rw [free_link_eq hn hjn]
      unfold free_end
      by_cases hle : capacity W k ≤ 2147483648
      · rw [Nat.min_eq_left hle, Nat.zero_add]
        split_ifs <;> omega
      · rw [Nat.min_eq_right (by omega), Nat.zero_add]
        split_ifs <;> omega)
  have hhead : (if min (capacity W k) 2147483648 = 0 then free_end W k else ((0 : Nat) : Int)) =
      0 := by
    by_cases h0 : capacity W k = 0
    · rw [if_pos (by rw [h0]; rfl)]
      unfold free_end; rw [if_pos h0]
    · rw [if_neg (by
        intro h
        have : 1 ≤ min (capacity W k) 2147483648 := le_min (by omega) (by norm_num)
        omega)]
      rfl
  rw [hhead] at hfl
  exact hfl

/-- The state built by the constructor satisfies the invariant for the empty
stream. -/
theorem new_inv (mem : Nat → Bucket) (merges W k : Nat) (hW : 1 ≤ W) (hk : 1 ≤ k) :
    ∃ s memory, wnd_bit_count_apx_new mem merges W k = .ok (s, memory) ∧
      Inv W k (free_end W k) [] s ∧ s.max_buckets = capacity W k ∧ s.N_MERGES = merges ∧
      memory = u64 (capacity W k * sizeof_Bucket) ∧ s.free_head = 0 ∧
      s.buckets = link_free_slots (capacity W k) (capacity W k) mem := by
  have hn := capacity_lt W k
  refine ⟨_, _, by unfold wnd_bit_count_apx_new; simp [hW, hk]; rfl, ?_, rfl, rfl, rfl, rfl,
    rfl⟩
  refine ⟨[], List.range' 0 (min (capacity W k) 2147483648), 0, ?_, Bounded.bounded_nil k,
    InWindow.window_nil W _⟩
  refine
    { wnd := rfl, par := rfl, clock := rfl, cap := rfl
      rep := ?_
      good := ?_
      dom := Or.inr rfl }
  · refine
      { live := (DL_nil _ _ _ _).2 ⟨rfl, rfl⟩
        free := ?_
        nodup := by simpa using List.nodup_range' 0 _
        term := ?_
        small := hn
        full := ?_
        sum := by simp [sizes]
        cnt := by intro i _; simp [sizes]
        last := by intro i _; simp [class_last, slot_or_none] }
    · exact new_free_chain mem W k
    · unfold free_end
      show ¬ (0 ≤ _ ∧ _ < ((capacity W k : Nat) : Int))
      by_cases h0 : capacity W k = 0
      · rw [if_pos h0, h0]; norm_num
      · rw [if_neg h0]
        by_cases hle : capacity W k ≤ 2147483648
        · rw [if_pos hle]; norm_num
        · rw [if_neg hle]; norm_num
    · intro he
      show ([] : List Nat).length + (List.range' 0 (min (capacity W k) 2147483648)).length =
        capacity W k
      unfold free_end at he
      by_cases h0 : capacity W k = 0
      · rw [if_pos h0] at he; norm_num at he
      · rw [if_neg h0] at he
        by_cases hle : capacity W k ≤ 2147483648
        · simp [Nat.min_eq_left hle]
        · rw [if_neg hle] at he; norm_num at he
  · exact
      { pow := by intro a ha; simp at ha
        sorted := by simp [sizes]
        desc := by simp [stamps]
        window := by intro a ha; simp at ha
        expired := Or.inl rfl
        expired_le := Nat.zero_le _
        acc := trivial
        top := ones_in_self _ _
        hot := by intro a ha; simp at ha
        lower := by intro i j _ h; simp [sizes] at h }

/-! ## The returned estimate -/

theorem ones_in_anti (bits : List Bool) {a b c : Nat} (hab : a ≤ b) (hbc : b ≤ c) :
    ones_in bits b c ≤ ones_in bits a c := by
  rw [ones_in_add bits hab hbc]; omega

theorem ones_in_zero_right (bits : List Bool) (a : Nat) : ones_in bits a 0 = 0 := by
  have := ones_in_le bits a 0
  omega

/-- The estimate computed in a state whose buckets all lie inside the window,
the exact count `c` of the window and the running sum `total_sum`:
`estimate ≤ c ≤ total_sum`, the estimate is `total_sum - tail.size + 1` (0 on
an empty list), and `c` exceeds it by at most `ceil (c / k)`. -/
theorem answer_core {W k : Nat} {e : Int} {bits : List Bool} {s : StateApx}
    {L F : List Nat} {E : Nat}
    (hk : 1 ≤ k) (hW32 : W < 4294967296) (hlen : bits.length < 18446744073709551616)
    (hc : Core W k e bits bits.length s L F E)
    (hw : InWindow W bits.length (L.map (pay s.buckets))) :
    ∃ r, answer s = .ok r ∧ r ≤ trailing_ones W bits ∧ trailing_ones W bits ≤ s.total_sum ∧
      trailing_ones W bits ≤ r + ceil_div (trailing_ones W bits) k ∧
      ((s.tail = -1 ∧ r = 0) ∨
        ∃ x : Nat, s.tail = (x : Int) ∧ x < s.max_buckets ∧
          r + (s.buckets x).size = s.total_sum + 1 ∧
          (k * (s.buckets x).size ≤ r - 1 + k)) := by
  have htot := hc.good.total
  rw [← hc.rep.sum] at htot
  have hE : E ≤ bits.length - W := by
    rcases hc.good.expired with h | h <;> omega
  have hcle : trailing_ones W bits ≤ s.total_sum := by
    rw [trailing_ones_eq, htot]
    exact ones_in_anti bits hE (Nat.sub_le _ _)
  rcases DL_tail hc.rep.live with ⟨hL, _, ht⟩ | ⟨A, x, hL, ht⟩
  · subst hL
    have h0 : s.total_sum = 0 := by rw [hc.rep.sum]; simp [sizes]
    refine ⟨0, by unfold answer; simp [ht], Nat.zero_le _, hcle, by omega, Or.inl ⟨ht, rfl⟩⟩
  · subst hL
    have hx : x < s.max_buckets := DL_mem_lt hc.rep.live x (by simp)
    have hg := hc.good
    rw [List.map_append, List.map_cons, List.map_nil] at hg hw
    have hfront := hg.front_le
    have hxm : pay s.buckets x ∈ A.map (pay s.buckets) ++ [pay s.buckets x] := by simp
    have hwin := hw _ hxm
    have hts := (hg.window _ hxm).1
    have hhot := hg.hot _ hxm
    have hsum := hc.rep.sum
    rw [sum_snoc] at hsum
    obtain ⟨j, hj⟩ := hg.pow _ hxm
    have hfs := hg.front_sum hj
    have hpos : 0 < (s.buckets x).size := hg.size_pos _ hxm
    have hts1 : 1 ≤ (s.buckets x).timestamp := by
      by_contra h
      have h2 : (pay s.buckets x).1 = 0 := by show (s.buckets x).timestamp = 0; omega
      rw [h2, ones_in_zero_right] at hhot
      omega
    -- the buckets in front of the oldest one lie inside the window
    have hA : (sizes (A.map (pay s.buckets))).sum + 1 ≤ trailing_ones W bits := by
      rw [trailing_ones_eq, hfront]
      have h1 : bits.length - W ≤ (pay s.buckets x).1 - 1 := by
        show bits.length - W ≤ (s.buckets x).timestamp - 1
        have : bits.length < (s.buckets x).timestamp + W := hwin
        omega
      have h2 := ones_in_anti bits h1 (by
        show (s.buckets x).timestamp - 1 ≤ bits.length
        have : (s.buckets x).timestamp ≤ bits.length := hts
        omega)
      have h3 : (pay s.buckets x).1 - 1 ≤ (pay s.buckets x).1 := Nat.sub_le _ _
      rw [ones_in_add bits h3 hts, hhot] at h2
      omega
    have hsmall : (sizes (A.map (pay s.buckets))).sum + 1 ≤ W := by
      rw [hfront]
      have := ones_in_le bits (pay s.buckets x).1 bits.length
      have h4 : bits.length < (s.buckets x).timestamp + W := hwin
      have h5 : (pay s.buckets x).1 = (s.buckets x).timestamp := rfl
      omega
    have hsumlt : s.total_sum < 18446744073709551616 := by
      rw [hc.rep.sum]; have := hc.good.sum_le; omega
    have hans : answer s = .ok ((sizes (A.map (pay s.buckets))).sum + 1) := by
      unfold answer
      simp only [ht, cast_eq_neg_one, if_false, get_bucket_cast, hx, if_true, ok_bind, pure_ok]
      rw [sub64_le (by omega) hsumlt]
      have h6 : s.total_sum - (s.buckets x).size = (sizes (A.map (pay s.buckets))).sum := by
        omega
      rw [h6, u64_small (by omega), u32_small (by omega)]
    have hsz : (pay s.buckets x).2 = (s.buckets x).size := rfl
    refine ⟨_, hans, hA, hcle, ?_, Or.inr ⟨x, ht, hx, by omega, ?_⟩⟩
    · -- the error is below `ceil (c / k)`
      have h7 : (s.buckets x).size - 1 ≤ ceil_div (trailing_ones W bits) k := by
        unfold ceil_div
        rw [Nat.le_div_iff_mul_le hk]
        rw [hsz] at hj
        rw [← hj] at hfs
        have h8 : ((s.buckets x).size - 1) * k = k * (s.buckets x).size - k := by
          rw [Nat.sub_mul, Nat.one_mul, Nat.mul_comm]
        rw [h8]
        omega
      omega
    · rw [← hsz, hj]
      simpa using hfs

/-- The estimate returned in a state that satisfies the invariant of the states
between two calls. -/
theorem answer_spec {W k : Nat} {e : Int} {bits : List Bool} {s : StateApx}
    (hk : 1 ≤ k) (hW32 : W < 4294967296) (hlen : bits.length < 18446744073709551616)
    (hinv : Inv W k e bits s) :
    ∃ r, answer s = .ok r ∧ r ≤ trailing_ones W bits ∧ trailing_ones W bits ≤ s.total_sum ∧
      trailing_ones W bits ≤ r + ceil_div (trailing_ones W bits) k ∧
      ((s.tail = -1 ∧ r = 0) ∨
        ∃ x : Nat, s.tail = (x : Int) ∧ x < s.max_buckets ∧
          r + (s.buckets x).size = s.total_sum + 1 ∧
          (k * (s.buckets x).size ≤ r - 1 + k)) := by
  obtain ⟨L, F, E, hc, _, hw⟩ := hinv
  exact answer_core hk hW32 hlen hc hw

/-! ## Runs -/

theorem next_eq (s : StateApx) (item : Bool) :
    wnd_bit_count_apx_next s item =
      (advance_state s item >>= fun s1 => answer s1 >>= fun r => .ok (s1, r)) := rfl

theorem run_snoc (mem : Nat → Bucket) (merges W k : Nat) (bits : List Bool) (b : Bool) :
    run mem merges W k (bits ++ [b]) = feed (run mem merges W k bits) b := by
  unfold run
  rw [List.foldl_append]
  rfl

theorem feed_ok (s : StateApx) (outs : List Nat) (item : Bool) :
    feed (.ok (s, outs)) item =
      (wnd_bit_count_apx_next s item >>= fun p => .ok (p.1, outs ++ [p.2])) := rfl

theorem feed_error (err : Fault) (item : Bool) : feed (.error err) item = .error err := rfl

theorem InWindow.earlier {W now t : Nat} {A : List (Nat × Nat)} (h : InWindow W now A)
    (ht : t ≤ now) : InWindow W t A := by
  intro a ha
  have := h a ha
  omega

/-- With parameters in the safe range the free list cannot be empty when a
bucket is admitted: the live buckets are fewer than the slots. -/
theorem no_exhaustion {W k : Nat} {bits : List Bool} {s1 : StateApx} {L1 : List Nat} {E1 : Nat}
    (hW : 1 ≤ W) (hW32 : W < 4294967296) (hk : 1 ≤ k) (hs : Safe W k)
    (hc : Core W k (free_end W k) bits (bits.length + 1) s1 L1 [] E1)
    (hb : Bounded k (L1.map (pay s1.buckets)))
    (hw : InWindow W (bits.length + 1) (L1.map (pay s1.buckets))) : False := by
  have hfull := hc.rep.full (free_end_safe hW hW32 hs)
  rw [hc.cap, capacity_safe hW hW32 hs] at hfull
  have hw0 := hw.earlier (Nat.le_succ bits.length)
  have h1 := hc.good.length_le hk hW (by omega) hw0 hb
  have h2 := hc.good.length_le_window hw0
  simp only [List.length_map, List.length_nil, Nat.add_zero] at h1 h2 hfull
  have h3 : (floor_log2 W + 1) * (k + 1) < (floor_log2 W + 1) * (k + 2) :=
    Nat.mul_lt_mul_of_pos_left (by omega) (by omega)
  have h4 : L1.length < min (W + 1) ((floor_log2 W + 1) * (k + 2)) :=
    lt_min (by omega) (by omega)
  omega

/-- One call on a state that satisfies the invariant, with the returned value. -/
theorem next_core {W k : Nat} {bits : List Bool} {s : StateApx}
    (hW : 1 ≤ W) (hW32 : W < 4294967296) (hk : 1 ≤ k) (hk32 : k < 4294967296)
    (hlen : bits.length + 1 < 18446744073709551616)
    (hinv : Inv W k (free_end W k) bits s) (item : Bool) :
    (∃ s1 r, wnd_bit_count_apx_next s item = .ok (s1, r) ∧
      Inv W k (free_end W k) (bits ++ [item]) s1 ∧ answer s1 = .ok r) ∨
    (item = true ∧ (∃ err, wnd_bit_count_apx_next s item = .error err) ∧ ¬ Safe W k) := by
  rcases advance_core hW hk32 hlen hinv item with ⟨s1, h1, h2⟩ | ⟨h1, ⟨err, h2⟩, h3⟩
  · left
    have hl : (bits ++ [item]).length < 18446744073709551616 := by simp; omega
    obtain ⟨r, hr, _⟩ := answer_spec hk hW32 hl h2
    exact ⟨s1, r, by rw [next_eq, h1, ok_bind, hr]; rfl, h2, hr⟩
  · right
    refine ⟨h1, ⟨err, by rw [next_eq, h2]; rfl⟩, ?_⟩
    intro hs
    rcases h3 with h3 | ⟨s1, L1, E1, hc, hb, hw⟩
    · have := hs.1; omega
    · exact no_exhaustion hW hW32 hk hs hc hb hw

/-- What a run gives: the invariant for the final state and, for every call,
an estimate within the error bound of the exact count of its window; a run
stops early only outside the safe range of the parameters. -/
theorem run_core (mem : Nat → Bucket) (merges W k : Nat) (bits : List Bool)
    (hW : 1 ≤ W) (hW32 : W < 4294967296) (hk : 1 ≤ k) (hk32 : k < 4294967296)
    (hlen : bits.length < 18446744073709551616) :
    (∃ s outs, run mem merges W k bits = .ok (s, outs) ∧ Inv W k (free_end W k) bits s ∧
      outs.length = bits.length ∧
      ∀ i r, outs[i]? = some r →
        r ≤ trailing_ones W (bits.take (i + 1)) ∧
        trailing_ones W (bits.take (i + 1)) ≤
          r + ceil_div (trailing_ones W (bits.take (i + 1))) k) ∨
    ((∃ err, run mem merges W k bits = .error err) ∧ ¬ Safe W k) := by
  induction bits using List.reverseRecOn with
  | nil =>
    left
    obtain ⟨s, memory, h1, h2, _⟩ := new_inv mem merges W k hW hk
    refine ⟨s, [], ?_, h2, rfl, ?_⟩
    · unfold run; rw [List.foldl_nil, h1]; rfl
    · intro i r h; simp at h
  | append_singleton bits b ih =>
    have hlen0 : bits.length + 1 < 18446744073709551616 := by simpa using hlen
    rw [run_snoc]
    rcases ih (by omega) with ⟨s, outs, h1, h2, h3, h4⟩ | ⟨⟨err, h1⟩, h2⟩
    · rw [h1, feed_ok]
      rcases next_core hW hW32 hk hk32 hlen0 h2 b with ⟨s1, r, h5, h6, h7⟩ | ⟨_, ⟨err, h5⟩, h6⟩
      · left
        refine ⟨s1, outs ++ [r], by rw [h5]; rfl, h6, by simp [h3], ?_⟩
        intro i q hq
        by_cases hi : i < outs.length
        · rw [List.getElem?_append_left hi] at hq
          have h8 := h4 i q hq
          rw [List.take_append_of_le_length (by omega)]
          exact h8
        · have hi2 : i = outs.length := by
            by_contra hne
            have : outs.length + 1 ≤ i := by omega
            have h9 : (outs ++ [r])[i]? = none := by
              rw [List.getElem?_eq_none_iff]; simp; omega
            rw [h9] at hq; simp at hq
          subst hi2
          rw [List.getElem?_append_right (le_refl _)] at hq
          simp only [Nat.sub_self, List.getElem?_cons_zero, Option.some.injEq] at hq
          subst hq
          have h10 : (bits ++ [b]).take (outs.length + 1) = bits ++ [b] := by
            apply List.take_of_length_le; simp [h3]
          rw [h10]
          obtain ⟨r2, hr2, ha, _, hb2, _⟩ := answer_spec hk hW32 hlen h6
          rw [h7] at hr2
          have : r = r2 := by injection hr2
          subst this
          exact ⟨ha, hb2⟩
      · right
        exact ⟨⟨err, by rw [h5]; rfl⟩, h6⟩
    · right
      exact ⟨⟨err, by rw [h1, feed_error]⟩, h2⟩

/-! ## Reachable states and their live lists -/

theorem ok_eta_run (r : Except Fault (StateApx × List Nat)) (h : is_ok r = true) :
    r = .ok (state_of r, outs_of r) := by
  cases r with
  | error err => simp [is_ok] at h
  | ok p => rfl

theorem ok_eta_next (r : Except Fault (StateApx × Nat)) (v : Nat) (h : is_ok r = true)
    (hv : value_of r = v) : r = .ok (state_of r, v) := by
  cases r with
  | error err => simp [is_ok] at h
  | ok p => subst hv; rfl

theorem floor_log2_eq_log (n : Nat) (h1 : 1 ≤ n) (h2 : n < 18446744073709551616) :
    floor_log2 n = Nat.log 2 n := by
  obtain ⟨h3, h4⟩ := floor_log2_spec n h1 h2
  exact (Nat.log_eq_of_pow_le_of_lt_pow h3 h4).symm

/-- The walk from `head` finds exactly the ghost list of the invariant. -/
theorem Core.live_slots {W k : Nat} {e : Int} {bits : List Bool} {now : Nat} {s : StateApx}
    {L F : List Nat} {E : Nat} (hc : Core W k e bits now s L F E) : live_slots s = L := by
  unfold WindowBitCountApx.live_slots
  refine walk_eq s.max_buckets hc.rep.live ?_
  exact nodup_length_le (List.Nodup.of_append_left hc.rep.nodup) (DL_mem_lt hc.rep.live)

theorem Core.live_pay {W k : Nat} {e : Int} {bits : List Bool} {now : Nat} {s : StateApx}
    {L F : List Nat} {E : Nat} (hc : Core W k e bits now s L F E) :
    live_pairs s = L.map (pay s.buckets) := by
  unfold live_pairs live
  rw [hc.live_slots, List.map_map]
  rfl

theorem Core.live_sizes {W k : Nat} {e : Int} {bits : List Bool} {now : Nat} {s : StateApx}
    {L F : List Nat} {E : Nat} (hc : Core W k e bits now s L F E) :
    (live s).map Bucket.size = sizes (L.map (pay s.buckets)) := by
  unfold live
  rw [hc.live_slots, sizes_pay, List.map_map]
  rfl

theorem Core.live_stamps {W k : Nat} {e : Int} {bits : List Bool} {now : Nat} {s : StateApx}
    {L F : List Nat} {E : Nat} (hc : Core W k e bits now s L F E) :
    (live s).map Bucket.timestamp = stamps (L.map (pay s.buckets)) := by
  unfold live
  rw [hc.live_slots, stamps_pay, List.map_map]
  rfl

theorem Core.mem_live {W k : Nat} {e : Int} {bits : List Bool} {now : Nat} {s : StateApx}
    {L F : List Nat} {E : Nat} (hc : Core W k e bits now s L F E) (b : Bucket)
    (hb : b ∈ live s) : (b.timestamp, b.size) ∈ L.map (pay s.buckets) := by
  unfold live at hb
  rw [hc.live_slots] at hb
  obtain ⟨x, hx, rfl⟩ := List.mem_map.1 hb
  exact List.mem_map.2 ⟨x, hx, rfl⟩

/-- Every state that a run ends in satisfies the invariant. -/
theorem run_ok_inv {mem : Nat → Bucket} {merges W k : Nat} {bits : List Bool} {s : StateApx}
    {outs : List Nat} (hW : 1 ≤ W) (hW32 : W < 4294967296) (hk : 1 ≤ k) (hk32 : k < 4294967296)
    (hlen : bits.length < 18446744073709551616)
    (hrun : run mem merges W k bits = .ok (s, outs)) : Inv W k (free_end W k) bits s := by
  rcases run_core mem merges W k bits hW hW32 hk hk32 hlen with
    ⟨s1, outs1, h1, h2, _⟩ | ⟨⟨err, h1⟩, _⟩
  · rw [hrun] at h1
    injection h1 with h1
    injection h1 with h3 h4
    subst h3
    exact h2
  · rw [hrun] at h1
    cases h1

/-- On parameters for which the constructor does not wrap, every run stays
inside defined behaviour: no assertion fails and no access leaves the arena. -/
theorem run_safe (mem : Nat → Bucket) (merges W k : Nat) (bits : List Bool)
    (hW : 1 ≤ W) (hW32 : W < 4294967296) (hk : 1 ≤ k) (hk32 : k < 4294967296)
    (hlen : bits.length < 18446744073709551616) (hs : Safe W k) :
    ∃ s outs, run mem merges W k bits = .ok (s, outs) ∧ outs.length = bits.length ∧
      (live s).length ≤ s.max_buckets := by
  rcases run_core mem merges W k bits hW hW32 hk hk32 hlen with
    ⟨s, outs, h1, h2, h3, _⟩ | ⟨_, h1⟩
  · refine ⟨s, outs, h1, h3, ?_⟩
    obtain ⟨L, F, E, hc, _, _⟩ := h2
    unfold live
    rw [List.length_map, hc.live_slots]
    exact nodup_length_le (List.Nodup.of_append_left hc.rep.nodup) (DL_mem_lt hc.rep.live)
  · exact absurd hs h1

/-- On parameters for which the constructor does not wrap, it allocates
`min (W + 1, (floor (log2 W) + 1) * (k + 2))` slots and threads all of them, in
order, onto the free list that starts at slot 0. -/
theorem new_safe (mem : Nat → Bucket) (merges W k : Nat)
    (hW : 1 ≤ W) (hW32 : W < 4294967296) (hk : 1 ≤ k) (hs : Safe W k) :
    ∃ s memory, wnd_bit_count_apx_new mem merges W k = .ok (s, memory) ∧
      s.max_buckets = min (W + 1) ((Nat.log 2 W + 1) * (k + 2)) ∧ s.free_head = 0 ∧
      FL s.buckets s.max_buckets s.free_head (List.range' 0 s.max_buckets) (-1) := by
  have hcap := capacity_safe hW hW32 hs
  have hfl := new_free_chain mem W k
  rw [free_end_safe hW hW32 hs] at hfl
  have hle : capacity W k ≤ 2147483648 := by rw [hcap]; exact hs.2
  rw [Nat.min_eq_left hle] at hfl
  refine ⟨_, _, by unfold wnd_bit_count_apx_new; simp [hW, hk]; exact ⟨rfl, rfl⟩, ?_, rfl, hfl⟩
  show capacity W k = _
  rw [hcap, floor_log2_eq_log W hW (by omega)]

/-! ## The properties stated by the specification -/

/-- The error bound on the runs that return. For 32-bit `wnd_size ≥ 1` and
`k ≥ 1` and a stream shorter than `2^64` (the range of the clock), a run on a
freshly constructed state returns one value per bit, and the value returned by
call `i + 1` differs from the exact number of 1-bits among the trailing
`min (i + 1, wnd_size)` inputs by at most `ceil (exact / k)`; unless the run
leaves defined behaviour, which happens only for parameters on which the
constructor wraps (outside `Safe`). -/
theorem error_bound (mem : Nat → Bucket) (merges W k : Nat) (bits : List Bool)
    (hW : 1 ≤ W) (hW32 : W < 4294967296) (hk : 1 ≤ k) (hk32 : k < 4294967296)
    (hlen : bits.length < 18446744073709551616) :
    (∃ s outs, run mem merges W k bits = .ok (s, outs) ∧ outs.length = bits.length ∧
      ∀ i r, outs[i]? = some r →
        r ≤ trailing_ones W (bits.take (i + 1)) +
            ceil_div (trailing_ones W (bits.take (i + 1))) k ∧
        trailing_ones W (bits.take (i + 1)) ≤
          r + ceil_div (trailing_ones W (bits.take (i + 1))) k) ∨
    ((∃ err, run mem merges W k bits = .error err) ∧ ¬ Safe W k) := by
  rcases run_core mem merges W k bits hW hW32 hk hk32 hlen with
    ⟨s, outs, h1, _, h3, h4⟩ | h
  · refine Or.inl ⟨s, outs, h1, h3, fun i r hir => ?_⟩
    obtain ⟨h5, h6⟩ := h4 i r hir
    exact ⟨by omega, h6⟩
  · exact Or.inr h

/-- The error bound at work: window 3, `k = 1`, five bits; the run returns 1, 2, 2, 2, 1
where the exact counts are 1, 2, 3, 2, 1. -/
theorem error_bound_witness :
    outs_of (run blank 0 3 1 [true, true, true, false, false]) = [1, 2, 2, 2, 1] ∧
    ((∃ s outs, run blank 0 3 1 [true, true, true, false, false] = .ok (s, outs) ∧
      outs.length = [true, true, true, false, false].length ∧
      ∀ i r, outs[i]? = some r →
        r ≤ trailing_ones 3 ([true, true, true, false, false].take (i + 1)) +
            ceil_div (trailing_ones 3 ([true, true, true, false, false].take (i + 1))) 1 ∧
        trailing_ones 3 ([true, true, true, false, false].take (i + 1)) ≤
          r + ceil_div (trailing_ones 3 ([true, true, true, false, false].take (i + 1))) 1) ∨
    ((∃ err, run blank 0 3 1 [true, true, true, false, false] = .error err) ∧ ¬ Safe 3 1)) :=
  ⟨by decide!,
    error_bound blank 0 3 1 [true, true, true, false, false] (by decide) (by decide)
      (by decide) (by decide) (by decide)⟩

/-- C1 fails on the code: for `wnd_size = 1` and `k = 2^32 - 1` the exact count
after one 1-bit is 1 and the bound `ceil (1 / k)` is 1, so the call should
return a value between 0 and 2. The threshold `k + 2` of the merge loop wraps to
1 in `uint32_t`, the loop is entered with a single bucket and the call reads
`buckets[-1]`: no value is returned. -/
theorem error_bound_overflow :
    trailing_ones 1 [true] = 1 ∧ ceil_div 1 4294967295 = 1 ∧
    is_ok (wnd_bit_count_apx_new blank 0 1 4294967295) = true ∧
    fault_of (wnd_bit_count_apx_next
      (state_of (wnd_bit_count_apx_new blank 0 1 4294967295)) true) =
      some Fault.out_of_bounds ∧
    fault_of (run blank 0 1 4294967295 [true]) = some Fault.out_of_bounds ∧
    outs_of (run blank 0 1 4294967295 [true]) = [] := by decide!

/-- C3 fails on the code: for `wnd_size = 1` and `k = 2^32 - 2` the constructor
computes `k + 2` in `uint32_t`, which wraps to 0, and allocates no slot while
`free_head` is 0. The assertion of the first 1-bit passes and the admission
reads `buckets[0]` outside the arena. -/
theorem admission_overflow :
    is_ok (wnd_bit_count_apx_new blank 0 1 4294967294) = true ∧
    (state_of (wnd_bit_count_apx_new blank 0 1 4294967294)).max_buckets = 0 ∧
    (state_of (wnd_bit_count_apx_new blank 0 1 4294967294)).free_head = 0 ∧
    fault_of (run blank 0 1 4294967294 [true]) = some Fault.out_of_bounds := by decide!

/-- C4: Bucket count bound. In every state reached from the constructor by a
sequence of calls, the live list has at most
`(floor (log2 wnd_size) + 1) * (k + 1)` buckets. -/
theorem bucket_count_bound (mem : Nat → Bucket) (merges W k : Nat) (bits : List Bool)
    (s : StateApx) (outs : List Nat)
    (hW : 1 ≤ W) (hW32 : W < 4294967296) (hk : 1 ≤ k) (hk32 : k < 4294967296)
    (hlen : bits.length < 18446744073709551616)
    (hrun : run mem merges W k bits = .ok (s, outs)) :
    (live s).length ≤ (Nat.log 2 W + 1) * (k + 1) := by
  obtain ⟨L, F, E, hc, hb, hw⟩ := run_ok_inv hW hW32 hk hk32 hlen hrun
  have h := hc.good.length_le hk hW (by omega) hw hb
  rw [List.length_map, floor_log2_eq_log W hW (by omega)] at h
  unfold live
  rw [List.length_map, hc.live_slots]
  exact h

/-- Witness of C4: window 3, `k = 1`, three 1-bits leave two buckets, and the
bound is 4. -/
theorem bucket_count_bound_witness :
    live_pairs after_three = [(3, 1), (2, 2)] ∧
    (live after_three).length ≤ (Nat.log 2 3 + 1) * (1 + 1) :=
  ⟨by decide!,
    bucket_count_bound blank 0 3 1 [true, true, true] after_three _ (by decide) (by decide)
      (by decide) (by decide) (by decide) (ok_eta_run _ (by decide!))⟩

/-- C5: Monotonic order. In every state reached from the constructor, along the
live list from head to tail the sizes are non-decreasing and the timestamps are
non-increasing. -/
theorem monotonic_order (mem : Nat → Bucket) (merges W k : Nat) (bits : List Bool)
    (s : StateApx) (outs : List Nat)
    (hW : 1 ≤ W) (hW32 : W < 4294967296) (hk : 1 ≤ k) (hk32 : k < 4294967296)
    (hlen : bits.length < 18446744073709551616)
    (hrun : run mem merges W k bits = .ok (s, outs)) :
    ((live s).map Bucket.size).Pairwise (fun a b => a ≤ b) ∧
    ((live s).map Bucket.timestamp).Pairwise (fun a b => b ≤ a) := by
  obtain ⟨L, F, E, hc, hb, hw⟩ := run_ok_inv hW hW32 hk hk32 hlen hrun
  rw [hc.live_sizes, hc.live_stamps]
  exact ⟨hc.good.sorted, hc.good.desc.imp (fun h => Nat.le_of_lt h)⟩

/-- Witness of C5: window 3, `k = 1`, three 1-bits: sizes 1, 2 and timestamps
3, 2 from head to tail. -/
theorem monotonic_order_witness :
    (live after_three).map Bucket.size = [1, 2] ∧
    (live after_three).map Bucket.timestamp = [3, 2] ∧
    ((live after_three).map Bucket.size).Pairwise (fun a b => a ≤ b) ∧
    ((live after_three).map Bucket.timestamp).Pairwise (fun a b => b ≤ a) :=
  ⟨by decide!, by decide!,
    monotonic_order blank 0 3 1 [true, true, true] after_three _ (by decide) (by decide)
      (by decide) (by decide) (by decide) (ok_eta_run _ (by decide!))⟩

/-- C6: Sum invariant. After the constructor and after every call, `total_sum`
is the sum of the sizes of the buckets on the live list. -/
theorem sum_invariant (mem : Nat → Bucket) (merges W k : Nat) (bits : List Bool)
    (s : StateApx) (outs : List Nat)
    (hW : 1 ≤ W) (hW32 : W < 4294967296) (hk : 1 ≤ k) (hk32 : k < 4294967296)
    (hlen : bits.length < 18446744073709551616)
    (hrun : run mem merges W k bits = .ok (s, outs)) :
    s.total_sum = ((live s).map Bucket.size).sum := by
  obtain ⟨L, F, E, hc, hb, hw⟩ := run_ok_inv hW hW32 hk hk32 hlen hrun
  rw [hc.live_sizes]
  exact hc.rep.sum

/-- Witness of C6: window 3, `k = 1`, three 1-bits: `total_sum = 3 = 1 + 2`. -/
theorem sum_invariant_witness :
    after_three.total_sum = 3 ∧
    after_three.total_sum = ((live after_three).map Bucket.size).sum :=
  ⟨by decide!,
    sum_invariant blank 0 3 1 [true, true, true] after_three _ (by decide) (by decide)
      (by decide) (by decide) (by decide) (ok_eta_run _ (by decide!))⟩

/-- C7: The size-class index agrees with a scan. In every state reached from the
constructor, the size of every live bucket is `2^i` for some `i < 64`, and for
every `i < 64`, `count[i]` is the number of live buckets of size `2^i` and
`last_of_size[i]` is `-1` when there is none and otherwise the slot of the
tail-most live bucket of size `2^i`. -/
theorem class_index_scan (mem : Nat → Bucket) (merges W k : Nat) (bits : List Bool)
    (s : StateApx) (outs : List Nat)
    (hW : 1 ≤ W) (hW32 : W < 4294967296) (hk : 1 ≤ k) (hk32 : k < 4294967296)
    (hlen : bits.length < 18446744073709551616)
    (hrun : run mem merges W k bits = .ok (s, outs)) :
    (∀ b, b ∈ live s → ∃ i, i < 64 ∧ b.size = 2 ^ i) ∧
    ∀ i, i < 64 →
      s.count i = ((live s).map Bucket.size).count (2 ^ i) ∧
      s.last_of_size i = class_last s.buckets (live_slots s) i ∧
      (s.count i = 0 → s.last_of_size i = -1) ∧
      (s.count i ≠ 0 → ∃ (P : List Nat) (x : Nat) (B : List Nat),
        live_slots s = P ++ x :: B ∧ s.last_of_size i = (x : Int) ∧
        (s.buckets x).size = 2 ^ i ∧ ∀ z, z ∈ B → (s.buckets z).size ≠ 2 ^ i) := by
  obtain ⟨L, F, E, hc, hb, hw⟩ := run_ok_inv hW hW32 hk hk32 hlen hrun
  refine ⟨fun b hbl => ?_, fun i hi => ?_⟩
  · have hm := hc.mem_live b hbl
    obtain ⟨i, hi⟩ := hc.good.pow _ hm
    have hle : b.size ≤ W := hc.good.size_le hk hw _ hm
    refine ⟨i, ?_, hi⟩
    have h2 : (2 : Nat) ^ i < 2 ^ 64 := by
      have : b.size = 2 ^ i := hi
      rw [← this]
      have : (2 : Nat) ^ 64 = 18446744073709551616 := by norm_num
      omega
    exact exp_lt_of_pow_lt h2
  · have hcnt := hc.rep.cnt i hi
    have hlast := hc.rep.last i hi
    rw [hc.live_sizes, hc.live_slots]
    refine ⟨hcnt, hlast, fun h0 => ?_, fun h1 => ?_⟩
    · rw [hlast]
      rw [hcnt] at h0
      exact class_last_none (count_zero_size.1 h0)
    · rw [hcnt] at h1
      have hpos := count_pos_size.1 (Nat.pos_of_ne_zero h1)
      obtain ⟨P, x, B, hL, hx, hB⟩ :=
        last_occurrence (p := fun z => (s.buckets z).size = 2 ^ i) L hpos
      refine ⟨P, x, B, hL, ?_, hx, hB⟩
      rw [hlast, hL]
      have e1 : P ++ x :: B = (P ++ [x]) ++ B := by simp
      rw [e1, class_last_append_left _ _ hB]
      exact class_last_snoc_hit P hx

/-- Witness of C7: window 3, `k = 1`, three 1-bits: one bucket of size 1 in
slot 2 and one of size 2 in slot 1. -/
theorem class_index_scan_witness :
    (after_three.count 0 = 1 ∧ after_three.last_of_size 0 = 2 ∧
      after_three.count 1 = 1 ∧ after_three.last_of_size 1 = 1 ∧
      live_slots after_three = [2, 1]) ∧
    ((∀ b, b ∈ live after_three → ∃ i, i < 64 ∧ b.size = 2 ^ i) ∧
    ∀ i, i < 64 →
      after_three.count i = ((live after_three).map Bucket.size).count (2 ^ i) ∧
      after_three.last_of_size i = class_last after_three.buckets (live_slots after_three) i ∧
      (after_three.count i = 0 → after_three.last_of_size i = -1) ∧
      (after_three.count i ≠ 0 → ∃ (P : List Nat) (x : Nat) (B : List Nat),
        live_slots after_three = P ++ x :: B ∧ after_three.last_of_size i = (x : Int) ∧
        (after_three.buckets x).size = 2 ^ i ∧
        ∀ z, z ∈ B → (after_three.buckets z).size ≠ 2 ^ i)) :=
  ⟨by decide!,
    class_index_scan blank 0 3 1 [true, true, true] after_three _ (by decide) (by decide)
      (by decide) (by decide) (by decide) (ok_eta_run _ (by decide!))⟩

/-- C8: Per-class count bound. After the constructor and after every completed
call, `count[i] ≤ k + 1` for every `i < 64`. -/
theorem class_count_bound (mem : Nat → Bucket) (merges W k : Nat) (bits : List Bool)
    (s : StateApx) (outs : List Nat)
    (hW : 1 ≤ W) (hW32 : W < 4294967296) (hk : 1 ≤ k) (hk32 : k < 4294967296)
    (hlen : bits.length < 18446744073709551616)
    (hrun : run mem merges W k bits = .ok (s, outs)) :
    s.k = k ∧ ∀ i, i < 64 → s.count i ≤ k + 1 := by
  obtain ⟨L, F, E, hc, hb, hw⟩ := run_ok_inv hW hW32 hk hk32 hlen hrun
  refine ⟨hc.par, fun i hi => ?_⟩
  rw [hc.rep.cnt i hi]
  exact hb i

/-- Witness of C8: window 3, `k = 1`, three 1-bits: the third bucket of size 1
made the count 3 and the merge brought it back to 1. -/
theorem class_count_bound_witness :
    (after_three.count 0 = 1 ∧ after_three.N_MERGES = 1) ∧
    (after_three.k = 1 ∧ ∀ i, i < 64 → after_three.count i ≤ 1 + 1) :=
  ⟨by decide!,
    class_count_bound blank 0 3 1 [true, true, true] after_three _ (by decide) (by decide)
      (by decide) (by decide) (by decide) (ok_eta_run _ (by decide!))⟩

/-- C9: Expiry correctness. In every state reached from the constructor, every
live bucket `b` has `current_time - b.timestamp < wnd_size` (and
`b.timestamp ≤ current_time`); hence a bucket of timestamp `t` is not live after
the call at tick `t + wnd_size`. -/
theorem expiry_correct (mem : Nat → Bucket) (merges W k : Nat) (bits : List Bool)
    (s : StateApx) (outs : List Nat)
    (hW : 1 ≤ W) (hW32 : W < 4294967296) (hk : 1 ≤ k) (hk32 : k < 4294967296)
    (hlen : bits.length < 18446744073709551616)
    (hrun : run mem merges W k bits = .ok (s, outs)) :
    s.current_time = bits.length ∧ s.wnd_size = W ∧
    ∀ b, b ∈ live s →
      b.timestamp ≤ s.current_time ∧ s.current_time - b.timestamp < s.wnd_size := by
  obtain ⟨L, F, E, hc, hb, hw⟩ := run_ok_inv hW hW32 hk hk32 hlen hrun
  refine ⟨hc.clock, hc.wnd, fun b hbl => ?_⟩
  have hm := hc.mem_live b hbl
  have h1 : b.timestamp ≤ bits.length := (hc.good.window _ hm).1
  have h2 : bits.length < b.timestamp + W := hw _ hm
  rw [hc.clock, hc.wnd]
  omega

/-- Witness of C9: window 3, bits 1, 1, 0, 0, 0 (with `k = 1`): after tick 4 the
bucket of tick 1 is gone and the bucket of tick 2 is live, and after tick 5 no
bucket is live. -/
theorem expiry_correct_witness :
    (live_pairs after_four = [(2, 1)] ∧
      live_pairs (state_of (run blank 0 3 1 [true, true, false, false, false])) = []) ∧
    (after_four.current_time = [true, true, false, false].length ∧ after_four.wnd_size = 3 ∧
    ∀ b, b ∈ live after_four →
      b.timestamp ≤ after_four.current_time ∧
      after_four.current_time - b.timestamp < after_four.wnd_size) :=
  ⟨by decide!,
    expiry_correct blank 0 3 1 [true, true, false, false] after_four _ (by decide) (by decide)
      (by decide) (by decide) (by decide) (ok_eta_run _ (by decide!))⟩

/-- C10 fails on the code: for `wnd_size = 1` and `k = 2^32 - 2` the constructor
sets `max_buckets` to 0, where `min (wnd_size + 1, (floor (log2 wnd_size) + 1) *
(k + 2))` is 2, because `k + 2` is computed in `uint32_t`; no slot is threaded
and `free_head = 0` dangles. -/
theorem capacity_overflow :
    (is_ok (wnd_bit_count_apx_new blank 0 1 4294967294) = true ∧
      (state_of (wnd_bit_count_apx_new blank 0 1 4294967294)).max_buckets = 0 ∧
      (state_of (wnd_bit_count_apx_new blank 0 1 4294967294)).free_head = 0) ∧
    min (1 + 1) ((Nat.log 2 1 + 1) * (4294967294 + 2)) = 2 :=
  ⟨by decide!, by simp⟩

/-! ## The rounds of the merge loop -/

/-- The links around two neighbours in the middle of a doubly linked segment. -/
theorem DL_pair {bs : Nat → Bucket} {n : Nat} {A1 B : List Nat} {y x : Nat} {p h t q : Int}
    (hd : DL bs n p h (A1 ++ y :: x :: B) t q) :
    (bs x).prev = (y : Int) ∧ (bs y).next = (x : Int) ∧ x < n ∧ y < n ∧
      ((A1 = [] ∧ (bs y).prev = p ∧ h = (y : Int)) ∨
        ∃ (A0 : List Nat) (a : Nat), A1 = A0 ++ [a] ∧ (bs y).prev = (a : Int)) := by
  obtain ⟨m, m1, hA, hB⟩ := (DL_append _ _ _ _ _ _).1 hd
  obtain ⟨h1, hy, h2, h3⟩ := (DL_cons _ _ _ _ _ _).1 hB
  obtain ⟨h4, hx, h5, _⟩ := (DL_cons _ _ _ _ _ _).1 h3
  refine ⟨h5, h4, hx, hy, ?_⟩
  rcases DL_tail hA with ⟨hnil, hh, hm⟩ | ⟨A0, a, hA0, hm⟩
  · exact Or.inl ⟨hnil, by rw [h2, hm], by rw [hh, h1]⟩
  · exact Or.inr ⟨A0, a, hA0, by rw [h2, hm]⟩

/-- One round of the merge loop at a class that holds `k + 2` buckets. -/
theorem merge_round {W k : Nat} {e : Int} {bits : List Bool} {i : Nat} {s : StateApx}
    {L F : List Nat} {E : Nat} (hk1 : 1 ≤ k) (hm : Mid W k e bits i s L F E)
    (hcount : s.count i = k + 2) :
    ∃ A1 y x B s1, L = A1 ++ y :: x :: B ∧ MergeRound i s s1 A1 y x B ∧
      Mid W k e bits (i + 1) s1 (A1 ++ y :: B) (x :: F) E := by
  have hc := hm.core
  have hi := hm.idx
  have hsum : s.total_sum < 18446744073709551616 := by
    rw [hc.rep.sum]; have := hc.good.sum_le; have := hm.len; omega
  obtain ⟨A1, y, x, B, s2, hL, hx, hy, hBi, hi1, hmp, hrep2, hpay2, hfr2, hnm, hts2⟩ :=
    merge_pair_rep hc.rep hi (by omega) hc.good.sorted hsum
  subst hL
  have hold : (A1 ++ y :: x :: B).map (pay s.buckets) =
      A1.map (pay s.buckets) ++ ((s.buckets y).timestamp, 2 ^ i) ::
        ((s.buckets x).timestamp, 2 ^ i) :: B.map (pay s.buckets) := by
    simp [pay, hx, hy]
  have hcnt : (sizes ((A1 ++ y :: x :: B).map (pay s.buckets))).count (2 ^ i) = k + 2 := by
    rw [← hc.rep.cnt i hi]; exact hcount
  have hcntA : (sizes (A1.map (pay s.buckets))).count (2 ^ i) = k := by
    have e1 : A1 ++ y :: x :: B = (A1 ++ [y]) ++ x :: B := by simp
    rw [e1, count_split s.buckets (A1 ++ [y]) B x i hx hBi, count_snoc s.buckets A1 y i i hy,
      if_pos rfl] at hcnt
    omega
  have hgood := hc.good
  have hcap := hm.capped
  have hw := hm.window
  have hsorted := hc.good.sorted
  rw [hold] at hgood hcap hw
  have hcnt2 := hcnt
  rw [hold] at hcnt2
  have hB0 : (sizes (B.map (pay s.buckets))).count (2 ^ i) = 0 := count_zero_size.2 hBi
  have hgood2 := Good.good_merge hgood hB0 hcnt2
  have hcap2 := Capped.capped_merge hcap
  have hw2 : InWindow W bits.length (A1.map (pay s.buckets) ++
      ((s.buckets y).timestamp, 2 ^ (i + 1)) :: B.map (pay s.buckets)) := hw.window_merge
  rw [← hpay2] at hgood2 hcap2 hw2
  have hc2 : Core W k e bits bits.length s2 (A1 ++ y :: B) (x :: F) E :=
    { wnd := by rw [hfr2.1, hc.wnd]
      par := by rw [hfr2.2.1, hc.par]
      clock := by rw [hfr2.2.2.1, hc.clock]
      cap := by rw [hfr2.2.2.2, hc.cap]
      rep := hrep2
      good := hgood2
      dom := Or.inl hm.par }
  obtain ⟨hpx, _, _, _, hpy⟩ := DL_pair hc.rep.live
  have hlast : s.last_of_size i = (x : Int) := by
    rw [hc.rep.last i hi]
    have e1 : A1 ++ y :: x :: B = ((A1 ++ [y]) ++ [x]) ++ B := by simp
    rw [e1, class_last_append_left _ _ hBi]
    exact class_last_snoc_hit _ hx
  have hprevy : ∃ (A0 : List Nat) (a : Nat), A1 = A0 ++ [a] ∧ (s.buckets y).prev = (a : Int) ∧
      (s.buckets a).size = 2 ^ i := by
    rcases hpy with ⟨hnil, _, _⟩ | ⟨A0, a, hA0, hp⟩
    · subst hnil
      simp [sizes] at hcntA
      omega
    · refine ⟨A0, a, hA0, hp, ?_⟩
      subst hA0
      have hpos : 0 < (sizes ((A0 ++ [a]).map (pay s.buckets))).count (2 ^ i) := by omega
      have hex := count_pos_size.1 hpos
      have hsA : (sizes ((A0 ++ [a]).map (pay s.buckets))).Pairwise (fun p q => p ≤ q) := by
        have h1 := hsorted
        rw [List.map_append, sizes_append] at h1
        exact (List.pairwise_append.1 h1).1
      refine last_has_size hsA hex ?_
      have h1 := hsorted
      rw [sizes_pay] at h1
      have h2 := List.pairwise_map.1 h1
      have h3 := (List.pairwise_append.1 h2).2.2 a (by simp) y (by simp)
      rw [hy] at h3
      exact h3
  exact ⟨A1, y, x, B, s2, rfl,
    { size_x := hx, size_y := hy, rest := hBi, idx := hi1, round := hmp, pairs := hpay2,
      frame := hfr2, merges := hnm, sum := hts2, oldest := hlast, prev_x := hpx,
      prev_y := hprevy },
    { core := hc2, capped := hcap2, window := hw2, par := hm.par, len := hm.len, idx := hi1 }⟩

theorem merge_loop_step (fuel i : Nat) (s : StateApx) (hi : i < 64) :
    merge_loop (fuel + 1) i s =
      if s.count i = u32 (s.k + 2) then (merge_pair s i >>= fun s2 => merge_loop fuel (i + 1) s2)
      else .ok s := by
  rw [merge_loop]
  simp only [get_count, hi, if_true, ok_bind, pure_ok]

theorem merge_points_step (fuel i : Nat) (s : StateApx) (hi : i < 64) :
    merge_points (fuel + 1) i s =
      if s.count i = u32 (s.k + 2) then
        (i, s) :: (match merge_pair s i with
                   | .ok s1 => merge_points fuel (i + 1) s1
                   | .error _ => [])
      else [] := by
  rw [merge_points]
  simp only [get_count, hi, if_true]

theorem Mid.threshold {W k : Nat} {e : Int} {bits : List Bool} {i : Nat} {s : StateApx}
    {L F : List Nat} {E : Nat} (hm : Mid W k e bits i s L F E) : u32 (s.k + 2) = k + 2 := by
  rw [hm.core.par]; exact u32_small hm.par

/-- A state at a test of the merge loop that fails satisfies the invariant of
the states between two calls. -/
theorem Mid.inv {W k : Nat} {e : Int} {bits : List Bool} {i : Nat} {s : StateApx}
    {L F : List Nat} {E : Nat} (hm : Mid W k e bits i s L F E) (hcount : s.count i ≠ k + 2) :
    Inv W k e bits s := by
  refine ⟨L, F, E, hm.core, ?_, hm.window⟩
  refine hm.capped.bounded ?_
  rw [← hm.core.rep.cnt i hm.idx]; exact hcount

/-- Induction along the merge loop: a property `P` of the class index, the
state and its live list that every round preserves holds at every test of the
loop, the last one included. -/
theorem merge_loop_rec {W k : Nat} {e : Int} {bits : List Bool} {E : Nat} (hk1 : 1 ≤ k)
    (P : Nat → StateApx → List Nat → Prop)
    (hstep : ∀ (i : Nat) (s s1 : StateApx) (F A1 : List Nat) (y x : Nat) (B : List Nat),
      Mid W k e bits i s (A1 ++ y :: x :: B) F E → P i s (A1 ++ y :: x :: B) →
      s.count i = k + 2 → MergeRound i s s1 A1 y x B → P (i + 1) s1 (A1 ++ y :: B))
    (fuel i : Nat) (hfuel : 65 ≤ i + fuel) {s : StateApx} {L F : List Nat}
    (hm : Mid W k e bits i s L F E) (hP : P i s L) :
    (∃ j s1 L1 F1, merge_loop fuel i s = .ok s1 ∧ Mid W k e bits j s1 L1 F1 E ∧
      s1.count j ≠ k + 2 ∧ P j s1 L1) ∧
    ∀ q, q ∈ merge_points fuel i s →
      ∃ Lq Fq, Mid W k e bits q.1 q.2 Lq Fq E ∧ q.2.count q.1 = k + 2 ∧ P q.1 q.2 Lq := by
  induction fuel generalizing i s L F with
  | zero => have := hm.idx; omega
  | succ fuel ih =>
    have hi := hm.idx
    rw [merge_loop_step fuel i s hi, merge_points_step fuel i s hi, hm.threshold]
    by_cases hcount : s.count i = k + 2
    · obtain ⟨A1, y, x, B, s2, hL, hr, hm2⟩ := merge_round hk1 hm hcount
      subst hL
      have hP2 := hstep i s s2 F A1 y x B hm hP hcount hr
      obtain ⟨h1, h2⟩ := ih (i + 1) (by omega) hm2 hP2
      rw [if_pos hcount, if_pos hcount, hr.round]
      refine ⟨h1, fun q hq => ?_⟩
      rcases List.mem_cons.1 hq with rfl | hq
      · exact ⟨_, _, hm, hcount, hP⟩
      · exact h2 q hq
    · rw [if_neg hcount, if_neg hcount]
      exact ⟨⟨i, s, L, F, rfl, hm, hcount, hP⟩, fun q hq => by simp at hq⟩

/-! ## The phases of a call -/

theorem desc_same_stamp {bs : Nat → Bucket} {L1 D : List Nat} {t : Nat}
    (hdesc : (stamps ((L1 ++ D).map (pay bs))).Pairwise (fun a b => b < a))
    (hD : ∀ d, d ∈ D → (bs d).timestamp = t) : D.length ≤ 1 := by
  rw [stamps_pay] at hdesc
  have h1 := List.pairwise_map.1 hdesc
  have h2 := (List.pairwise_append.1 h1).2.1
  match D, hD, h2 with
  | [], _, _ => simp
  | [_], _, _ => simp
  | d1 :: d2 :: D2, hD, h2 =>
    have h3 := (List.pairwise_cons.1 h2).1 d2 (by simp)
    have h4 := hD d1 (by simp)
    have h5 := hD d2 (by simp)
    omega

/-- The expiry loop of a call on a state that satisfies the invariant: it
drops a tail segment `D` of the live list, of at most one bucket, whose
timestamp is `wnd_size` ticks old. -/
theorem expiry_detail {W k : Nat} {e : Int} {bits : List Bool} {s : StateApx}
    {L F : List Nat} {E : Nat} (hlen : bits.length + 1 < 18446744073709551616)
    (hc : Core W k e bits bits.length s L F E) (hb : Bounded k (L.map (pay s.buckets)))
    (hw : InWindow W bits.length (L.map (pay s.buckets))) :
    ∃ s1 L1 D F1 E1, after_expiry s = .ok s1 ∧
      Core W k e bits (bits.length + 1) s1 L1 F1 E1 ∧
      Bounded k (L1.map (pay s1.buckets)) ∧
      InWindow W (bits.length + 1) (L1.map (pay s1.buckets)) ∧
      L = L1 ++ D ∧ L1.map (pay s1.buckets) = L1.map (pay s.buckets) ∧
      (∀ d, d ∈ D → (s.buckets d).timestamp + W = bits.length + 1) ∧ D.length ≤ 1 ∧
      s1.N_MERGES = s.N_MERGES ∧ s1.max_buckets = s.max_buckets := by
  have hclock : u64 (s.current_time + 1) = bits.length + 1 := by
    rw [hc.clock]; exact u64_small hlen
  have hc0 : Core W k e bits (bits.length + 1)
      { s with current_time := u64 (s.current_time + 1) } L F E :=
    { wnd := hc.wnd
      par := hc.par
      clock := hclock
      cap := hc.cap
      rep := hc.rep.rep_tick _
      good := hc.good.good_tick hw
      dom := hc.dom }
  have hLlen : L.length < s.max_buckets + 1 := by
    have := nodup_length_le (List.nodup_append.1 hc.rep.nodup).1 (DL_mem_lt hc.rep.live)
    omega
  obtain ⟨s1, L1, D, F1, E1, h1, h2, h3, h4, h5, h6, h7, h8, h9⟩ :=
    expire_loop_core (by omega) (by omega) (s.max_buckets + 1) hc0 hb hLlen
  have hD : ∀ d, d ∈ D → (s.buckets d).timestamp + W = bits.length + 1 := by
    intro d hd
    have h10 : (s.buckets d).timestamp + W ≤ bits.length + 1 := h7 d hd
    have h11 : bits.length < (pay s.buckets d).1 + W :=
      hw _ (List.mem_map.2 ⟨d, by rw [h5]; exact List.mem_append_right _ hd, rfl⟩)
    have h12 : (pay s.buckets d).1 = (s.buckets d).timestamp := rfl
    omega
  refine ⟨s1, L1, D, F1, E1, h1, h2, h3, h4, h5, h6, hD, ?_, h8, h9⟩
  have hdesc := hc.good.desc
  rw [h5] at hdesc
  exact desc_same_stamp (t := bits.length + 1 - W) hdesc (fun d hd => by
    have := hD d hd; omega)

/-- The admission of a 1-bit after the expiry loop, with a free slot at hand:
the new bucket heads the list and the state is ready for the merge loop. -/
theorem admit_core {W k : Nat} {e : Int} {bits : List Bool} {s1 : StateApx}
    {L1 F1 : List Nat} {f E1 : Nat} (hW : 1 ≤ W) (hk : k + 2 < 4294967296)
    (hlen : bits.length + 1 < 18446744073709551616)
    (hc : Core W k e bits (bits.length + 1) s1 L1 (f :: F1) E1)
    (hb : Bounded k (L1.map (pay s1.buckets)))
    (hw : InWindow W (bits.length + 1) (L1.map (pay s1.buckets))) :
    ∃ s2, admit_bucket s1 = .ok s2 ∧ Mid W k e (bits ++ [true]) 0 s2 (f :: L1) F1 E1 ∧
      (f :: L1).map (pay s2.buckets) = (bits.length + 1, 1) :: L1.map (pay s1.buckets) ∧
      s2.N_MERGES = s1.N_MERGES := by
  have hsum : s1.total_sum + 1 < 18446744073709551616 := by
    rw [hc.rep.sum]; have := hc.good.sum_le; omega
  obtain ⟨s2, had, hrep2, hpay2, hfr2, hnm⟩ := admit_bucket_rep hc.rep hsum
  rw [hc.clock] at hpay2
  have hlen2 : (bits ++ [true]).length = bits.length + 1 := by simp
  have hgood2 : Good W k (bits ++ [true]) (bits.length + 1) E1
      ((f :: L1).map (pay s2.buckets)) := by
    rw [hpay2]; exact hc.good.good_admission
  have hcap2 : Capped k 0 ((f :: L1).map (pay s2.buckets)) := by
    rw [hpay2]; exact Capped.capped_admission _ hb
  have hw2 : InWindow W (bits.length + 1) ((f :: L1).map (pay s2.buckets)) := by
    rw [hpay2]
    intro a ha
    rcases List.mem_cons.1 ha with rfl | ha
    · show bits.length + 1 < bits.length + 1 + W
      omega
    · exact hw a ha
  have hc2 : Core W k e (bits ++ [true]) (bits ++ [true]).length s2 (f :: L1) F1 E1 := by
    rw [hlen2]
    exact
      { wnd := by rw [hfr2.1, hc.wnd]
        par := by rw [hfr2.2.1, hc.par]
        clock := by rw [hfr2.2.2.1, hc.clock]
        cap := by rw [hfr2.2.2.2, hc.cap]
        rep := hrep2
        good := hgood2
        dom := Or.inl hk }
  refine ⟨s2, had, ?_, hpay2, hnm⟩
  exact
    { core := hc2
      capped := hcap2
      window := by rw [hlen2]; exact hw2
      par := hk
      len := by rw [hlen2]; exact hlen
      idx := by norm_num }

/-- The phases of a call that returns, on a state that satisfies the
invariant: the expiry loop, and for a 1-bit the admission and the merge loop. -/
theorem call_detail {W k : Nat} {e : Int} {bits : List Bool} {s : StateApx}
    {L F : List Nat} {E : Nat} (hW : 1 ≤ W) (hk32 : k < 4294967296)
    (hlen : bits.length + 1 < 18446744073709551616)
    (hc : Core W k e bits bits.length s L F E) (hb : Bounded k (L.map (pay s.buckets)))
    (hw : InWindow W bits.length (L.map (pay s.buckets))) (item : Bool) (s3 : StateApx)
    (hadv : advance_state s item = .ok s3) :
    ∃ s1 L1 D F1 E1, after_expiry s = .ok s1 ∧
      Core W k e bits (bits.length + 1) s1 L1 F1 E1 ∧
      Bounded k (L1.map (pay s1.buckets)) ∧
      InWindow W (bits.length + 1) (L1.map (pay s1.buckets)) ∧
      L = L1 ++ D ∧ L1.map (pay s1.buckets) = L1.map (pay s.buckets) ∧
      (∀ d, d ∈ D → (s.buckets d).timestamp + W = bits.length + 1) ∧ D.length ≤ 1 ∧
      s1.N_MERGES = s.N_MERGES ∧
      ((item = false ∧ s3 = s1) ∨
        (item = true ∧ k + 2 < 4294967296 ∧ ∃ f F2 s2, F1 = f :: F2 ∧
          admit_bucket s1 = .ok s2 ∧ Mid W k e (bits ++ [true]) 0 s2 (f :: L1) F2 E1 ∧
          (f :: L1).map (pay s2.buckets) = (bits.length + 1, 1) :: L1.map (pay s1.buckets) ∧
          s2.N_MERGES = s1.N_MERGES ∧ merge_loop 65 0 s2 = .ok s3)) := by
  obtain ⟨s1, L1, D, F1, E1, h1, h2, h3, h4, h5, h6, h7, h8, h9, _⟩ :=
    expiry_detail hlen hc hb hw
  refine ⟨s1, L1, D, F1, E1, h1, h2, h3, h4, h5, h6, h7, h8, h9, ?_⟩
  have hex : expire_loop (s.max_buckets + 1) { s with current_time := u64 (s.current_time + 1) } =
      .ok s1 := h1
  rw [advance_state_eq, hex, ok_bind] at hadv
  cases item with
  | false =>
    left
    simp only [Bool.false_eq_true, if_false] at hadv
    injection hadv with hadv
    exact ⟨rfl, hadv.symm⟩
  | true =>
    right
    simp only [if_true] at hadv
    by_cases hk : k + 2 < 4294967296
    · cases F1 with
      | nil =>
        have hfh := (FL_nil _ _).1 h2.rep.free
        rw [admit_bucket_empty s1 e hfh h2.rep.term] at hadv
        cases hadv
      | cons f F2 =>
        obtain ⟨s2, had, hmid, hpay, hnm⟩ := admit_core hW hk hlen h2 h3 h4
        rw [had, ok_bind] at hadv
        exact ⟨rfl, hk, f, F2, s2, rfl, had, hmid, hpay, hnm, hadv⟩
    · have hL1 : L1 = [] := by
        rcases h2.dom with h | h
        · exact absurd h hk
        · exact h
      subst hL1
      obtain ⟨err, herr⟩ := admit_wrapped hk32 (by omega) h2
      rw [herr] at hadv
      cases hadv

/-! ## Runs, call by call -/

/-- The last call of a run that returns. -/
theorem run_last {mem : Nat → Bucket} {merges W k : Nat} {bits : List Bool} {b : Bool}
    {s : StateApx} {outs : List Nat}
    (h : run mem merges W k (bits ++ [b]) = .ok (s, outs)) :
    ∃ s0 outs0 r, run mem merges W k bits = .ok (s0, outs0) ∧
      wnd_bit_count_apx_next s0 b = .ok (s, r) ∧ outs = outs0 ++ [r] ∧
      advance_state s0 b = .ok s ∧ answer s = .ok r := by
  rw [run_snoc] at h
  cases hr : run mem merges W k bits with
  | error err => rw [hr, feed_error] at h; cases h
  | ok p =>
    obtain ⟨s0, outs0⟩ := p
    rw [hr, feed_ok] at h
    cases hn : wnd_bit_count_apx_next s0 b with
    | error err => rw [hn] at h; cases h
    | ok q =>
      obtain ⟨s1, r⟩ := q
      rw [hn, ok_bind] at h
      injection h with h
      injection h with h1 h2
      have h1 : s1 = s := h1
      have h2 : outs0 ++ [r] = outs := h2
      subst h1
      refine ⟨s0, outs0, r, rfl, hn, h2.symm, ?_⟩
      rw [next_eq] at hn
      cases ha : advance_state s0 b with
      | error err => rw [ha] at hn; cases hn
      | ok s2 =>
        rw [ha, ok_bind] at hn
        cases hb : answer s2 with
        | error err => rw [hb] at hn; cases hn
        | ok r2 =>
          rw [hb, ok_bind] at hn
          injection hn with hn
          injection hn with h3 h4
          subst h3 h4
          exact ⟨rfl, hb⟩

/-- Induction along a run: a property `Q` of the stream, the state and the
returned values that holds after construction and that every call preserves
holds after every run that returns. -/
theorem run_rec (mem : Nat → Bucket) (merges W k : Nat)
    (hW : 1 ≤ W) (hW32 : W < 4294967296) (hk : 1 ≤ k) (hk32 : k < 4294967296)
    (Q : List Bool → StateApx → List Nat → Prop)
    (h0 : ∀ s, Inv W k (free_end W k) [] s → s.N_MERGES = merges → Q [] s [])
    (hstep : ∀ (bits : List Bool) (b : Bool) (s : StateApx) (outs : List Nat) (s1 : StateApx)
      (r : Nat), bits.length + 1 < 18446744073709551616 → Inv W k (free_end W k) bits s →
      Q bits s outs → advance_state s b = .ok s1 → answer s1 = .ok r →
      Inv W k (free_end W k) (bits ++ [b]) s1 → Q (bits ++ [b]) s1 (outs ++ [r]))
    (bits : List Bool) (hlen : bits.length < 18446744073709551616) :
    (∃ s outs, run mem merges W k bits = .ok (s, outs) ∧ Inv W k (free_end W k) bits s ∧
      Q bits s outs) ∨
    ((∃ err, run mem merges W k bits = .error err) ∧ ¬ Safe W k) := by
  induction bits using List.reverseRecOn with
  | nil =>
    left
    obtain ⟨s, memory, h1, h2, _, h3, _⟩ := new_inv mem merges W k hW hk
    refine ⟨s, [], ?_, h2, h0 s h2 h3⟩
    unfold run; rw [List.foldl_nil, h1]; rfl
  | append_singleton bits b ih =>
    have hlen0 : bits.length + 1 < 18446744073709551616 := by simpa using hlen
    rcases ih (by omega) with ⟨s, outs, h1, h2, h3⟩ | ⟨⟨err, h1⟩, h2⟩
    · rcases next_core hW hW32 hk hk32 hlen0 h2 b with ⟨s1, r, h5, h6, h7⟩ | ⟨_, ⟨err, h5⟩, h6⟩
      · left
        have hrun : run mem merges W k (bits ++ [b]) = .ok (s1, outs ++ [r]) := by
          rw [run_snoc, h1, feed_ok, h5]; rfl
        obtain ⟨s0, outs0, r0, h8, _, _, h9, h10⟩ := run_last hrun
        rw [h1] at h8
        injection h8 with h8
        injection h8 with h11 h12
        subst h11
        exact ⟨s1, outs ++ [r], hrun, h6, hstep bits b s outs s1 r hlen0 h2 h3 h9 h7 h6⟩
      · right
        exact ⟨⟨err, by rw [run_snoc, h1, feed_ok, h5]; rfl⟩, h6⟩
    · right
      exact ⟨⟨err, by rw [run_snoc, h1, feed_error]⟩, h2⟩

/-- The property of `run_rec` for a run that is known to return. -/
theorem run_ok_rec {mem : Nat → Bucket} {merges W k : Nat}
    (hW : 1 ≤ W) (hW32 : W < 4294967296) (hk : 1 ≤ k) (hk32 : k < 4294967296)
    (Q : List Bool → StateApx → List Nat → Prop)
    (h0 : ∀ s, Inv W k (free_end W k) [] s → s.N_MERGES = merges → Q [] s [])
    (hstep : ∀ (bits : List Bool) (b : Bool) (s : StateApx) (outs : List Nat) (s1 : StateApx)
      (r : Nat), bits.length + 1 < 18446744073709551616 → Inv W k (free_end W k) bits s →
      Q bits s outs → advance_state s b = .ok s1 → answer s1 = .ok r →
      Inv W k (free_end W k) (bits ++ [b]) s1 → Q (bits ++ [b]) s1 (outs ++ [r]))
    {bits : List Bool} (hlen : bits.length < 18446744073709551616) {s : StateApx}
    {outs : List Nat} (hrun : run mem merges W k bits = .ok (s, outs)) : Q bits s outs := by
  rcases run_rec mem merges W k hW hW32 hk hk32 Q h0 hstep bits hlen with
    ⟨s1, outs1, h1, _, h2⟩ | ⟨⟨err, h1⟩, _⟩
  · rw [hrun] at h1
    injection h1 with h1
    injection h1 with h3 h4
    subst h3 h4
    exact h2
  · rw [hrun] at h1
    cases h1

/-- The walk along `next` from the head of a chain finds the chain, when the
link that ends it is no slot. -/
theorem walk_free_eq {s : StateApx} {F : List Nat} {h e : Int} (fuel : Nat)
    (hf : FL s.buckets s.max_buckets h F e) (he : ¬ (0 ≤ e ∧ e < (s.max_buckets : Int)))
    (hl : F.length ≤ fuel) : walk s fuel h = F := by
  induction F generalizing h fuel with
  | nil =>
    have h1 := (FL_nil _ _).1 hf
    subst h1
    cases fuel <;> simp [walk, he]
  | cons x xs ih =>
    obtain ⟨h1, h2, h4⟩ := (FL_cons _ _ _ _).1 hf
    subst h1
    cases fuel with
    | zero => simp at hl
    | succ f =>
      simp only [List.length_cons, Nat.add_le_add_iff_right] at hl
      simp [walk, h2, ih f h4 hl]

/-- A duplicate-free list of `n` numbers below `n` holds every number below `n`. -/
theorem nodup_full {L : List Nat} {n : Nat} (hn : L.Nodup) (hl : ∀ x, x ∈ L → x < n)
    (hlen : L.length = n) : ∀ x, x < n → x ∈ L := by
  have h1 : L.toFinset ⊆ Finset.range n := by
    intro x hx
    simp only [List.mem_toFinset] at hx
    simpa using hl x hx
  have h2 : L.toFinset.card = n := by
    rw [List.toFinset_card_of_nodup hn, hlen]
  have h3 : L.toFinset = Finset.range n :=
    Finset.eq_of_subset_of_card_le h1 (by rw [h2, Finset.card_range])
  intro x hx
  have : x ∈ L.toFinset := by rw [h3]; simpa using hx
  simpa using this

/-! ## Slots -/

/-- The free list of a state that satisfies the invariant is what the walk from
`free_head` finds. -/
theorem Core.free_slots {W k : Nat} {e : Int} {bits : List Bool} {now : Nat} {s : StateApx}
    {L F : List Nat} {E : Nat} (hc : Core W k e bits now s L F E) :
    WindowBitCountApx.free_slots s = F := by
  unfold WindowBitCountApx.free_slots
  refine walk_free_eq s.max_buckets hc.rep.free hc.rep.term ?_
  exact nodup_length_le (List.Nodup.of_append_right hc.rep.nodup) (FL_mem_lt hc.rep.free)

/-- On parameters for which the constructor does not wrap, the live list and the
free list of every reachable state are duplicate-free chains that share no slot
and together hold every slot of the arena. -/
theorem slot_partition_safe (mem : Nat → Bucket) (merges W k : Nat) (bits : List Bool)
    (s : StateApx) (outs : List Nat)
    (hW : 1 ≤ W) (hW32 : W < 4294967296) (hk : 1 ≤ k) (hk32 : k < 4294967296)
    (hlen : bits.length < 18446744073709551616) (hs : Safe W k)
    (hrun : run mem merges W k bits = .ok (s, outs)) :
    DL s.buckets s.max_buckets (-1) s.head (live_slots s) s.tail (-1) ∧
    FL s.buckets s.max_buckets s.free_head (free_slots s) (-1) ∧
    (live_slots s ++ free_slots s).Nodup ∧
    ∀ x, x < s.max_buckets ↔ (x ∈ live_slots s ∨ x ∈ free_slots s) := by
  obtain ⟨L, F, E, hc, _, _⟩ := run_ok_inv hW hW32 hk hk32 hlen hrun
  have he := free_end_safe hW hW32 hs
  have hfree := hc.rep.free
  have hfull := hc.rep.full he
  rw [he] at hfree
  rw [hc.live_slots, hc.free_slots]
  refine ⟨hc.rep.live, hfree, hc.rep.nodup, fun x => ⟨fun hx => ?_, fun hx => ?_⟩⟩
  · have hall : ∀ z, z ∈ L ++ F → z < s.max_buckets := by
      intro z hz
      rcases List.mem_append.1 hz with hz | hz
      · exact DL_mem_lt hc.rep.live z hz
      · exact FL_mem_lt hc.rep.free z hz
    exact List.mem_append.1
      (nodup_full hc.rep.nodup hall (by rw [List.length_append]; exact hfull) x hx)
  · rcases hx with hx | hx
    · exact DL_mem_lt hc.rep.live x hx
    · exact FL_mem_lt hc.rep.free x hx

/-- The slots that the constructor threads onto the free list: all of them when
their numbers fit `int32_t`, and the first `2^31` otherwise. -/
theorem new_free_slots (mem : Nat → Bucket) (merges W k : Nat) (hW : 1 ≤ W) (hk : 1 ≤ k) :
    free_slots (state_of (wnd_bit_count_apx_new mem merges W k)) =
      List.range' 0 (min (capacity W k) 2147483648) := by
  obtain ⟨s, memory, h1, ⟨L, F, E, hc, _, _⟩, hmax, _, _, hfh, hbs⟩ :=
    new_inv mem merges W k hW hk
  have hst : state_of (wnd_bit_count_apx_new mem merges W k) = s := by rw [h1]; rfl
  rw [hst]
  unfold free_slots
  have hch := new_free_chain mem W k
  rw [← hbs, ← hmax] at hch
  rw [hfh, ← hmax]
  refine walk_free_eq _ hch hc.rep.term ?_
  simp only [List.length_range']
  exact Nat.min_le_left _ _

/-- The slot in `tail` is on the live list. -/
theorem Core.tail_mem {W k : Nat} {e : Int} {bits : List Bool} {now : Nat} {s : StateApx}
    {L F : List Nat} {E : Nat} (hc : Core W k e bits now s L F E) {x : Nat}
    (ht : s.tail = (x : Int)) : ∃ A, L = A ++ [x] := by
  rcases DL_tail hc.rep.live with ⟨_, _, h3⟩ | ⟨A, x1, hA, h3⟩
  · rw [ht] at h3
    have : (0 : Int) ≤ (x : Int) := Int.ofNat_nonneg x
    omega
  · rw [ht] at h3
    have : x = x1 := by exact_mod_cast h3
    subst this
    exact ⟨A, hA⟩

/-! ## Construction, the estimate and the expiry loop -/

/-- C11: Construction validation. The constructor fails, at an assertion, if and
only if `wnd_size < 1` or `k < 1` (the model has no allocation failure); when it
succeeds the stored `wnd_size` and `k` are the arguments, `current_time` and
`total_sum` are 0, the bucket list is empty (`head = tail = -1`), every
`count[i]` is 0 and every `last_of_size[i]` is `-1`. -/
theorem construction_validation (mem : Nat → Bucket) (merges W k : Nat) :
    (wnd_bit_count_apx_new mem merges W k = .error .assertion ↔ (W < 1 ∨ k < 1)) ∧
    (is_ok (wnd_bit_count_apx_new mem merges W k) = false ↔ (W < 1 ∨ k < 1)) ∧
    ∀ s memory, wnd_bit_count_apx_new mem merges W k = .ok (s, memory) →
      s.wnd_size = W ∧ s.k = k ∧ s.current_time = 0 ∧ s.total_sum = 0 ∧
      s.head = -1 ∧ s.tail = -1 ∧ live s = [] ∧
      ∀ i, s.count i = 0 ∧ s.last_of_size i = -1 := by
  by_cases hW : 1 ≤ W
  · by_cases hk : 1 ≤ k
    · have h : wnd_bit_count_apx_new mem merges W k = .ok
          ({ wnd_size := W
             k := k
             current_time := 0
             total_sum := 0
             last_of_size := fun _ => -1
             count := fun _ => 0
             max_buckets := capacity W k
             buckets := link_free_slots (capacity W k) (capacity W k) mem
             head := -1
             tail := -1
             free_head := 0
             N_MERGES := merges }, u64 (capacity W k * sizeof_Bucket)) := by
        unfold wnd_bit_count_apx_new; simp [hW, hk]
      rw [h]
      refine ⟨⟨fun h1 => (by cases h1), fun h1 => (by omega)⟩,
        ⟨fun h1 => (by simp [is_ok] at h1), fun h1 => (by omega)⟩, ?_⟩
      intro s memory hs
      injection hs with hs
      injection hs with hs _
      subst hs
      refine ⟨rfl, rfl, rfl, rfl, rfl, rfl, ?_, fun i => ⟨rfl, rfl⟩⟩
      unfold live live_slots
      cases capacity W k <;> simp [walk]
    · have h : wnd_bit_count_apx_new mem merges W k = .error .assertion := by
        unfold wnd_bit_count_apx_new; simp [hW, hk]
      rw [h]
      exact ⟨⟨fun _ => Or.inr (by omega), fun _ => rfl⟩,
        ⟨fun _ => Or.inr (by omega), fun _ => rfl⟩, fun s memory hs => by cases hs⟩
  · have h : wnd_bit_count_apx_new mem merges W k = .error .assertion := by
      unfold wnd_bit_count_apx_new; simp [hW]
    rw [h]
    exact ⟨⟨fun _ => Or.inl (by omega), fun _ => rfl⟩,
      ⟨fun _ => Or.inl (by omega), fun _ => rfl⟩, fun s memory hs => by cases hs⟩

/-- C2: Answer formula. For every reachable state and every bit, a call of
`wnd_bit_count_apx_next` returns 0 when the bucket list is empty after its
expiry, admission and merge steps (`tail == -1`), and otherwise returns
`total_sum - buckets[tail].size + 1`, computed on the state `s1` after those
steps; there the size is at most `total_sum`, and neither the subtraction nor
the conversion to `uint32_t` wraps. -/
theorem answer_formula (mem : Nat → Bucket) (merges W k : Nat) (bits : List Bool)
    (s : StateApx) (outs : List Nat) (item : Bool) (s1 : StateApx) (r : Nat)
    (hW : 1 ≤ W) (hW32 : W < 4294967296) (hk : 1 ≤ k) (hk32 : k < 4294967296)
    (hlen : bits.length + 1 < 18446744073709551616)
    (hrun : run mem merges W k bits = .ok (s, outs))
    (hcall : wnd_bit_count_apx_next s item = .ok (s1, r)) :
    advance_state s item = .ok s1 ∧ (s1.tail = -1 ↔ live s1 = []) ∧
    (s1.tail = -1 → r = 0) ∧
    (s1.tail ≠ -1 → ∃ x : Nat, s1.tail = (x : Int) ∧ x ∈ live_slots s1 ∧
      (s1.buckets x).size ≤ s1.total_sum ∧
      r = s1.total_sum - (s1.buckets x).size + 1) := by
  have hrun1 : run mem merges W k (bits ++ [item]) = .ok (s1, outs ++ [r]) := by
    rw [run_snoc, hrun, feed_ok, hcall]; rfl
  have hl : (bits ++ [item]).length < 18446744073709551616 := by simpa using hlen
  obtain ⟨L, F, E, hc, _, hw⟩ := run_ok_inv hW hW32 hk hk32 hl hrun1
  obtain ⟨s0, outs0, r0, h1, _, houts, hadv, hans⟩ := run_last hrun1
  rw [hrun] at h1
  injection h1 with h1
  injection h1 with h1 h2
  subst h1 h2
  have hr0 : r0 = r := by
    have := List.append_inj' houts rfl
    simpa using this.2.symm
  subst hr0
  obtain ⟨r1, hr1, _, _, _, hcase⟩ := answer_core hk hW32 hl hc hw
  rw [hans] at hr1
  injection hr1 with hr1
  subst hr1
  have hlive : live s1 = L.map s1.buckets := by unfold live; rw [hc.live_slots]
  have hiff : s1.tail = -1 ↔ live s1 = [] := by
    rw [hlive]
    rcases DL_tail hc.rep.live with ⟨hnil, _, ht⟩ | ⟨A, x, hA, ht⟩
    · rw [hnil]
      exact ⟨fun _ => rfl, fun _ => ht⟩
    · rw [hA, ht]
      constructor
      · intro h
        have : (0 : Int) ≤ (x : Int) := Int.ofNat_nonneg x
        omega
      · intro h
        simp at h
  refine ⟨hadv, hiff, fun ht => ?_, fun hne => ?_⟩
  · rcases hcase with ⟨_, h0⟩ | ⟨x, hx, _⟩
    · exact h0
    · rw [hx] at ht
      have : (0 : Int) ≤ (x : Int) := Int.ofNat_nonneg x
      omega
  · rcases hcase with ⟨ht, _⟩ | ⟨x, ht, _, hsum, _⟩
    · exact absurd ht hne
    · obtain ⟨A, hA⟩ := hc.tail_mem ht
      have hxL : x ∈ L := by rw [hA]; simp
      have hle : (s1.buckets x).size ≤ s1.total_sum := by
        rw [hc.rep.sum, sizes_pay]
        exact List.le_sum_of_mem (List.mem_map.2 ⟨x, hxL, rfl⟩)
      exact ⟨x, ht, by rw [hc.live_slots]; exact hxL, hle, by omega⟩

/-- Witness of C2: window 3, `k = 1`; the second of two calls with a 1-bit ends
with two buckets of size 1, the older one in slot 0, and returns
`2 - 1 + 1 = 2`. -/
theorem answer_formula_witness :
    (after_two.tail = 0 ∧ after_two.total_sum = 2 ∧ (after_two.buckets 0).size = 1 ∧
      value_of (wnd_bit_count_apx_next after_one true) = 2) ∧
    (advance_state after_one true = .ok after_two ∧
    (after_two.tail = -1 ↔ live after_two = []) ∧
    (after_two.tail = -1 → 2 = 0) ∧
    (after_two.tail ≠ -1 → ∃ x : Nat, after_two.tail = (x : Int) ∧
      x ∈ live_slots after_two ∧ (after_two.buckets x).size ≤ after_two.total_sum ∧
      2 = after_two.total_sum - (after_two.buckets x).size + 1)) :=
  ⟨by decide!,
    answer_formula blank 0 3 1 [true] after_one _ true after_two 2 (by decide) (by decide)
      (by decide) (by decide) (by decide) (ok_eta_run _ (by decide!))
      (ok_eta_next _ 2 (by decide!) (by decide!))⟩

/-- C14 fails as stated: after one 1-bit (window 3, `k = 1`) the only bucket has
size 1 and the call returns 1, where `total_sum - tail.size + tail.size / 2` is
`1 - 1 + 0 = 0`. -/
theorem half_size_counterexample :
    outs_of (run blank 0 3 1 [true]) = [1] ∧ after_one.tail = 0 ∧ after_one.total_sum = 1 ∧
    (after_one.buckets 0).size = 1 ∧
    after_one.total_sum - (after_one.buckets 0).size + (after_one.buckets 0).size / 2 = 0 := by
  decide!

/-- C14 (amended): Contribution of the oldest bucket. In every reachable state
in which the bucket list is non-empty after a call, the returned estimate is
`total_sum - tail.size + 1`: every live bucket but the oldest contributes its
size and the oldest, whose size is a power of two, contributes exactly 1. This
is `total_sum - tail.size + tail.size / 2` exactly when `tail.size = 2`. -/
theorem oldest_contribution (mem : Nat → Bucket) (merges W k : Nat) (bits : List Bool)
    (b : Bool) (s : StateApx) (outs : List Nat)
    (hW : 1 ≤ W) (hW32 : W < 4294967296) (hk : 1 ≤ k) (hk32 : k < 4294967296)
    (hlen : bits.length + 1 < 18446744073709551616)
    (hrun : run mem merges W k (bits ++ [b]) = .ok (s, outs)) (hne : s.tail ≠ -1) :
    ∃ (x r i : Nat), s.tail = (x : Int) ∧ x ∈ live_slots s ∧ outs.getLast? = some r ∧
      (s.buckets x).size = 2 ^ i ∧ (s.buckets x).size ≤ s.total_sum ∧
      r = s.total_sum - (s.buckets x).size + 1 ∧
      (r = s.total_sum - (s.buckets x).size + (s.buckets x).size / 2 ↔
        (s.buckets x).size = 2) := by
  have hl : (bits ++ [b]).length < 18446744073709551616 := by simpa using hlen
  obtain ⟨L, F, E, hc, _, hw⟩ := run_ok_inv hW hW32 hk hk32 hl hrun
  obtain ⟨s0, outs0, r, _, _, houts, _, hans⟩ := run_last hrun
  obtain ⟨r1, hr1, _, _, _, hcase⟩ := answer_core hk hW32 hl hc hw
  rw [hans] at hr1
  injection hr1 with hr1
  subst hr1
  rcases hcase with ⟨ht, _⟩ | ⟨x, ht, hx, hsum, _⟩
  · exact absurd ht hne
  · have hxL : x ∈ L := by
      rcases DL_tail hc.rep.live with ⟨_, _, h1⟩ | ⟨A, x1, hA, h1⟩
      · exact absurd h1 hne
      · rw [ht] at h1
        have : x = x1 := by exact_mod_cast h1
        subst this
        rw [hA]; simp
    have hm : pay s.buckets x ∈ L.map (pay s.buckets) := List.mem_map.2 ⟨x, hxL, rfl⟩
    obtain ⟨i, hi⟩ := hc.good.pow _ hm
    have hi : (s.buckets x).size = 2 ^ i := hi
    have hpos : 0 < (s.buckets x).size := hc.good.size_pos _ hm
    have hle : (s.buckets x).size ≤ s.total_sum := by
      rw [hc.rep.sum, sizes_pay]
      exact List.le_sum_of_mem (List.mem_map.2 ⟨x, hxL, rfl⟩)
    refine ⟨x, r, i, ht, by rw [hc.live_slots]; exact hxL, by rw [houts]; simp, hi,
      by omega, by omega, ?_⟩
    constructor
    · intro h
      have h2 : (s.buckets x).size / 2 = 1 := by omega
      match i, hi with
      | 0, hi => rw [hi] at h2; simp at h2
      | 1, hi => rw [hi]; rfl
      | j + 2, hi =>
        have h3 : 4 ≤ (s.buckets x).size := by
          rw [hi, pow_add]
          have := pow_two_pos j
          omega
        omega
    · intro h
      rw [h] at hsum ⊢
      omega

/-- Witness of C14 (amended): window 3, `k = 1`, three 1-bits leave the buckets
of size 1 (tick 3) and size 2 (tick 2, in slot 1), and the call returns
`3 - 2 + 1 = 2`. -/
theorem oldest_contribution_witness :
    (after_three.tail = 1 ∧ after_three.total_sum = 3 ∧ (after_three.buckets 1).size = 2 ∧
      outs_of (run blank 0 3 1 [true, true, true]) = [1, 2, 2]) ∧
    ∃ (x r i : Nat), after_three.tail = (x : Int) ∧ x ∈ live_slots after_three ∧
      (outs_of (run blank 0 3 1 ([true, true] ++ [true]))).getLast? = some r ∧
      (after_three.buckets x).size = 2 ^ i ∧
      (after_three.buckets x).size ≤ after_three.total_sum ∧
      r = after_three.total_sum - (after_three.buckets x).size + 1 ∧
      (r = after_three.total_sum - (after_three.buckets x).size +
          (after_three.buckets x).size / 2 ↔ (after_three.buckets x).size = 2) :=
  ⟨by decide!,
    oldest_contribution blank 0 3 1 [true, true] true after_three _ (by decide) (by decide)
      (by decide) (by decide) (by decide) (ok_eta_run _ (by decide!)) (by decide!)⟩

/-- C16 fails on the code: for `wnd_size = 2^31` and `k = 67108863` the
constructor allocates `2^31 + 1` slots, and the link stored in slot `2^31 - 1`,
converted to `int32_t`, is negative: the free list holds the slots
`0 .. 2^31 - 1` only, and slot `2^31` is on neither list. For `wnd_size = 1` and
`k = 2^32 - 2` there is no slot at all and `free_head` is 0. -/
theorem slot_partition_overflow :
    ((state_of (wnd_bit_count_apx_new blank 0 2147483648 67108863)).max_buckets = 2147483649 ∧
      live_slots (state_of (wnd_bit_count_apx_new blank 0 2147483648 67108863)) = [] ∧
      free_slots (state_of (wnd_bit_count_apx_new blank 0 2147483648 67108863)) =
        List.range' 0 2147483648 ∧
      2147483648 ∉ free_slots (state_of (wnd_bit_count_apx_new blank 0 2147483648 67108863))) ∧
    ((state_of (wnd_bit_count_apx_new blank 0 1 4294967294)).max_buckets = 0 ∧
      (state_of (wnd_bit_count_apx_new blank 0 1 4294967294)).free_head = 0) := by
  have hcap : capacity 2147483648 67108863 = 2147483649 := by decide!
  have hfree := new_free_slots blank 0 2147483648 67108863 (by decide) (by decide)
  rw [hcap] at hfree
  have hmin : min 2147483649 2147483648 = 2147483648 := by decide
  rw [hmin] at hfree
  refine ⟨⟨by decide!, by decide!, hfree, ?_⟩, by decide!⟩
  rw [hfree]
  simp [List.mem_range']

/-- C20: At most one expiry per call. In every reachable state, the expiry loop
of the next call removes from the live list exactly the buckets whose timestamp
is `current_time - wnd_size` for the new `current_time`, and there is at most
one of them. -/
theorem single_expiry (mem : Nat → Bucket) (merges W k : Nat) (bits : List Bool)
    (s : StateApx) (outs : List Nat)
    (hW : 1 ≤ W) (hW32 : W < 4294967296) (hk : 1 ≤ k) (hk32 : k < 4294967296)
    (hlen : bits.length + 1 < 18446744073709551616)
    (hrun : run mem merges W k bits = .ok (s, outs)) :
    ∃ s1, after_expiry s = .ok s1 ∧ s1.current_time = s.current_time + 1 ∧
      live_pairs s = live_pairs s1 ++
        (live_pairs s).filter (fun a => decide (a.1 + s.wnd_size = s.current_time + 1)) ∧
      ((live_pairs s).filter
        (fun a => decide (a.1 + s.wnd_size = s.current_time + 1))).length ≤ 1 := by
  obtain ⟨L, F, E, hc, hb, hw⟩ := run_ok_inv hW hW32 hk hk32 (by omega) hrun
  obtain ⟨s1, L1, D, F1, E1, h1, h2, _, h4, h5, h6, h7, h8, _, _⟩ :=
    expiry_detail hlen hc hb hw
  have hfl : (live_pairs s).filter (fun a => decide (a.1 + s.wnd_size = s.current_time + 1)) =
      D.map (pay s.buckets) := by
    rw [hc.live_pay, h5, List.map_append, List.filter_append, hc.wnd, hc.clock]
    have e1 : (L1.map (pay s.buckets)).filter
        (fun a => decide (a.1 + W = bits.length + 1)) = [] := by
      rw [List.filter_eq_nil_iff]
      intro a ha
      rw [← h6] at ha
      have := h4 a ha
      simp only [decide_eq_true_eq]
      omega
    have e2 : (D.map (pay s.buckets)).filter
        (fun a => decide (a.1 + W = bits.length + 1)) = D.map (pay s.buckets) := by
      rw [List.filter_eq_self]
      intro a ha
      obtain ⟨d, hd, rfl⟩ := List.mem_map.1 ha
      simp only [decide_eq_true_eq]
      exact h7 d hd
    rw [e1, e2, List.nil_append]
  refine ⟨s1, h1, by rw [h2.clock, hc.clock], ?_, ?_⟩
  · rw [hfl, h2.live_pay, h6, hc.live_pay, h5, List.map_append]
  · rw [hfl, List.length_map]; exact h8

/-- Witness of C20: window 3, `k = 1`, bits 1, 1, 0: the buckets of ticks 2 and
1 are live, and the expiry loop of the call at tick 4 removes the bucket of
tick 1 and nothing else. -/
theorem single_expiry_witness :
    (live_pairs (state_of (run blank 0 3 1 [true, true, false])) = [(2, 1), (1, 1)] ∧
      (live_pairs (state_of (run blank 0 3 1 [true, true, false]))).filter
        (fun a => decide (a.1 + 3 = 3 + 1)) = [(1, 1)]) ∧
    ∃ s1, after_expiry (state_of (run blank 0 3 1 [true, true, false])) = .ok s1 ∧
      s1.current_time = (state_of (run blank 0 3 1 [true, true, false])).current_time + 1 ∧
      live_pairs (state_of (run blank 0 3 1 [true, true, false])) = live_pairs s1 ++
        (live_pairs (state_of (run blank 0 3 1 [true, true, false]))).filter
          (fun a => decide (a.1 + (state_of (run blank 0 3 1 [true, true, false])).wnd_size =
            (state_of (run blank 0 3 1 [true, true, false])).current_time + 1)) ∧
      ((live_pairs (state_of (run blank 0 3 1 [true, true, false]))).filter
        (fun a => decide (a.1 + (state_of (run blank 0 3 1 [true, true, false])).wnd_size =
          (state_of (run blank 0 3 1 [true, true, false])).current_time + 1))).length ≤ 1 :=
  ⟨by decide!,
    single_expiry blank 0 3 1 [true, true, false] _ _ (by decide) (by decide)
      (by decide) (by decide) (by decide) (ok_eta_run _ (by decide!))⟩

/-! ## Buckets across a merge round -/

theorem MergeRound.pay_all {i : Nat} {s s1 : StateApx} {A1 B : List Nat} {y x : Nat}
    (hr : MergeRound i s s1 A1 y x B) :
    (∀ z, z ∈ A1 → pay s1.buckets z = pay s.buckets z) ∧
    pay s1.buckets y = ((s.buckets y).timestamp, 2 ^ (i + 1)) ∧
    (∀ z, z ∈ B → pay s1.buckets z = pay s.buckets z) := by
  have h := hr.pairs
  rw [List.map_append, List.map_cons] at h
  obtain ⟨h1, h2⟩ := List.append_inj h (by simp)
  injection h2 with h3 h4
  exact ⟨List.map_inj_left.1 h1, h3, List.map_inj_left.1 h4⟩

/-- The bucket list before a merge round, spelled out. -/
theorem MergeRound.before {i : Nat} {s s1 : StateApx} {A1 B : List Nat} {y x : Nat}
    (hr : MergeRound i s s1 A1 y x B) :
    (A1 ++ y :: x :: B).map (pay s.buckets) =
      A1.map (pay s.buckets) ++ ((s.buckets y).timestamp, 2 ^ i) ::
        ((s.buckets x).timestamp, 2 ^ i) :: B.map (pay s.buckets) := by
  simp [pay, hr.size_x, hr.size_y]

theorem ok_eta_state (r : Except Fault StateApx) (h : is_ok r = true) : r = .ok (end_of r) := by
  cases r with
  | error err => simp [is_ok] at h
  | ok s => rfl

theorem headD_mem {α : Type} (l : List α) (d : α) (h : l.length ≠ 0) : l.headD d ∈ l := by
  cases l with
  | nil => simp at h
  | cons a t => simp

theorem count_one_eq_sum (l : List Nat) (h : ∀ a, a ∈ l → a = 1) : l.count 1 = l.sum := by
  induction l with
  | nil => rfl
  | cons a t ih =>
    have ha := h a (by simp)
    subst ha
    rw [List.count_cons_self, List.sum_cons, ih (fun b hb => h b (by simp [hb]))]
    omega

/-! ## The merge rounds of a call -/

theorem after_admission_eq (s s1 : StateApx) (h : after_expiry s = .ok s1) :
    after_admission s = admit_bucket s1 := by
  unfold after_admission
  rw [h]
  rfl

/-- Every test of the merge loop that succeeds in a call on a reachable state
happens in a state that satisfies the invariant of the loop, with `k + 2`
buckets in the class; unless `k + 2` wraps, and then the class holds fewer
than `k + 2` buckets and the round leaves defined behaviour. -/
theorem call_points {W k : Nat} {e : Int} {bits : List Bool} {s : StateApx}
    (hW : 1 ≤ W) (hk1 : 1 ≤ k) (hk32 : k < 4294967296)
    (hlen : bits.length + 1 < 18446744073709551616) (hinv : Inv W k e bits s)
    (q : Nat × StateApx) (hq : q ∈ call_merge_points s) :
    (∃ Lq Fq Eq, Mid W k e (bits ++ [true]) q.1 q.2 Lq Fq Eq ∧ q.2.count q.1 = k + 2) ∨
    (4294967296 ≤ k + 2 ∧ q.2.count q.1 < 4294967296 ∧
      ∃ err, merge_pair q.2 q.1 = .error err) := by
  obtain ⟨L, F, E, hc, hb, hw⟩ := hinv
  obtain ⟨s1, L1, D, F1, E1, h1, h2, h3, h4, _⟩ := expiry_detail hlen hc hb hw
  unfold call_merge_points at hq
  rw [after_admission_eq s s1 h1] at hq
  cases F1 with
  | nil =>
    have hfh := (FL_nil _ _).1 h2.rep.free
    rw [admit_bucket_empty s1 e hfh h2.rep.term] at hq
    simp at hq
  | cons f F2 =>
    by_cases hk : k + 2 < 4294967296
    · obtain ⟨s2, had, hmid, _⟩ := admit_core hW hk hlen h2 h3 h4
      rw [had] at hq
      obtain ⟨Lq, Fq, hm, hcnt, _⟩ :=
        (merge_loop_rec hk1 (fun _ _ _ => True) (fun _ _ _ _ _ _ _ _ _ _ _ _ => trivial)
          65 0 (by omega) hmid trivial).2 q hq
      exact Or.inl ⟨Lq, Fq, E1, hm, hcnt⟩
    · right
      have hL1 : L1 = [] := by
        rcases h2.dom with h | h
        · exact absurd h hk
        · exact h
      subst hL1
      have hsum : s1.total_sum + 1 < 18446744073709551616 := by
        rw [h2.rep.sum]; simp [sizes]
      obtain ⟨s2, had, hrep2, hpay2, hfr2, _⟩ := admit_bucket_rep h2.rep hsum
      rw [had] at hq
      have hcnt : s2.count 0 = 1 := by
        rw [hrep2.cnt 0 (by norm_num), hpay2]; simp [sizes]
      obtain ⟨_, hf2, hfp, _⟩ := (DL_cons _ _ _ _ _ _).1 hrep2.live
      have hsz : (s2.buckets f).size = 2 ^ 0 := by
        have := congrArg (fun l => l.map Prod.snd) hpay2
        simpa [pay] using this
      have hl : s2.last_of_size 0 = (f : Int) := by
        rw [hrep2.last 0 (by norm_num)]
        exact class_last_snoc_hit [] hsz
      have hmp := merge_pair_single s2 0 f (by norm_num) hf2 hl hfp
      have hq2 : q ∈ merge_points 65 0 s2 := hq
      rw [merge_points_step 64 0 s2 (by norm_num), hmp] at hq2
      by_cases hc0 : s2.count 0 = u32 (s2.k + 2)
      · rw [if_pos hc0] at hq2
        have hq3 : q = (0, s2) := by simpa using hq2
        subst hq3
        exact ⟨by omega, by rw [hcnt]; norm_num, _, hmp⟩
      · rw [if_neg hc0] at hq2
        simp at hq2

/-! ## The merge loop -/

/-- The merge precondition where the threshold does not wrap: whenever the test
of the merge loop finds `k + 2` buckets in class `i` inside a call on a
reachable state, `last_of_size[i]` is a live slot `x` with a bucket of size
`2^i`, its `prev` link is a live slot `y` (not `-1`) whose bucket has size `2^i`
too and is not the head of the list; `i + 1 < 64`, the round stays inside the
arrays, and it leaves `y` with size `2^(i+1)`. -/
theorem merge_precondition (mem : Nat → Bucket) (merges W k : Nat) (bits : List Bool)
    (s : StateApx) (outs : List Nat) (q : Nat × StateApx)
    (hW : 1 ≤ W) (hW32 : W < 4294967296) (hk : 1 ≤ k) (hk32 : k < 4294967296)
    (hlen : bits.length + 1 < 18446744073709551616)
    (hrun : run mem merges W k bits = .ok (s, outs))
    (hq : q ∈ call_merge_points s) (hcount : q.2.count q.1 = k + 2) :
    ∃ x y : Nat, q.2.last_of_size q.1 = (x : Int) ∧ x ∈ live_slots q.2 ∧
      (q.2.buckets x).size = 2 ^ q.1 ∧ (q.2.buckets x).prev = (y : Int) ∧
      y ∈ live_slots q.2 ∧ (q.2.buckets y).size = 2 ^ q.1 ∧ q.2.head ≠ (y : Int) ∧
      q.1 + 1 < 64 ∧
      ∃ m1, merge_pair q.2 q.1 = .ok m1 ∧ (m1.buckets y).size = 2 ^ (q.1 + 1) := by
  have hinv := run_ok_inv hW hW32 hk hk32 (by omega) hrun
  rcases call_points hW hk hk32 hlen hinv q hq with ⟨Lq, Fq, Eq, hm, _⟩ | ⟨h1, h2, _⟩
  · obtain ⟨A1, y, x, B, s1, hL, hr, _⟩ := merge_round hk hm hcount
    subst hL
    obtain ⟨A0, a, hA0, _, _⟩ := hr.prev_y
    have hnd := nodup_mid hm.core.rep.nodup
    have hhead : q.2.head ≠ (y : Int) := by
      have hlive := hm.core.rep.live
      cases A1 with
      | nil => simp at hA0
      | cons z A2 =>
        obtain ⟨h3, _⟩ := (DL_cons _ _ _ _ _ _).1 hlive
        rw [h3]
        intro h4
        have h5 : z = y := by exact_mod_cast h4
        exact hnd.2.2.1 (h5 ▸ List.mem_cons_self z A2)
    have hsz : (s1.buckets y).size = 2 ^ (q.1 + 1) := by
      have := congrArg Prod.snd hr.pay_all.2.1
      exact this
    refine ⟨x, y, hr.oldest, ?_, hr.size_x, hr.prev_x, ?_, hr.size_y, hhead, hr.idx, s1,
      hr.round, hsz⟩
    · rw [hm.core.live_slots]; simp
    · rw [hm.core.live_slots]; simp
  · omega

/-- The merge precondition at work: window 3, `k = 1`; the third 1-bit in a row brings class 0 to
3 buckets, in the slots 2, 1, 0 from head to tail: the oldest is slot 0 and its
predecessor slot 1. -/
theorem merge_precondition_witness :
    (merge_sample.1 = 0 ∧ merge_sample.2.count 0 = 3 ∧ merge_sample.2.last_of_size 0 = 0 ∧
      (merge_sample.2.buckets 0).prev = 1 ∧ live_slots merge_sample.2 = [2, 1, 0]) ∧
    ∃ x y : Nat, merge_sample.2.last_of_size merge_sample.1 = (x : Int) ∧
      x ∈ live_slots merge_sample.2 ∧
      (merge_sample.2.buckets x).size = 2 ^ merge_sample.1 ∧
      (merge_sample.2.buckets x).prev = (y : Int) ∧
      y ∈ live_slots merge_sample.2 ∧ (merge_sample.2.buckets y).size = 2 ^ merge_sample.1 ∧
      merge_sample.2.head ≠ (y : Int) ∧ merge_sample.1 + 1 < 64 ∧
      ∃ m1, merge_pair merge_sample.2 merge_sample.1 = .ok m1 ∧
        (m1.buckets y).size = 2 ^ (merge_sample.1 + 1) :=
  ⟨by decide!,
    merge_precondition blank 0 3 1 [true, true] before_merge _ merge_sample (by decide)
      (by decide) (by decide) (by decide) (by decide) (ok_eta_run _ (by decide!))
      (headD_mem _ _ (by decide!)) (by decide!)⟩

/-- C17 fails on the code: for `wnd_size = 1` and `k = 2^32 - 1` the threshold
`k + 2` of the merge loop is computed in `uint32_t` and wraps to 1. The first
1-bit is admitted to slot 0, the test `count[0] == k + 2` succeeds with one
bucket in the class, whose `prev` link is `-1`, and the round reads
`buckets[-1]`. -/
theorem merge_overflow :
    is_ok (wnd_bit_count_apx_new blank 0 1 4294967295) = true ∧
    wrapped_state.max_buckets = 1 ∧ u32 (wrapped_state.k + 2) = 1 ∧
    (call_merge_points wrapped_state).length = 1 ∧
    wrapped_point.1 = 0 ∧ wrapped_point.2.count 0 = 1 ∧
    wrapped_point.2.last_of_size 0 = 0 ∧ (wrapped_point.2.buckets 0).prev = -1 ∧
    fault_of (merge_pair wrapped_point.2 wrapped_point.1) = some Fault.out_of_bounds ∧
    fault_of (run blank 0 1 4294967295 [true]) = some Fault.out_of_bounds := by decide!

/-- C18: Merge count update. Every merge round performed at class `i` inside a
call on a reachable state takes `count[i]` from `k + 2` to `k`, which is not 0,
and adds 1 to `count[i+1]`; it sets `last_of_size[i]` to the `prev` link `p` of
the bucket that absorbed the oldest one, and `p` is a live bucket of size
`2^i`. -/
theorem merge_count_update (mem : Nat → Bucket) (merges W k : Nat) (bits : List Bool)
    (s : StateApx) (outs : List Nat) (q : Nat × StateApx) (m1 : StateApx)
    (hW : 1 ≤ W) (hW32 : W < 4294967296) (hk : 1 ≤ k) (hk32 : k < 4294967296)
    (hlen : bits.length + 1 < 18446744073709551616)
    (hrun : run mem merges W k bits = .ok (s, outs))
    (hq : q ∈ call_merge_points s) (hm1 : merge_pair q.2 q.1 = .ok m1) :
    q.2.count q.1 = k + 2 ∧ m1.count q.1 = k ∧ m1.count q.1 ≠ 0 ∧
    (m1.count q.1 = 0 → k = 1) ∧
    m1.count (q.1 + 1) = q.2.count (q.1 + 1) + 1 ∧
    ∃ x y p : Nat, q.2.last_of_size q.1 = (x : Int) ∧ (q.2.buckets x).prev = (y : Int) ∧
      (q.2.buckets y).prev = (p : Int) ∧ m1.last_of_size q.1 = (p : Int) ∧
      p ∈ live_slots m1 ∧ (m1.buckets p).size = 2 ^ q.1 := by
  have hinv := run_ok_inv hW hW32 hk hk32 (by omega) hrun
  rcases call_points hW hk hk32 hlen hinv q hq with ⟨Lq, Fq, Eq, hm, hcount⟩ | ⟨_, _, err, h3⟩
  · obtain ⟨A1, y, x, B, s1, hL, hr, hm2⟩ := merge_round hk hm hcount
    subst hL
    have hs1 : s1 = m1 := by
      have := hr.round
      rw [hm1] at this
      injection this with this
      exact this.symm
    subst hs1
    obtain ⟨A0, a, hA0, hpa, hsa⟩ := hr.prev_y
    obtain ⟨hpA, hpy, hpB⟩ := hr.pay_all
    have hi := hm.idx
    have hcm := count_merge (A1.map (pay q.2.buckets)) (B.map (pay q.2.buckets))
      (q.2.buckets x).timestamp (q.2.buckets y).timestamp q.1
    have hnew : ∀ j, j < 64 → s1.count j =
        (sizes (A1.map (pay q.2.buckets) ++
          ((q.2.buckets y).timestamp, 2 ^ (q.1 + 1)) :: B.map (pay q.2.buckets))).count (2 ^ j) := by
      intro j hj
      rw [hm2.core.rep.cnt j hj, hr.pairs]
    have hold : ∀ j, j < 64 → q.2.count j =
        (sizes (A1.map (pay q.2.buckets) ++ ((q.2.buckets y).timestamp, 2 ^ q.1) ::
          ((q.2.buckets x).timestamp, 2 ^ q.1) :: B.map (pay q.2.buckets))).count (2 ^ j) := by
      intro j hj
      rw [hm.core.rep.cnt j hj, hr.before]
    have h1 := hcm q.1
    have h2 := hcm (q.1 + 1)
    rw [← hnew q.1 hi, ← hold q.1 hi, if_pos rfl, if_neg (by omega)] at h1
    rw [← hnew (q.1 + 1) hr.idx, ← hold (q.1 + 1) hr.idx, if_neg (by omega), if_pos rfl] at h2
    have hlast : s1.last_of_size q.1 = (a : Int) := by
      rw [hm2.core.rep.last q.1 hi, hA0]
      have hrest : ∀ z, z ∈ y :: B → (s1.buckets z).size ≠ 2 ^ q.1 := by
        intro z hz
        rcases List.mem_cons.1 hz with rfl | hz
        · have h4 : (s1.buckets z).size = 2 ^ (q.1 + 1) := congrArg Prod.snd hpy
          rw [h4]
          intro h5
          have := pow_two_inj.1 h5
          omega
        · have h4 : (s1.buckets z).size = (q.2.buckets z).size := congrArg Prod.snd (hpB z hz)
          rw [h4]
          exact hr.rest z hz
      rw [class_last_append_left _ _ hrest]
      refine class_last_snoc_hit A0 ?_
      have h4 : (s1.buckets a).size = (q.2.buckets a).size :=
        congrArg Prod.snd (hpA a (by rw [hA0]; simp))
      rw [h4, hsa]
    refine ⟨hcount, by omega, by omega, fun h0 => by omega, by omega, x, y, a, hr.oldest,
      hr.prev_x, hpa, hlast, ?_, ?_⟩
    · rw [hm2.core.live_slots, hA0]; simp
    · have h4 : (s1.buckets a).size = (q.2.buckets a).size :=
        congrArg Prod.snd (hpA a (by rw [hA0]; simp))
      rw [h4, hsa]
  · rw [hm1] at h3
    cases h3

/-- Witness of C18: window 3, `k = 1`; the merge at class 0 in the third call
takes `count[0]` from 3 to 1 and `count[1]` from 0 to 1, and `last_of_size[0]`
becomes slot 2, the newest bucket. -/
theorem merge_count_update_witness :
    (merge_sample.2.count 0 = 3 ∧ merged_sample.count 0 = 1 ∧ merged_sample.count 1 = 1 ∧
      merge_sample.2.count 1 = 0 ∧ merged_sample.last_of_size 0 = 2) ∧
    (merge_sample.2.count merge_sample.1 = 1 + 2 ∧ merged_sample.count merge_sample.1 = 1 ∧
    merged_sample.count merge_sample.1 ≠ 0 ∧
    (merged_sample.count merge_sample.1 = 0 → 1 = 1) ∧
    merged_sample.count (merge_sample.1 + 1) = merge_sample.2.count (merge_sample.1 + 1) + 1 ∧
    ∃ x y p : Nat, merge_sample.2.last_of_size merge_sample.1 = (x : Int) ∧
      (merge_sample.2.buckets x).prev = (y : Int) ∧
      (merge_sample.2.buckets y).prev = (p : Int) ∧
      merged_sample.last_of_size merge_sample.1 = (p : Int) ∧
      p ∈ live_slots merged_sample ∧ (merged_sample.buckets p).size = 2 ^ merge_sample.1) :=
  ⟨by decide!,
    merge_count_update blank 0 3 1 [true, true] before_merge _ merge_sample merged_sample
      (by decide) (by decide) (by decide) (by decide) (by decide) (ok_eta_run _ (by decide!))
      (headD_mem _ _ (by decide!)) (ok_eta_state _ (by decide!))⟩

/-! ## The history of the live buckets across a call -/

theorem pow_two_lt_succ (i : Nat) : 2 ^ i < 2 ^ (i + 1) := by
  have := pow_two_pos i
  rw [pow_succ]
  omega

/-- A merge round keeps the description `Frontier` of the bucket list. -/
theorem Frontier.step {A0 : List (Nat × Nat)} {now i : Nat} {PA PB : List (Nat × Nat)}
    {ty tx ta : Nat}
    (hF : Frontier A0 now i (PA ++ (ty, 2 ^ i) :: (tx, 2 ^ i) :: PB))
    (hsorted : (sizes (PA ++ (ty, 2 ^ i) :: (tx, 2 ^ i) :: PB)).Pairwise (fun a b => a ≤ b))
    (hdesc : (stamps (PA ++ (ty, 2 ^ i) :: (tx, 2 ^ i) :: PB)).Pairwise (fun a b => b < a))
    (ha : (ta, 2 ^ i) ∈ PA) :
    Frontier A0 now (i + 1) (PA ++ (ty, 2 ^ (i + 1)) :: PB) := by
  obtain ⟨c, hcA, hc2, hnewest, hold, hset⟩ := hF
  have hs := List.pairwise_map.1 hsorted
  have hd := List.pairwise_map.1 hdesc
  obtain ⟨_, _, hsx⟩ := List.pairwise_append.1 hs
  obtain ⟨_, hd2, hdx⟩ := List.pairwise_append.1 hd
  have hlt := pow_two_lt_succ i
  have hmem_y : (ty, 2 ^ i) ∈ PA ++ (ty, 2 ^ i) :: (tx, 2 ^ i) :: PB := by simp
  have hta : ty < ta := hdx (ta, 2 ^ i) ha (ty, 2 ^ i) (by simp)
  have hcta : ta ≤ c.1 := hnewest (ta, 2 ^ i) (List.mem_append_left _ ha) rfl
  have hyc : (ty, 2 ^ i) ≠ c := by
    intro h
    rw [← h] at hcta
    have : ta ≤ ty := hcta
    omega
  have hy0 : (ty, 2 ^ i) ∈ A0 := hold _ hmem_y hyc (le_refl _)
  have hPA : ∀ a, a ∈ PA → a.2 ≤ 2 ^ i := fun a h => hsx a h (ty, 2 ^ i) (by simp)
  have hPB : ∀ a, a ∈ PB → a.1 < ty := by
    intro a h
    exact (List.pairwise_cons.1 hd2).1 a (by simp [h])
  have hPBold : ∀ a, a ∈ PB → a ∈ PA ++ (ty, 2 ^ i) :: (tx, 2 ^ i) :: PB := by
    intro a h; simp [h]
  refine ⟨(ty, 2 ^ (i + 1)), by simp, rfl, ?_, ?_, ?_⟩
  · intro a hmem h2
    rcases List.mem_append.1 hmem with h | h
    · have := hPA a h
      omega
    · rcases List.mem_cons.1 h with rfl | h
      · exact le_refl _
      · exact Nat.le_of_lt (hPB a h)
  · intro a hmem hne h2
    rcases List.mem_append.1 hmem with h | h
    · have := hPA a h
      omega
    · rcases List.mem_cons.1 h with rfl | h
      · exact absurd rfl hne
      · refine hold a (hPBold a h) ?_ (by omega)
        intro h3
        rw [h3] at h2
        omega
  · intro a hmem
    rcases List.mem_append.1 hmem with h | h
    · exact hset a (List.mem_append_left _ h)
    · rcases List.mem_cons.1 h with rfl | h
      · exact Or.inr (Or.inr ⟨2 ^ i, hy0, by rw [pow_succ]; omega⟩)
      · exact hset a (hPBold a h)

/-- Every bucket that is live after a call on a state that satisfies the
invariant has a lawful history: admitted by this call, or live before with the
same size or with half of it. -/
theorem call_settled {W k : Nat} {e : Int} {bits : List Bool} {s : StateApx}
    (hW : 1 ≤ W) (hk1 : 1 ≤ k) (hk32 : k < 4294967296)
    (hlen : bits.length + 1 < 18446744073709551616) (hinv : Inv W k e bits s)
    (item : Bool) (s3 : StateApx) (hadv : advance_state s item = .ok s3) :
    s3.current_time = bits.length + 1 ∧
    ∀ a, a ∈ live_pairs s3 →
      (item = true ∧ a = (bits.length + 1, 1)) ∨ a ∈ live_pairs s ∨
        ∃ v0, (a.1, v0) ∈ live_pairs s ∧ a.2 = 2 * v0 := by
  obtain ⟨L, F, E, hc, hb, hw⟩ := hinv
  obtain ⟨s1, L1, D, F1, E1, h1, h2, h3, h4, h5, h6, _, _, _, hcase⟩ :=
    call_detail hW hk32 hlen hc hb hw item s3 hadv
  have hsub : ∀ a, a ∈ L1.map (pay s1.buckets) → a ∈ live_pairs s := by
    intro a ha
    rw [hc.live_pay, h5, List.map_append, ← h6]
    exact List.mem_append_left _ ha
  rcases hcase with ⟨hitem, hs3⟩ | ⟨hitem, hk2, f, F2, s2, hF1, had, hmid, hpay, _, hml⟩
  · subst hs3
    refine ⟨h2.clock, fun a ha => Or.inr (Or.inl ?_)⟩
    rw [h2.live_pay] at ha
    exact hsub a ha
  · have hlen2 : (bits ++ [true]).length = bits.length + 1 := by simp
    have hF0 : Frontier (live_pairs s) (bits.length + 1) 0 ((f :: L1).map (pay s2.buckets)) := by
      rw [hpay]
      refine ⟨(bits.length + 1, 1), by simp, rfl, ?_, ?_, ?_⟩
      · intro a ha _
        have := (hmid.core.good.window a (by rw [hpay]; exact ha)).1
        rw [hlen2] at this
        exact this
      · intro a ha hne _
        rcases List.mem_cons.1 ha with rfl | ha
        · exact absurd rfl hne
        · exact hsub a ha
      · intro a ha
        rcases List.mem_cons.1 ha with rfl | ha
        · exact Or.inl rfl
        · exact Or.inr (Or.inl (hsub a ha))
    obtain ⟨⟨j, s4, L4, F4, hml4, hm4, _, hF4⟩, _⟩ :=
      merge_loop_rec hk1
        (fun i m Lm => Frontier (live_pairs s) (bits.length + 1) i (Lm.map (pay m.buckets)))
        (fun i m m1 Fm A1 y x B hm hP _ hr => by
          obtain ⟨A0, a, hA0, _, hsa⟩ := hr.prev_y
          have hgood := hm.core.good
          have hP : Frontier (live_pairs s) (bits.length + 1) i
              ((A1 ++ y :: x :: B).map (pay m.buckets)) := hP
          rw [hr.before] at hP hgood
          rw [hr.pairs]
          refine @Frontier.step _ _ _ _ _ _ _ (m.buckets a).timestamp hP hgood.sorted hgood.desc ?_
          refine List.mem_map.2 ⟨a, by rw [hA0]; simp, ?_⟩
          show ((m.buckets a).timestamp, (m.buckets a).size) = _
          rw [hsa])
        65 0 (by omega) hmid hF0
    rw [hml] at hml4
    injection hml4 with hml4
    subst hml4
    have hclock := hm4.core.clock
    rw [hlen2] at hclock
    refine ⟨hclock, fun a ha => ?_⟩
    rw [hm4.core.live_pay] at ha
    obtain ⟨_, _, _, _, _, hset⟩ := hF4
    rcases hset a ha with h | h | h
    · exact Or.inl ⟨hitem, h⟩
    · exact Or.inr (Or.inl h)
    · exact Or.inr (Or.inr h)

/-! ## Calls without a merge -/

/-- While every live bucket has size 1, the running sum and the estimate are
the exact count of the window. -/
theorem estimate_ones {W k : Nat} {e : Int} {bits : List Bool} {s : StateApx}
    {L F : List Nat} {E : Nat}
    (hk : 1 ≤ k) (hW32 : W < 4294967296) (hlen : bits.length < 18446744073709551616)
    (hc : Core W k e bits bits.length s L F E)
    (hw : InWindow W bits.length (L.map (pay s.buckets)))
    (hones : ∀ a, a ∈ L.map (pay s.buckets) → a.2 = 1) :
    s.total_sum = trailing_ones W bits ∧ answer s = .ok (trailing_ones W bits) := by
  obtain ⟨r, hr, h1, h2, _, hcase⟩ := answer_core hk hW32 hlen hc hw
  rcases hcase with ⟨ht, hr0⟩ | ⟨x, ht, hx, hsum, _⟩
  · have h0 : s.total_sum = 0 := by
      rcases DL_tail hc.rep.live with ⟨hnil, _, _⟩ | ⟨A, x1, _, h3⟩
      · rw [hc.rep.sum, hnil]; simp [sizes]
      · rw [ht] at h3
        have : (0 : Int) ≤ (x1 : Int) := Int.ofNat_nonneg x1
        omega
    have h3 : trailing_ones W bits = 0 := by omega
    rw [h3]
    exact ⟨h0, by rw [hr, hr0]⟩
  · obtain ⟨A, hA⟩ := hc.tail_mem ht
    have h3 : (s.buckets x).size = 1 :=
      hones (pay s.buckets x) (List.mem_map.2 ⟨x, by rw [hA]; simp, rfl⟩)
    have h4 : r = trailing_ones W bits := by omega
    rw [← h4]
    exact ⟨by omega, hr⟩

/-- A test of the merge loop that fails ends the loop. -/
theorem merge_loop_quiet {W k : Nat} {e : Int} {bits : List Bool} {i : Nat} {s : StateApx}
    {L F : List Nat} {E : Nat} (hm : Mid W k e bits i s L F E) (hcount : s.count i ≠ k + 2)
    (fuel : Nat) : merge_loop (fuel + 1) i s = .ok s := by
  rw [merge_loop_step fuel i s hm.idx, hm.threshold, if_neg hcount]

/-- A call on a state whose live buckets all have size 1, when the exact count
of the new window is at most `k + 1`: no merge happens, and the live list after
the call is the part of the old one that did not expire, headed by the new
bucket if the bit is a 1. -/
theorem quiet_call {W k : Nat} {e : Int} {bits : List Bool} {s : StateApx}
    (hW : 1 ≤ W) (hW32 : W < 4294967296) (hk1 : 1 ≤ k) (hk32 : k < 4294967296)
    (hlen : bits.length + 1 < 18446744073709551616) (hinv : Inv W k e bits s)
    (hones : ∀ a, a ∈ live_pairs s → a.2 = 1)
    (item : Bool) (hexact : trailing_ones W (bits ++ [item]) ≤ k + 1)
    (s3 : StateApx) (hadv : advance_state s item = .ok s3) :
    s3.N_MERGES = s.N_MERGES ∧
    ∃ P1 D, live_pairs s = P1 ++ D ∧ (∀ d, d ∈ D → d.1 + W = bits.length + 1) ∧
      live_pairs s3 = (if item = true then (bits.length + 1, 1) :: P1 else P1) := by
  obtain ⟨L, F, E, hc, hb, hw⟩ := hinv
  obtain ⟨s1, L1, D, F1, E1, h1, h2, h3, h4, h5, h6, h7, _, h9, hcase⟩ :=
    call_detail hW hk32 hlen hc hb hw item s3 hadv
  have hsplit : live_pairs s = L1.map (pay s1.buckets) ++ D.map (pay s.buckets) := by
    rw [hc.live_pay, h5, List.map_append, h6]
  have hD : ∀ d, d ∈ D.map (pay s.buckets) → d.1 + W = bits.length + 1 := by
    intro d hd
    obtain ⟨z, hz, rfl⟩ := List.mem_map.1 hd
    exact h7 z hz
  rcases hcase with ⟨hitem, hs3⟩ | ⟨hitem, hk2, f, F2, s2, hF1, had, hmid, hpay, hnm, hml⟩
  · subst hs3
    refine ⟨h9, _, _, hsplit, hD, ?_⟩
    rw [h2.live_pay, hitem]
    simp
  · subst hitem
    have hones2 : ∀ a, a ∈ (f :: L1).map (pay s2.buckets) → a.2 = 1 := by
      intro a ha
      rw [hpay] at ha
      rcases List.mem_cons.1 ha with rfl | ha
      · rfl
      · exact hones a (by rw [hsplit]; exact List.mem_append_left _ ha)
    have hest := (estimate_ones hk1 hW32 hmid.len hmid.core hmid.window hones2).1
    have hcnt : s2.count 0 = s2.total_sum := by
      rw [hmid.core.rep.cnt 0 (by norm_num), hmid.core.rep.sum]
      refine count_one_eq_sum _ ?_
      intro v hv
      obtain ⟨a, ha, rfl⟩ := List.mem_map.1 hv
      exact hones2 a ha
    have hq := merge_loop_quiet hmid (by omega) 64
    rw [hml] at hq
    injection hq with hq
    subst hq
    refine ⟨by rw [hnm, h9], L1.map (pay s1.buckets), D.map (pay s.buckets), hsplit, hD, ?_⟩
    rw [hmid.core.live_pay, hpay]
    simp

/-! ## Calls and the history of buckets -/

/-- C15: Bucket lifecycle frame. For every reachable state and every call that
returns, each bucket live after the call either has the new `current_time` as
its timestamp and size 1, which happens only for a 1-bit, or was live before the
call with the same timestamp and a size that is unchanged or exactly doubled.
Timestamps identify buckets: they are pairwise distinct in both lists. -/
theorem lifecycle_frame (mem : Nat → Bucket) (merges W k : Nat) (bits : List Bool)
    (s : StateApx) (outs : List Nat) (item : Bool) (s3 : StateApx) (r : Nat)
    (hW : 1 ≤ W) (hW32 : W < 4294967296) (hk : 1 ≤ k) (hk32 : k < 4294967296)
    (hlen : bits.length + 1 < 18446744073709551616)
    (hrun : run mem merges W k bits = .ok (s, outs))
    (hcall : wnd_bit_count_apx_next s item = .ok (s3, r)) :
    s3.current_time = s.current_time + 1 ∧
    ((live_pairs s).map Prod.fst).Nodup ∧ ((live_pairs s3).map Prod.fst).Nodup ∧
    ∀ a, a ∈ live_pairs s3 →
      (item = true ∧ a = (s3.current_time, 1)) ∨
        ∃ v0, (a.1, v0) ∈ live_pairs s ∧ (a.2 = v0 ∨ a.2 = 2 * v0) := by
  have hinv := run_ok_inv hW hW32 hk hk32 (by omega) hrun
  have hrun3 : run mem merges W k (bits ++ [item]) = .ok (s3, outs ++ [r]) := by
    rw [run_snoc, hrun, feed_ok, hcall]; rfl
  have hinv3 := run_ok_inv hW hW32 hk hk32 (by simpa using hlen) hrun3
  obtain ⟨s0, outs0, r0, h1, _, _, hadv, _⟩ := run_last hrun3
  rw [hrun] at h1
  injection h1 with h1
  injection h1 with h1 _
  subst h1
  obtain ⟨hclock, hset⟩ := call_settled hW hk hk32 hlen hinv item s3 hadv
  obtain ⟨L, F, E, hc, _, _⟩ := hinv
  obtain ⟨L3, F3, E3, hc3, _, _⟩ := hinv3
  have hnd : ∀ (m : StateApx) (Lm : List Nat) (bs : List Bool) (Em : Nat),
      Good W k bs bs.length Em (Lm.map (pay m.buckets)) →
      ((Lm.map (pay m.buckets)).map Prod.fst).Nodup := by
    intro m Lm bs Em hg
    have := hg.desc
    unfold stamps at this
    exact this.imp (fun h => by omega)
  refine ⟨by rw [hclock, hc.clock], ?_, ?_, fun a ha => ?_⟩
  · rw [hc.live_pay]; exact hnd s L bits E hc.good
  · rw [hc3.live_pay]; exact hnd s3 L3 _ E3 hc3.good
  · rcases hset a ha with ⟨h2, h3⟩ | h2 | ⟨v0, h2, h3⟩
    · exact Or.inl ⟨h2, by rw [hclock]; exact h3⟩
    · exact Or.inr ⟨a.2, h2, Or.inl rfl⟩
    · exact Or.inr ⟨v0, h2, Or.inr h3⟩

/-- Witness of C15: window 3, `k = 1`; the third 1-bit in a row admits the
bucket of tick 3 and doubles the bucket of tick 2, which absorbs the one of
tick 1. -/
theorem lifecycle_frame_witness :
    (live_pairs before_merge = [(2, 1), (1, 1)] ∧
      live_pairs (state_of (wnd_bit_count_apx_next before_merge true)) = [(3, 1), (2, 2)]) ∧
    ((state_of (wnd_bit_count_apx_next before_merge true)).current_time =
      before_merge.current_time + 1 ∧
    ((live_pairs before_merge).map Prod.fst).Nodup ∧
    ((live_pairs (state_of (wnd_bit_count_apx_next before_merge true))).map Prod.fst).Nodup ∧
    ∀ a, a ∈ live_pairs (state_of (wnd_bit_count_apx_next before_merge true)) →
      (true = true ∧
          a = ((state_of (wnd_bit_count_apx_next before_merge true)).current_time, 1)) ∨
        ∃ v0, (a.1, v0) ∈ live_pairs before_merge ∧ (a.2 = v0 ∨ a.2 = 2 * v0)) :=
  ⟨by decide!,
    lifecycle_frame blank 0 3 1 [true, true] before_merge _ true _ 2 (by decide) (by decide)
      (by decide) (by decide) (by decide) (ok_eta_run _ (by decide!))
      (ok_eta_next _ 2 (by decide!) (by decide!))⟩

/-- Exactness without merges, on the runs that return. If the exact number of
1-bits in the trailing window was at most `k + 1` at every tick of a stream fed
to a fresh state, then no merge has happened, every live bucket has size 1 and
every call returned the exact count; unless the run leaves defined behaviour,
which happens only for parameters on which the constructor wraps (outside
`Safe`). -/
theorem exact_without_merges (mem : Nat → Bucket) (merges W k : Nat) (bits : List Bool)
    (hW : 1 ≤ W) (hW32 : W < 4294967296) (hk : 1 ≤ k) (hk32 : k < 4294967296)
    (hlen : bits.length < 18446744073709551616)
    (hexact : ∀ t, t ≤ bits.length → trailing_ones W (bits.take t) ≤ k + 1) :
    (∃ s outs, run mem merges W k bits = .ok (s, outs) ∧ s.N_MERGES = merges ∧
      (∀ b, b ∈ live s → b.size = 1) ∧ outs.length = bits.length ∧
      ∀ i r, outs[i]? = some r → r = trailing_ones W (bits.take (i + 1))) ∨
    ((∃ err, run mem merges W k bits = .error err) ∧ ¬ Safe W k) := by
  have hrec := run_rec mem merges W k hW hW32 hk hk32
    (fun bs m os => (∀ t, t ≤ bs.length → trailing_ones W (bs.take t) ≤ k + 1) →
      (m.N_MERGES = merges ∧ (∀ a, a ∈ live_pairs m → a.2 = 1) ∧ os.length = bs.length ∧
        ∀ i r, os[i]? = some r → r = trailing_ones W (bs.take (i + 1))))
    (fun m hinv hm _ => by
      obtain ⟨L, F, E, hc, _, _⟩ := hinv
      refine ⟨hm, fun a ha => ?_, rfl, fun i r h => by simp at h⟩
      rw [hc.live_pay] at ha
      have h1 := hc.good.size_pos a ha
      have h2 := hc.good.sum_le
      have h3 : a.2 ≤ (sizes (L.map (pay m.buckets))).sum :=
        List.le_sum_of_mem (List.mem_map.2 ⟨a, ha, rfl⟩)
      simp only [List.length_nil] at h2
      omega)
    (fun bs b m os m1 r hl hinv hQ hadv hans hinv1 hex => by
      have hprev : ∀ t, t ≤ bs.length → trailing_ones W (bs.take t) ≤ k + 1 := by
        intro t ht
        have := hex t (by simp; omega)
        rwa [List.take_append_of_le_length ht] at this
      obtain ⟨hq1, hq2, hq3, hq4⟩ := hQ hprev
      have hlast : trailing_ones W (bs ++ [b]) ≤ k + 1 := by
        have := hex (bs.length + 1) (by simp)
        rwa [List.take_of_length_le (by simp)] at this
      obtain ⟨hnm, P1, D, hsplit, _, hlive⟩ :=
        quiet_call hW hW32 hk hk32 hl hinv hq2 b hlast m1 hadv
      have hones1 : ∀ a, a ∈ live_pairs m1 → a.2 = 1 := by
        intro a ha
        rw [hlive] at ha
        have hP : ∀ c, c ∈ P1 → c.2 = 1 := fun c hc =>
          hq2 c (by rw [hsplit]; exact List.mem_append_left _ hc)
        by_cases hb : b = true
        · rw [if_pos hb] at ha
          rcases List.mem_cons.1 ha with rfl | ha
          · rfl
          · exact hP a ha
        · rw [if_neg hb] at ha
          exact hP a ha
      obtain ⟨L1, F1, E1, hc1, _, hw1⟩ := hinv1
      have hest := (estimate_ones hk hW32 (by simp; omega) hc1 hw1
        (by rw [← hc1.live_pay]; exact hones1)).2
      rw [hans] at hest
      injection hest with hest
      refine ⟨by rw [hnm, hq1], hones1, by simp [hq3], ?_⟩
      intro i q hq
      by_cases hi : i < os.length
      · rw [List.getElem?_append_left hi] at hq
        rw [List.take_append_of_le_length (by omega)]
        exact hq4 i q hq
      · have hi2 : i = os.length := by
          by_contra hne
          have h9 : (os ++ [r])[i]? = none := by
            rw [List.getElem?_eq_none_iff]; simp; omega
          rw [h9] at hq; simp at hq
        subst hi2
        rw [List.getElem?_append_right (le_refl _)] at hq
        simp only [Nat.sub_self, List.getElem?_cons_zero, Option.some.injEq] at hq
        subst hq
        rw [List.take_of_length_le (by simp [hq3])]
        exact hest)
    bits hlen
  rcases hrec with ⟨s, outs, h1, hinv, hQ⟩ | h
  · left
    obtain ⟨h2, h3, h4, h5⟩ := hQ hexact
    refine ⟨s, outs, h1, h2, fun b hb => ?_, h4, h5⟩
    exact h3 (b.timestamp, b.size) (List.mem_map.2 ⟨b, hb, rfl⟩)
  · exact Or.inr h

/-- Exactness at work: window 4, `k = 10`: four 1-bits return 1, 2, 3, 4, and four
0-bits return 0 each time. -/
theorem exact_without_merges_witness :
    (outs_of (run blank 0 4 10 [true, true, true, true]) = [1, 2, 3, 4] ∧
      outs_of (run blank 0 4 10 [false, false, false, false]) = [0, 0, 0, 0] ∧
      after_four_ones.N_MERGES = 0 ∧
      live_pairs after_four_ones = [(4, 1), (3, 1), (2, 1), (1, 1)]) ∧
    ((∃ s outs, run blank 0 4 10 [true, true, true, true] = .ok (s, outs) ∧ s.N_MERGES = 0 ∧
      (∀ b, b ∈ live s → b.size = 1) ∧ outs.length = [true, true, true, true].length ∧
      ∀ i r, outs[i]? = some r →
        r = trailing_ones 4 ([true, true, true, true].take (i + 1))) ∨
    ((∃ err, run blank 0 4 10 [true, true, true, true] = .error err) ∧ ¬ Safe 4 10)) :=
  ⟨by decide!,
    exact_without_merges blank 0 4 10 [true, true, true, true] (by decide) (by decide)
      (by decide) (by decide) (by decide) (by decide)⟩

/-- C12 fails on the code: for `wnd_size = 1`, `k = 2^32 - 1` and the stream of
one 1-bit the exact count is 1, which is at most `k + 1`, so the call should
return 1 without a merge. The threshold `k + 2` wraps to 1 in `uint32_t`: the
merge loop is entered with the single bucket and the call reads `buckets[-1]`
instead of returning. -/
theorem exact_overflow :
    (∀ t, t ≤ [true].length → trailing_ones 1 ([true].take t) ≤ 4294967295 + 1) ∧
    trailing_ones 1 [true] = 1 ∧
    (call_merge_points wrapped_state).length = 1 ∧
    fault_of (merge_pair wrapped_point.2 wrapped_point.1) = some Fault.out_of_bounds ∧
    fault_of (run blank 0 1 4294967295 [true]) = some Fault.out_of_bounds := by
  refine ⟨fun t ht => ?_, by decide!, by decide!, by decide!, by decide!⟩
  have h1 : trailing_ones 1 ([true].take t) ≤ ([true].take t).length := by
    rw [trailing_ones_eq]
    have := ones_in_le ([true].take t) (([true].take t).length - 1) ([true].take t).length
    omega
  have h2 : ([true].take t).length ≤ 1 := by simp
  omega

/-! ## A run of 1-bits -/

theorem ones_run_mem {lo n : Nat} {a : Nat × Nat} (h : a ∈ ones_run lo n) :
    a.2 = 1 ∧ lo < a.1 ∧ a.1 ≤ lo + n := by
  induction n with
  | zero => simp [ones_run] at h
  | succ n ih =>
    rw [ones_run] at h
    rcases List.mem_cons.1 h with rfl | h
    · exact ⟨rfl, by show lo < lo + n + 1; omega, by show lo + n + 1 ≤ lo + (n + 1); omega⟩
    · obtain ⟨h1, h2, h3⟩ := ih h
      exact ⟨h1, h2, by omega⟩

theorem sizes_ones_run (lo n : Nat) : sizes (ones_run lo n) = List.replicate n 1 := by
  induction n with
  | zero => rfl
  | succ n ih =>
    rw [ones_run, sizes_cons, ih, List.replicate_succ]

theorem ones_run_length (lo n : Nat) : (ones_run lo n).length = n := by
  have := congrArg List.length (sizes_ones_run lo n)
  simpa [sizes] using this

theorem ones_run_split (n : Nat) : ones_run 0 (n + 2) = ones_run 2 n ++ [(2, 1), (1, 1)] := by
  induction n with
  | zero => rfl
  | succ n ih =>
    rw [ones_run, ih, ones_run]
    have : 0 + (n + 2) + 1 = 2 + n + 1 := by omega
    rw [this]
    rfl

theorem trailing_ones_replicate {W m : Nat} (h : m ≤ W) :
    trailing_ones W (List.replicate m true) = m := by
  unfold trailing_ones
  rw [List.reverse_replicate, List.take_replicate, Nat.min_eq_right h]
  simp

theorem replicate_snoc_inv {bs : List Bool} {b : Bool} {n : Nat}
    (h : bs ++ [b] = List.replicate n true) :
    ∃ m, n = m + 1 ∧ bs = List.replicate m true ∧ b = true := by
  cases n with
  | zero => simp at h
  | succ m =>
    rw [List.replicate_succ'] at h
    obtain ⟨h1, h2⟩ := List.append_inj' h rfl
    exact ⟨m, rfl, h1, by simpa using h2⟩

/-- After `n ≤ k + 1` consecutive 1-bits on a fresh state with a window of at
least `k + 2` ticks, the live list holds one bucket of size 1 for every tick and
no merge has happened. -/
theorem ones_calls {mem : Nat → Bucket} {merges W k : Nat}
    (hW32 : W < 4294967296) (hk : 1 ≤ k) (hkW : k + 2 ≤ W) {n : Nat} (hn : n ≤ k + 1)
    {s : StateApx} {outs : List Nat}
    (hrun : run mem merges W k (List.replicate n true) = .ok (s, outs)) :
    live_pairs s = ones_run 0 n ∧ s.N_MERGES = merges := by
  have h := @run_ok_rec mem merges W k (by omega) hW32 hk
    (by omega)
    (fun bs m os => ∀ j, bs = List.replicate j true → j ≤ k + 1 →
      live_pairs m = ones_run 0 j ∧ m.N_MERGES = merges)
    (fun m hinv hm j hj _ => by
      have hj0 : j = 0 := by
        cases j with
        | zero => rfl
        | succ j => simp [List.replicate_succ] at hj
      subst hj0
      obtain ⟨L, F, E, hc, _, _⟩ := hinv
      refine ⟨?_, hm⟩
      show live_pairs m = []
      rw [List.eq_nil_iff_forall_not_mem]
      intro a ha
      rw [hc.live_pay] at ha
      have h1 := hc.good.size_pos a ha
      have h2 := hc.good.sum_le
      have h3 : a.2 ≤ (sizes (L.map (pay m.buckets))).sum :=
        List.le_sum_of_mem (List.mem_map.2 ⟨a, ha, rfl⟩)
      simp only [List.length_nil] at h2
      omega)
    (fun bs b m os m1 r hl hinv hQ hadv _ _ j hj hjk => by
      obtain ⟨i, hji, hbs, hb⟩ := replicate_snoc_inv hj
      subst hji hb
      obtain ⟨hlive, hnm⟩ := hQ i hbs (by omega)
      have hlen : bs.length = i := by rw [hbs]; simp
      have hones : ∀ a, a ∈ live_pairs m → a.2 = 1 := by
        intro a ha
        rw [hlive] at ha
        exact (ones_run_mem ha).1
      have hex : trailing_ones W (bs ++ [true]) ≤ k + 1 := by
        rw [hj, trailing_ones_replicate (by omega)]
        exact hjk
      obtain ⟨hnm1, P1, D, hsplit, hD, hlive1⟩ :=
        quiet_call (by omega) hW32 hk (by omega) hl hinv hones true hex m1 hadv
      have hDnil : D = [] := by
        rw [List.eq_nil_iff_forall_not_mem]
        intro d hd
        have h1 := hD d hd
        have h2 : d ∈ ones_run 0 i := by
          rw [← hlive, hsplit]; exact List.mem_append_right _ hd
        have h3 := ones_run_mem h2
        omega
      rw [hDnil, List.append_nil] at hsplit
      rw [if_pos rfl, ← hsplit, hlive, hlen] at hlive1
      refine ⟨?_, by rw [hnm1, hnm]⟩
      rw [hlive1, ones_run]
      simp)
    (List.replicate n true) (by simp; omega) _ _ hrun
  exact h n rfl hn

theorem count_ones_two (n : Nat) :
    (List.replicate n 1 ++ [2]).count 1 = n ∧ (List.replicate n 1 ++ [2]).count 2 = 1 ∧
      (List.replicate n 1 ++ [2]).sum = n + 2 := by
  refine ⟨?_, ?_, ?_⟩
  · rw [List.count_append, List.count_replicate_self]; simp
  · rw [List.count_append, List.count_replicate]; simp
  · rw [List.sum_append, List.sum_replicate]; simp

/-- The call with the `(k + 2)`-th consecutive 1-bit: the admission brings
class 0 to `k + 2` buckets, one merge round folds the bucket of tick 1 into the
bucket of tick 2, and the loop ends. -/
theorem trigger_call {W k : Nat} {e : Int} {s : StateApx}
    (hW32 : W < 4294967296) (hk : 1 ≤ k) (hkW : k + 2 ≤ W)
    (hinv : Inv W k e (List.replicate (k + 1) true) s)
    (hlive : live_pairs s = ones_run 0 (k + 1))
    (s3 : StateApx) (r : Nat) (hadv : advance_state s true = .ok s3)
    (hans : answer s3 = .ok r) :
    live_pairs s3 = ones_run 2 k ++ [(2, 2)] ∧ s3.N_MERGES = u64 (s.N_MERGES + 1) ∧
      s3.total_sum = k + 2 ∧ s3.count 0 = k ∧ s3.count 1 = 1 ∧ r = k + 1 := by
  have hlen0 : (List.replicate (k + 1) true).length = k + 1 := by simp
  obtain ⟨L, F, E, hc, hb, hw⟩ := hinv
  obtain ⟨s1, L1, D, F1, E1, h1, h2, h3, h4, h5, h6, h7, _, h9, hcase⟩ :=
    call_detail (by omega) (by omega) (by rw [hlen0]; omega) hc hb hw true s3 hadv
  rcases hcase with ⟨hitem, _⟩ | ⟨_, hk2, f, F2, s2, hF1, had, hmid, hpay, hnm, hml⟩
  · cases hitem
  have hDnil : D = [] := by
    rw [List.eq_nil_iff_forall_not_mem]
    intro d hd
    have h10 := h7 d hd
    have h11 : pay s.buckets d ∈ ones_run 0 (k + 1) := by
      rw [← hlive, hc.live_pay, h5]
      exact List.mem_map.2 ⟨d, List.mem_append_right _ hd, rfl⟩
    have h12 := (ones_run_mem h11).2.1
    have h13 : (pay s.buckets d).1 = (s.buckets d).timestamp := rfl
    rw [hlen0] at h10
    omega
  rw [hDnil, List.append_nil] at h5
  subst h5
  have hpay2 : (f :: L).map (pay s2.buckets) = ones_run 0 (k + 2) := by
    rw [hpay, h6, ← hc.live_pay, hlive, hlen0]
    show _ = (0 + (k + 1) + 1, 1) :: ones_run 0 (k + 1)
    simp
  have hcount : s2.count 0 = k + 2 := by
    rw [hmid.core.rep.cnt 0 (by norm_num), hpay2, sizes_ones_run]
    simp
  obtain ⟨A1, y, x, B, s4, hL, hr, hm2⟩ := merge_round hk hmid hcount
  have hbefore := hr.before
  rw [← hL, hpay2, ones_run_split] at hbefore
  have hB : B = [] := by
    rw [List.eq_nil_iff_forall_not_mem]
    intro z hz
    have h10 : pay s2.buckets z ∈ (f :: L).map (pay s2.buckets) := by
      rw [hL]
      exact List.mem_map.2 ⟨z, by simp [hz], rfl⟩
    rw [hpay2] at h10
    exact hr.rest z hz (by
      have := (ones_run_mem h10).1
      simpa using this)
  subst hB
  simp only [List.map_nil, pow_zero] at hbefore
  obtain ⟨hA1, hyx⟩ := List.append_inj' hbefore rfl
  have hty : (s2.buckets y).timestamp = 2 := by
    have := congrArg (fun l => l.map Prod.fst) hyx
    simp at this
    exact this.1.symm
  have hafter := hr.pairs
  rw [← hA1, hty] at hafter
  simp only [List.map_nil, Nat.zero_add, pow_one] at hafter
  have hsz := congrArg sizes hafter
  rw [sizes_append, sizes_ones_run] at hsz
  have hsz2 : sizes [((2 : Nat), (2 : Nat))] = [2] := rfl
  rw [hsz2] at hsz
  obtain ⟨hc1, hc2, hsum⟩ := count_ones_two k
  have hcnt1 : s4.count 1 = 1 := by
    rw [hm2.core.rep.cnt 1 (by norm_num), hsz]
    simpa using hc2
  have hq := merge_loop_quiet hm2 (by rw [hcnt1]; omega) 63
  have hml2 : merge_loop 65 0 s2 = .ok s4 := by
    rw [merge_loop_step 64 0 s2 (by norm_num), hmid.threshold, if_pos hcount, hr.round, ok_bind]
    exact hq
  rw [hml] at hml2
  injection hml2 with hml2
  subst hml2
  have htot : s3.total_sum = k + 2 := by rw [hm2.core.rep.sum, hsz]; exact hsum
  refine ⟨by rw [hm2.core.live_pay]; exact hafter, by rw [hr.merges, hnm, h9], htot, ?_,
    hcnt1, ?_⟩
  · rw [hm2.core.rep.cnt 0 (by norm_num), hsz]
    simp
  · obtain ⟨r1, hr1, _, _, _, hcase⟩ :=
      answer_core hk hW32 hm2.len hm2.core hm2.window
    rw [hans] at hr1
    injection hr1 with hr1
    subst hr1
    rcases hcase with ⟨ht, _⟩ | ⟨x1, ht, _, hs1, _⟩
    · rcases DL_tail hm2.core.rep.live with ⟨hnil, _, _⟩ | ⟨A, x2, _, h10⟩
      · simp at hnil
      · rw [ht] at h10
        have : (0 : Int) ≤ (x2 : Int) := Int.ofNat_nonneg x2
        omega
    · obtain ⟨A, hA⟩ := hm2.core.tail_mem ht
      have hxy : x1 = y := by
        have := List.append_inj' hA rfl
        simpa using this.2.symm
      subst hxy
      have hsy : (s3.buckets x1).size = 2 ^ (0 + 1) := congrArg Prod.snd hr.pay_all.2.1
      simp only [Nat.zero_add, pow_one] at hsy
      omega

/-- A run that has left defined behaviour stays so, whatever bits follow. -/
theorem run_append_error {mem : Nat → Bucket} {merges W k : Nat} {bits : List Bool}
    {err : Fault} (h : run mem merges W k bits = .error err) (more : List Bool) :
    run mem merges W k (bits ++ more) = .error err := by
  induction more using List.reverseRecOn with
  | nil => rw [List.append_nil]; exact h
  | append_singleton more b ih =>
    rw [← List.append_assoc, run_snoc, ih, feed_error]

/-! ## The first merge -/

/-- The merge trigger, on the runs that return. For `k ≥ 1` and a window of at
least `k + 2` ticks, `k + 2` consecutive 1-bits on a fresh state perform exactly
one merge, in the last call: the merge counter is unchanged after `k + 1` calls
and one more after `k + 2`; then the live list is `k` buckets of size 1 with the
timestamps `k + 2, ..., 3` followed by one bucket of size 2 with timestamp 2,
`total_sum = k + 2`, `count[0] = k`, `count[1] = 1`, and the call returns
`k + 1`; unless the run leaves defined behaviour, which happens only for
parameters on which the constructor wraps (outside `Safe`). -/
theorem merge_trigger (mem : Nat → Bucket) (merges W k : Nat)
    (hk : 1 ≤ k) (hkW : k + 2 ≤ W) (hW32 : W < 4294967296) :
    (∃ s0 outs0 s outs,
      run mem merges W k (List.replicate (k + 1) true) = .ok (s0, outs0) ∧
      s0.N_MERGES = merges ∧ live_pairs s0 = ones_run 0 (k + 1) ∧
      run mem merges W k (List.replicate (k + 2) true) = .ok (s, outs) ∧
      s.N_MERGES = u64 (merges + 1) ∧ live_pairs s = ones_run 2 k ++ [(2, 2)] ∧
      s.total_sum = k + 2 ∧ s.count 0 = k ∧ s.count 1 = 1 ∧
      outs.getLast? = some (k + 1)) ∨
    ((∃ err, run mem merges W k (List.replicate (k + 2) true) = .error err) ∧
      ¬ Safe W k) := by
  have hk32 : k < 4294967296 := by omega
  rcases run_core mem merges W k (List.replicate (k + 2) true) (by omega) hW32 hk hk32
      (by simp; omega) with ⟨s, outs, h1, _, _, _⟩ | h
  · left
    have h2 := h1
    rw [List.replicate_succ'] at h2
    obtain ⟨s0, outs0, r, hrun0, _, houts, hadv, hans⟩ := run_last h2
    obtain ⟨hlive0, hnm0⟩ := ones_calls hW32 hk hkW (le_refl _) hrun0
    have hinv0 := run_ok_inv (by omega) hW32 hk hk32 (by simp; omega) hrun0
    obtain ⟨h3, h4, h5, h6, h7, h8⟩ :=
      trigger_call hW32 hk hkW hinv0 hlive0 s r hadv hans
    refine ⟨s0, outs0, s, outs, hrun0, hnm0, hlive0, h1, by rw [h4, hnm0], h3, h5, h6, h7, ?_⟩
    rw [houts, h8]
    simp
  · exact Or.inr h

/-- The merge trigger at work: window 16, `k = 1`: three 1-bits leave the bucket of size 1
of tick 3 and the bucket of size 2 of tick 2, and the third call returns 2. -/
theorem merge_trigger_witness :
    (live_pairs after_three_wide = [(3, 1), (2, 2)] ∧
      outs_of (run blank 0 16 1 [true, true, true]) = [1, 2, 2] ∧
      after_two_wide.N_MERGES = 0 ∧ after_three_wide.N_MERGES = 1) ∧
    ((∃ s0 outs0 s outs,
      run blank 0 16 1 (List.replicate (1 + 1) true) = .ok (s0, outs0) ∧
      s0.N_MERGES = 0 ∧ live_pairs s0 = ones_run 0 (1 + 1) ∧
      run blank 0 16 1 (List.replicate (1 + 2) true) = .ok (s, outs) ∧
      s.N_MERGES = u64 (0 + 1) ∧ live_pairs s = ones_run 2 1 ++ [(2, 2)] ∧
      s.total_sum = 1 + 2 ∧ s.count 0 = 1 ∧ s.count 1 = 1 ∧
      outs.getLast? = some (1 + 1)) ∨
    ((∃ err, run blank 0 16 1 (List.replicate (1 + 2) true) = .error err) ∧
      ¬ Safe 16 1)) :=
  ⟨by decide!, merge_trigger blank 0 16 1 (by decide) (by decide) (by decide)⟩

/-- C13 fails on the code: for `wnd_size = 2^32 - 1` and `k = 2^27 - 2`, where
`k + 2 ≤ wnd_size`, the constructor computes `max_b = 32 * 2^27 = 2^32`, which
is not above `wnd_size + 1 = 2^32`, and the cast `(uint32_t)max_b` gives 0
slots, with `free_head = 0`. The first 1-bit reads `buckets[0]` outside the
arena, so the run of `k + 2` 1-bits performs no merge and returns nothing. -/
theorem merge_trigger_overflow :
    134217726 + 2 ≤ 4294967295 ∧
    is_ok (wnd_bit_count_apx_new blank 0 4294967295 134217726) = true ∧
    (state_of (wnd_bit_count_apx_new blank 0 4294967295 134217726)).max_buckets = 0 ∧
    (state_of (wnd_bit_count_apx_new blank 0 4294967295 134217726)).free_head = 0 ∧
    run blank 0 4294967295 134217726 [true] = .error Fault.out_of_bounds ∧
    run blank 0 4294967295 134217726 (List.replicate (134217726 + 2) true) =
      .error Fault.out_of_bounds := by
  have h1 : fault_of (run blank 0 4294967295 134217726 [true]) = some Fault.out_of_bounds := by
    decide!
  have h2 : run blank 0 4294967295 134217726 [true] = .error Fault.out_of_bounds := by
    cases hr : run blank 0 4294967295 134217726 [true] with
    | ok p => rw [hr] at h1; simp [fault_of] at h1
    | error err =>
      rw [hr] at h1
      simp only [fault_of, Option.some.injEq] at h1
      rw [h1]
  refine ⟨by decide, by decide!, by decide!, by decide!, h2, ?_⟩
  have h3 := run_append_error h2 (List.replicate (134217726 + 1) true)
  have h4 : [true] ++ List.replicate (134217726 + 1) true =
      List.replicate (134217726 + 2) true := by
    rw [show (134217726 : Nat) + 2 = (134217726 + 1) + 1 from rfl, List.replicate_succ]
    rfl
  rw [h4] at h3
  exact h3

end WindowBitCountApx
